import Mathlib

/-!
# gpb: schema-less reader for the Protocol Buffers wire format

A shallow embedding of `gpb.go` (package `gpb`, repository ywx217/gpb).

* Byte slices (`[]byte`) are lists of naturals; a byte is a natural below 256.
* `protowire.Number` (int32), `protowire.Type` (int8) and Go `int` are `Int`;
  `uint64` is `Nat` (every value the code computes stays below `2^64`).
* A Go function that may hit a runtime fault (slice bounds out of range, index
  out of range) returns an `Outcome`; state captured by closures is threaded
  explicitly and is returned next to the outcome.
* Loops and recursion run on an explicit fuel argument; the entry points hand
  out enough fuel (the buffer length, the path length).
-/

namespace Gpb

/-! ## The protowire primitives used by gpb.go -/

/-- Modelled from the spec: error code of the external protowire package for truncated input
(a negative consumed length, spec section 4.1). -/
def errCodeTruncated : Int := -1

/-- Modelled from the spec: error code of the external protowire package for an invalid field
number in a tag (a negative consumed length, spec section 4.1). -/
def errCodeFieldNumber : Int := -2

/-- Modelled from the spec: error code of the external protowire package for a varint that
overflows 64 bits (a negative consumed length, spec section 4.1). -/
def errCodeOverflow : Int := -3

/-- Modelled from the spec: the body of the external `protowire.ConsumeVarint` (spec sections 4.1
and 6: little-endian base 128, the top bit of each byte is the continuation bit, at most 10
bytes for a 64-bit value).  `i` is the index of the byte being read and `acc` the value of the
bytes read so far.  The tenth byte may only be 0 or 1. -/
def ConsumeVarintFrom : Nat → Nat → List Nat → Nat × Int
  | _, _, [] => (0, errCodeTruncated)
  | i, acc, y :: bs =>
    if i = 9 then
      if y < 2 then (acc + y * 2 ^ 63, 10) else (0, errCodeOverflow)
    else if y < 0x80 then (acc + y * 2 ^ (7 * i), (i : Int) + 1)
    else ConsumeVarintFrom (i + 1) (acc + (y - 0x80) * 2 ^ (7 * i)) bs

/-- Modelled from the spec: the external `protowire.ConsumeVarint` (spec section 4.1):
the decoded value and the number of bytes read, negative on malformed input. -/
def ConsumeVarint (b : List Nat) : Nat × Int :=
  ConsumeVarintFrom 0 0 b

/-- Modelled from the spec: the external `protowire.DecodeTag`: field number `x >> 3` and wire
type `x & 7` (spec section 6); the number is `-1` when it does not fit an int32. -/
def DecodeTag (x : Nat) : Int × Int :=
  if x / 8 > 2147483647 then (-1, 0) else ((x / 8 : Nat), (x % 8 : Nat))

/-- Modelled from the spec: the external `protowire.ConsumeTag` (spec section 4.1): field number,
wire type and number of bytes read, negative on malformed input or a field number below 1. -/
def ConsumeTag (b : List Nat) : Int × Int × Int :=
  let (v, n) := ConsumeVarint b
  if n < 0 then (0, 0, n)
  else
    let (num, typ) := DecodeTag v
    if num < 1 then (0, 0, errCodeFieldNumber) else (num, typ, n)

/-- Wire type constants of protowire (spec section 3). -/
def VarintType : Int := 0
/-- Wire type FIXED64. -/
def Fixed64Type : Int := 1
/-- Wire type LEN. -/
def BytesType : Int := 2
/-- Wire type SGROUP. -/
def StartGroupType : Int := 3
/-- Wire type EGROUP. -/
def EndGroupType : Int := 4
/-- Wire type FIXED32. -/
def Fixed32Type : Int := 5

/-- The constant `InvalidWireType` of gpb.go. -/
def InvalidWireType : Int := -1

/-! ## Data model -/

/-- The three error values of gpb.go; `ErrUnknownWireType` carries the wire type that
`errors.WithMessagef` attaches. -/
inductive Err where
  | ErrUnknownWireType (wireType : Int)
  | ErrInvalidLength
  | ErrEndGroupNotFound
  deriving DecidableEq, Repr

/-- The struct `Result` of gpb.go. -/
structure Result where
  WireType : Int := 0
  Varint : Nat := 0
  Raw : List Nat := []
  deriving DecidableEq, Repr

/-- How a Go call ends: it returns a value, it stops with a runtime fault (slice bounds or index
out of range), or the model ran out of fuel. -/
inductive Outcome (α : Type) where
  | ret (a : α)
  | fault
  | diverge
  deriving DecidableEq, Repr

/-- The sink closure that `IterFields` installs for a group: it stops at the end-group tag and
records that it saw one (the captured variable `endGroupOccurred`). -/
def groupSink (r : Result) (endGroupOccurred : Bool) : Bool × Outcome Bool :=
  if r.WireType = EndGroupType then (true, .ret false) else (endGroupOccurred, .ret true)

/-- One pass through the tag decoding and the `switch` of the loop body of `IterFields`: either
the loop body returns (an error with the bytes consumed so far, or a runtime fault), or the
payload has been read and control reaches the code after the `switch`. -/
inductive Step where
  | stop (out : Outcome (Int × Option Err))
  | cont (fieldNumber : Int) (pb : List Nat) (consumedLength : Int) (field : Result)
  deriving DecidableEq, Repr

/-- The loop body of `IterFields` from `protowire.ConsumeTag` to the end of the `switch`
(gpb.go lines 124-205).  `scanGroup fieldNumber pb` is the recursive call
`subGroup.IterFields(fieldNumber, ...)` on the bytes after a start-group tag; it returns the
captured flag `endGroupOccurred` and what the call returned. -/
def readField (scanGroup : Int → List Nat → Bool × Outcome (Int × Option Err))
    (pb : List Nat) (consumedLength : Int) (field : Result) : Step :=
  match ConsumeTag pb with
  | (fieldNumber, wireType, totalLen) =>
    if totalLen < 0 then .stop (.ret (consumedLength, some .ErrInvalidLength))
    else
      let pb := pb.drop totalLen.toNat
      let consumedLength := consumedLength + totalLen
      let field : Result := { field with WireType := wireType, Varint := 0 }
      if wireType = VarintType then
        match ConsumeVarint pb with
        | (v, n) =>
          if n < 0 then .stop (.ret (consumedLength, some .ErrInvalidLength))
          else
            .cont fieldNumber (pb.drop n.toNat) (consumedLength + n)
              { field with Varint := v, Raw := pb.take n.toNat }
      else if wireType = Fixed32Type then
        if pb.length < 4 then .stop (.ret (consumedLength, some .ErrInvalidLength))
        else .cont fieldNumber (pb.drop 4) (consumedLength + 4) { field with Raw := pb.take 4 }
      else if wireType = Fixed64Type then
        if pb.length < 8 then .stop (.ret (consumedLength, some .ErrInvalidLength))
        else .cont fieldNumber (pb.drop 8) (consumedLength + 8) { field with Raw := pb.take 8 }
      else if wireType = BytesType then
        match ConsumeVarint pb with
        | (v, n) =>
          if n < 0 then .stop (.ret (consumedLength, some .ErrInvalidLength))
          else
            let pb := pb.drop n.toNat
            -- `pb[:v]` and `pb[v:]`: Go faults when `v` exceeds `len(pb)`; the code has no check
            if v > pb.length then .stop .fault
            else
              .cont fieldNumber (pb.drop v) (consumedLength + (n + v))
                { field with Raw := pb.take v }
      else if wireType = StartGroupType then
        match scanGroup fieldNumber pb with
        | (_, .fault) => .stop .fault
        | (_, .diverge) => .stop .diverge
        | (_, .ret (_, some err)) => .stop (.ret (consumedLength, some err))
        | (endGroupOccurred, .ret (groupLength, none)) =>
          if !endGroupOccurred then .stop (.ret (consumedLength, some .ErrEndGroupNotFound))
          else if groupLength < 0 ∨ groupLength > pb.length then .stop .fault
          else
            let field : Result := { field with Raw := pb.take groupLength.toNat }
            let pb := pb.drop groupLength.toNat
            let consumedLength := consumedLength + groupLength
            match ConsumeTag pb with
            | (_, _, endGroupLen) =>
              if endGroupLen < 0 then .stop (.ret (consumedLength, some .ErrInvalidLength))
              else
                .cont fieldNumber (pb.drop endGroupLen.toNat) (consumedLength + endGroupLen) field
      else if wireType = EndGroupType then
        .cont fieldNumber pb (consumedLength - totalLen) field
      else .stop (.ret (consumedLength, some (.ErrUnknownWireType wireType)))

/-- The loop of `Result.IterFields` (gpb.go lines 123-215).  The arguments after the sink are the
loop variables `pb`, `consumedLength` and `field` and the state captured by the sink.  A sink
maps the delivered field and its captured state to the new state and its boolean result. -/
def IterFieldsLoop : (fuel : Nat) → {σ : Type} → (pbNumber : Int) →
    (resultSink : Result → σ → σ × Outcome Bool) →
    (pb : List Nat) → (consumedLength : Int) → (field : Result) → σ →
    σ × Outcome (Int × Option Err)
  | 0, _, _, _, pb, consumedLength, _, st =>
    if pb.length > 0 then (st, .diverge) else (st, .ret (consumedLength, none))
  | fuel + 1, _, pbNumber, resultSink, pb, consumedLength, field, st =>
    if pb.length > 0 then
      match readField (fun fieldNumber tail => IterFieldsLoop fuel fieldNumber groupSink tail 0 {} false)
          pb consumedLength field with
      | .stop out => (st, out)
      | .cont fieldNumber pb consumedLength field =>
        if fieldNumber ≠ pbNumber then
          IterFieldsLoop fuel pbNumber resultSink pb consumedLength field st
        else
          match resultSink field st with
          | (st, .ret true) => IterFieldsLoop fuel pbNumber resultSink pb consumedLength field st
          | (st, .ret false) => (st, .ret (consumedLength, none))
          | (st, .fault) => (st, .fault)
          | (st, .diverge) => (st, .diverge)
    else (st, .ret (consumedLength, none))

/-- The method `Result.IterFields`: scan `r.Raw` field by field and hand every field numbered
`pbNumber` to `resultSink`.  Each turn of the loop removes at least one byte, so `len(r.Raw)`
units of fuel are enough. -/
def IterFields {σ : Type} (r : Result) (pbNumber : Int)
    (resultSink : Result → σ → σ × Outcome Bool) (st : σ) : σ × Outcome (Int × Option Err) :=
  IterFieldsLoop r.Raw.length pbNumber resultSink r.Raw 0 {} st

/-! ## The path resolver -/

/-- The variables that the closure `walkFunc` of `GetIter` captures: `skip`, `depth`, the named
result `err`, and the state captured by the caller's sink. -/
structure WalkState (σ : Type) where
  skip : Bool := false
  depth : Int := 0
  err : Option Err := none
  user : σ

/-- Go indexing `pbNumbers[depth]`: `none` stands for the index-out-of-range fault. -/
def indexPath (pbNumbers : List Int) (depth : Int) : Option Int :=
  if depth < 0 then none else pbNumbers.get? depth.toNat

/-- The terminal branch of `walkFunc` (gpb.go lines 93-99): hand the field to the caller's sink
and set `skip` when the sink answers false. -/
def walkDeliver {σ : Type} (resultSink : Result → σ → σ × Outcome Bool) (it : Result)
    (st : WalkState σ) : WalkState σ × Outcome Bool :=
  match resultSink it st.user with
  | (user, .ret true) => ({ st with user := user }, .ret true)
  | (user, .ret false) => ({ st with user := user, skip := true }, .ret false)
  | (user, .fault) => ({ st with user := user }, .fault)
  | (user, .diverge) => ({ st with user := user }, .diverge)

/-- The closure `walkFunc` of `GetIter` (gpb.go lines 89-109).  The fuel bounds the nesting of
the recursive descents; one unit is used by each `it.IterFields(pbNumbers[depth], walkFunc)`. -/
def walkFunc {σ : Type} (pbNumbers : List Int) (resultSink : Result → σ → σ × Outcome Bool) :
    Nat → Result → WalkState σ → WalkState σ × Outcome Bool
  | 0, it, st =>
    if st.skip then (st, .ret false)
    else if st.depth = (pbNumbers.length : Int) - 1 then walkDeliver resultSink it st
    else (st, .diverge)
  | fuel + 1, it, st =>
    if st.skip then (st, .ret false)
    else if st.depth = (pbNumbers.length : Int) - 1 then walkDeliver resultSink it st
    else
      let st := { st with depth := st.depth + 1 }
      match indexPath pbNumbers st.depth with
      | none => (st, .fault)
      | some pbNumber =>
        match IterFields it pbNumber (walkFunc pbNumbers resultSink fuel) st with
        | (st, .ret (_, some innerErr)) =>
          ({ st with err := some innerErr, skip := true }, .ret false)
        | (st, .ret (_, none)) => ({ st with depth := st.depth - 1 }, .ret true)
        | (st, .fault) => (st, .fault)
        | (st, .diverge) => (st, .diverge)

/-- The method `Result.GetIter` (gpb.go lines 83-114): the state captured by the sink after the
traversal, and the error returned.  The recursion of `walkFunc` is at most as deep as the path
is long. -/
def Result.GetIter {σ : Type} (r : Result) (resultSink : Result → σ → σ × Outcome Bool)
    (pbNumbers : List Int) (user : σ) : σ × Outcome (Option Err) :=
  let st : WalkState σ := { user := user }
  match indexPath pbNumbers st.depth with
  | none => (user, .fault)
  | some pbNumber =>
    match IterFields r pbNumber (walkFunc pbNumbers resultSink pbNumbers.length) st with
    | (st, .ret (_, some innerErr)) => (st.user, .ret (some innerErr))
    | (st, .ret (_, none)) => (st.user, .ret st.err)
    | (st, .fault) => (st.user, .fault)
    | (st, .diverge) => (st.user, .diverge)

/-- The value the named result of `Result.GetOne` starts from: the INVALID result. -/
def invalidResult : Result := { WireType := InvalidWireType }

/-- The sink of `Result.GetOne`: record the field and stop. -/
def oneSink (r : Result) (_ : Result) : Result × Outcome Bool := (r, .ret false)

/-- The sink of `Result.GetAll`: append the field and go on. -/
def allSink (r : Result) (results : List Result) : List Result × Outcome Bool :=
  (results ++ [r], .ret true)

/-- The method `Result.GetOne` (gpb.go lines 61-69); the error of `GetIter` is dropped. -/
def Result.GetOne (r : Result) (pbNumbers : List Int) : Outcome Result :=
  match r.GetIter oneSink pbNumbers invalidResult with
  | (result, .ret _) => .ret result
  | (_, .fault) => .fault
  | (_, .diverge) => .diverge

/-- The method `Result.GetAll` (gpb.go lines 72-79); the error of `GetIter` is dropped. -/
def Result.GetAll (r : Result) (pbNumbers : List Int) : Outcome (List Result) :=
  match r.GetIter allSink pbNumbers [] with
  | (results, .ret _) => .ret results
  | (_, .fault) => .fault
  | (_, .diverge) => .diverge

/-- The function `GetOne` (gpb.go lines 41-44). -/
def GetOne (pb : List Nat) (pbNumbers : List Int) : Outcome Result :=
  Result.GetOne { Raw := pb } pbNumbers

/-- The function `GetAll` (gpb.go lines 48-51). -/
def GetAll (pb : List Nat) (pbNumbers : List Int) : Outcome (List Result) :=
  Result.GetAll { Raw := pb } pbNumbers

/-- The method `Result.Exist`. -/
def Result.Exist (r : Result) : Bool := r.WireType != InvalidWireType



/-! ## The typed view layer

Signed integers are `Int`.  The pointer casts `*(*int32)(unsafe.Pointer(&x))` read the first
four bytes of `x` in memory; the model takes the little-endian layout of the machines the
package is built and tested on (amd64, arm64), where these are the low 32 bits.  A `float32` or
`float64` is represented by its IEEE-754 bit pattern, so the float `0` is the pattern `0`.
A `string` is its list of bytes, and the `nil` slice is the empty list. -/

/-- The `int32` with the given bit pattern (two's complement of the low 32 bits). -/
def int32OfBits (x : Nat) : Int :=
  if x % 2 ^ 32 < 2 ^ 31 then ((x % 2 ^ 32 : Nat) : Int) else ((x % 2 ^ 32 : Nat) : Int) - 2 ^ 32

/-- The `int64` with the given bit pattern (two's complement of the low 64 bits). -/
def int64OfBits (x : Nat) : Int :=
  if x % 2 ^ 64 < 2 ^ 63 then ((x % 2 ^ 64 : Nat) : Int) else ((x % 2 ^ 64 : Nat) : Int) - 2 ^ 64

/-- The bit pattern of an `int64` (its value modulo `2^64`). -/
def bitsOfInt64 (v : Int) : Nat := (v % 2 ^ 64).toNat

/-- Modelled from the spec: the external `protowire.DecodeZigZag` (spec sections 4.1 and 6):
`(v >> 1) ^ -(v & 1)` on a 64-bit value, an `int64`. -/
def DecodeZigZag (x : Nat) : Int :=
  Int.xor (((x % 2 ^ 64) >>> 1 : Nat) : Int) (-(((x % 2 ^ 64) &&& 1 : Nat) : Int))

/-- Modelled from the spec: the external `protowire.DecodeBool` (spec section 4.1): true iff the
value is not zero. -/
def DecodeBool (x : Nat) : Bool := x != 0

/-- Modelled from the spec: the external `protowire.ConsumeFixed32` (spec sections 4.1 and 6):
the little-endian 32-bit word in the first four bytes, and 4; a negative length when fewer
than four bytes are there. -/
def ConsumeFixed32 : List Nat → Nat × Int
  | b0 :: b1 :: b2 :: b3 :: _ =>
    (b0 % 256 + b1 % 256 * 2 ^ 8 + b2 % 256 * 2 ^ 16 + b3 % 256 * 2 ^ 24, 4)
  | _ => (0, errCodeTruncated)

/-- Modelled from the spec: the external `protowire.ConsumeFixed64` (spec sections 4.1 and 6):
the little-endian 64-bit word in the first eight bytes, and 8; a negative length when fewer
than eight bytes are there. -/
def ConsumeFixed64 : List Nat → Nat × Int
  | b0 :: b1 :: b2 :: b3 :: b4 :: b5 :: b6 :: b7 :: _ =>
    (b0 % 256 + b1 % 256 * 2 ^ 8 + b2 % 256 * 2 ^ 16 + b3 % 256 * 2 ^ 24 + b4 % 256 * 2 ^ 32 +
      b5 % 256 * 2 ^ 40 + b6 % 256 * 2 ^ 48 + b7 % 256 * 2 ^ 56, 8)
  | _ => (0, errCodeTruncated)

/-- The method `Result.Int32` (gpb.go lines 220-225). -/
def Result.Int32 (r : Result) : Int :=
  if r.WireType ≠ VarintType then 0 else int32OfBits r.Varint

/-- The method `Result.Int64` (gpb.go lines 227-232). -/
def Result.Int64 (r : Result) : Int :=
  if r.WireType ≠ VarintType then 0 else int64OfBits r.Varint

/-- The method `Result.Uint32` (gpb.go lines 234-239). -/
def Result.Uint32 (r : Result) : Nat :=
  if r.WireType ≠ VarintType then 0 else r.Varint % 2 ^ 32

/-- The method `Result.Uint64` (gpb.go lines 241-246). -/
def Result.Uint64 (r : Result) : Nat :=
  if r.WireType ≠ VarintType then 0 else r.Varint

/-- The method `Result.Bool` (gpb.go lines 248-253). -/
def Result.Bool (r : Result) : Bool :=
  if r.WireType ≠ VarintType then false else DecodeBool r.Varint

/-- The method `Result.Sint32` (gpb.go lines 257-263): the low 32 bits of the decoded `int64`. -/
def Result.Sint32 (r : Result) : Int :=
  if r.WireType ≠ VarintType then 0 else int32OfBits (bitsOfInt64 (DecodeZigZag r.Varint))

/-- The method `Result.Sint64` (gpb.go lines 265-270). -/
def Result.Sint64 (r : Result) : Int :=
  if r.WireType ≠ VarintType then 0 else DecodeZigZag r.Varint

/-- The method `Result.Float32` (gpb.go lines 274-283); the result is the bit pattern of the
`float32`. -/
def Result.Float32 (r : Result) : Nat :=
  if r.WireType ≠ Fixed32Type then 0
  else
    match ConsumeFixed32 r.Raw with
    | (v, n) => if n < 0 then 0 else v

/-- The method `Result.Fixed32` (gpb.go lines 285-294). -/
def Result.Fixed32 (r : Result) : Nat :=
  if r.WireType ≠ Fixed32Type then 0
  else
    match ConsumeFixed32 r.Raw with
    | (v, n) => if n < 0 then 0 else v

/-- The method `Result.SFixed32` (gpb.go lines 296-305). -/
def Result.SFixed32 (r : Result) : Int :=
  if r.WireType ≠ Fixed32Type then 0
  else
    match ConsumeFixed32 r.Raw with
    | (v, n) => if n < 0 then 0 else int32OfBits v

/-- The method `Result.Float64` (gpb.go lines 310-319); the result is the bit pattern of the
`float64`. -/
def Result.Float64 (r : Result) : Nat :=
  if r.WireType ≠ Fixed64Type then 0
  else
    match ConsumeFixed64 r.Raw with
    | (v, n) => if n < 0 then 0 else v

/-- The method `Result.Fixed64` (gpb.go lines 322-331). -/
def Result.Fixed64 (r : Result) : Nat :=
  if r.WireType ≠ Fixed64Type then 0
  else
    match ConsumeFixed64 r.Raw with
    | (v, n) => if n < 0 then 0 else v

/-- The method `Result.SFixed64` (gpb.go lines 334-343). -/
def Result.SFixed64 (r : Result) : Int :=
  if r.WireType ≠ Fixed64Type then 0
  else
    match ConsumeFixed64 r.Raw with
    | (v, n) => if n < 0 then 0 else int64OfBits v

/-- The method `Result.String` (gpb.go lines 348-353); the string is its list of bytes. -/
def Result.String (r : Result) : List Nat :=
  if r.WireType ≠ BytesType then [] else r.Raw

/-- The method `Result.Bytes` (gpb.go lines 356-361); `nil` is the empty list. -/
def Result.Bytes (r : Result) : List Nat :=
  if r.WireType ≠ BytesType then [] else r.Raw

/-! ## The packed unpacker -/

/-- The loop of `Result.UnpackVarint` (gpb.go lines 391-402) on the variables `pb` and
`results`.  Each turn that goes on removes at least one byte, so `len(pb)` units of fuel are
enough and the case of no fuel is met with an empty `pb` only. -/
def UnpackVarintLoop : Nat → List Nat → List Result → List Result
  | 0, _, results => results
  | fuel + 1, pb, results =>
    if pb.length > 0 then
      match ConsumeVarint pb with
      | (v, n) =>
        if n < 0 then results
        else
          UnpackVarintLoop fuel (pb.drop n.toNat)
            (results ++ [{ WireType := VarintType, Varint := v, Raw := pb.take n.toNat }])
    else results

/-- The method `Result.UnpackVarint` (gpb.go lines 385-404); `nil` is the empty list. -/
def Result.UnpackVarint (r : Result) : List Result :=
  if r.WireType ≠ BytesType then [] else UnpackVarintLoop r.Raw.length r.Raw []

/-- The loop of `Result.UnpackFixed32` (gpb.go lines 413-419): while at least four bytes are
left, append `pb[:4]` and go on with `pb[4:]`. -/
def UnpackFixed32Loop : List Nat → List Result → List Result
  | b0 :: b1 :: b2 :: b3 :: pb, results =>
    UnpackFixed32Loop pb (results ++ [{ WireType := Fixed32Type, Raw := [b0, b1, b2, b3] }])
  | _, results => results

/-- The method `Result.UnpackFixed32` (gpb.go lines 407-421). -/
def Result.UnpackFixed32 (r : Result) : List Result :=
  if r.WireType ≠ BytesType then [] else UnpackFixed32Loop r.Raw []

/-- The loop of `Result.UnpackFixed64` (gpb.go lines 430-436): while at least eight bytes are
left, append `pb[:8]` and go on with `pb[8:]`. -/
def UnpackFixed64Loop : List Nat → List Result → List Result
  | b0 :: b1 :: b2 :: b3 :: b4 :: b5 :: b6 :: b7 :: pb, results =>
    UnpackFixed64Loop pb
      (results ++ [{ WireType := Fixed64Type, Raw := [b0, b1, b2, b3, b4, b5, b6, b7] }])
  | _, results => results

/-- The method `Result.UnpackFixed64` (gpb.go lines 424-438). -/
def Result.UnpackFixed64 (r : Result) : List Result :=
  if r.WireType ≠ BytesType then [] else UnpackFixed64Loop r.Raw []

/-- The method `Result.Unpack` (gpb.go lines 371-382). -/
def Result.Unpack (r : Result) (itemType : Int) : List Result :=
  if itemType = VarintType then r.UnpackVarint
  else if itemType = Fixed32Type then r.UnpackFixed32
  else if itemType = Fixed64Type then r.UnpackFixed64
  else []

/-! ## The wire encoding (the writer's side, which gpb.go reads) -/

/-- Modelled from the spec: the standard base-128 varint encoding (spec section 6), the writer
that goes with `protowire.ConsumeVarint`: seven bits per byte, least significant group first,
the top bit set on every byte but the last.  The first argument bounds the number of
continuation bytes. -/
def encodeVarintAux : Nat → Nat → List Nat
  | 0, v => [v]
  | k + 1, v => if v < 128 then [v] else (v % 128 + 128) :: encodeVarintAux k (v / 128)

/-- Modelled from the spec: the varint encoding of a 64-bit value, at most 10 bytes
(spec section 6). -/
def encodeVarint (v : Nat) : List Nat := encodeVarintAux 9 v

/-- Modelled from the spec: the encoding of a tag, the varint of
`(field_number << 3) | wire_type` (spec section 6). -/
def encodeTag (num wireType : Nat) : List Nat := encodeVarint (num * 8 + wireType)

/-- A field number that a tag may carry: from 1 to `2^29 - 1` (spec section 6). -/
def ValidNumber (num : Nat) : Prop := 1 ≤ num ∧ num < 2 ^ 29

instance (num : Nat) : Decidable (ValidNumber num) := by
  unfold ValidNumber; infer_instance

/-- A field of one of the four self-delimiting wire types with its payload: the value of a
VARINT, the 4 or 8 bytes of a FIXED32 or FIXED64, the bytes of a LEN field. -/
inductive WireField where
  | varint (num : Nat) (v : Nat)
  | fixed32 (num : Nat) (payload : List Nat)
  | fixed64 (num : Nat) (payload : List Nat)
  | len (num : Nat) (payload : List Nat)
  deriving DecidableEq, Repr

/-- The field number of a field. -/
def WireField.num : WireField → Nat
  | .varint num _ => num
  | .fixed32 num _ => num
  | .fixed64 num _ => num
  | .len num _ => num

/-- The field can be written: its number is valid, a varint value and a length fit 64 bits, and
a fixed payload has 4 or 8 bytes. -/
def WireField.Valid : WireField → Prop
  | .varint num v => ValidNumber num ∧ v < 2 ^ 64
  | .fixed32 num payload => ValidNumber num ∧ payload.length = 4
  | .fixed64 num payload => ValidNumber num ∧ payload.length = 8
  | .len num payload => ValidNumber num ∧ payload.length < 2 ^ 64

instance (f : WireField) : Decidable f.Valid := by
  cases f <;> unfold WireField.Valid <;> infer_instance

/-- Modelled from the spec: the standard wire encoding of a field (spec section 6): the tag, then
the payload, the payload of a LEN field after its varint length. -/
def WireField.encode : WireField → List Nat
  | .varint num v => encodeTag num 0 ++ encodeVarint v
  | .fixed32 num payload => encodeTag num 5 ++ payload
  | .fixed64 num payload => encodeTag num 1 ++ payload
  | .len num payload => encodeTag num 2 ++ encodeVarint payload.length ++ payload

/-- The message that holds the given fields in order. -/
def encodeFields (fields : List WireField) : List Nat :=
  (fields.map WireField.encode).flatten

/-- The `Result` that the reader is expected to produce for a field: its wire type, for a VARINT
its value and its varint bytes, otherwise its payload bytes. -/
def WireField.toResult : WireField → Result
  | .varint _ v => { WireType := VarintType, Varint := v, Raw := encodeVarint v }
  | .fixed32 _ payload => { WireType := Fixed32Type, Varint := 0, Raw := payload }
  | .fixed64 _ payload => { WireType := Fixed64Type, Varint := 0, Raw := payload }
  | .len _ payload => { WireType := BytesType, Varint := 0, Raw := payload }

/-- A well-formed message: a concatenation of complete field encodings in which every
start-group tag is closed by the end-group tag of the same number, the group body being
well-formed itself. -/
inductive WellFormed : List Nat → Prop where
  | nil : WellFormed []
  | varint (num v : Nat) (rest : List Nat) : ValidNumber num → v < 2 ^ 64 → WellFormed rest →
      WellFormed (encodeTag num 0 ++ encodeVarint v ++ rest)
  | fixed32 (num : Nat) (payload rest : List Nat) : ValidNumber num → payload.length = 4 →
      WellFormed rest → WellFormed (encodeTag num 5 ++ payload ++ rest)
  | fixed64 (num : Nat) (payload rest : List Nat) : ValidNumber num → payload.length = 8 →
      WellFormed rest → WellFormed (encodeTag num 1 ++ payload ++ rest)
  | len (num : Nat) (payload rest : List Nat) : ValidNumber num → payload.length < 2 ^ 64 →
      WellFormed rest →
      WellFormed (encodeTag num 2 ++ encodeVarint payload.length ++ payload ++ rest)
  | group (num : Nat) (body rest : List Nat) : ValidNumber num → WellFormed body →
      WellFormed rest → WellFormed (encodeTag num 3 ++ body ++ encodeTag num 4 ++ rest)

/-- Hand the fields of a list to a sink one after the other, as long as it answers true. -/
def feed {σ : Type} (sink : Result → σ → σ × Outcome Bool) : List Result → σ → σ × Outcome Bool
  | [], st => (st, .ret true)
  | r :: rs, st =>
    match sink r st with
    | (st, .ret true) => feed sink rs st
    | other => other

/-- The scan for `F` passes over `body`, whatever follows it in the buffer, handing the fields
`rs` to the sink: for every sink that answers true on `rs` in turn, scanning `body ++ suffix`
comes to scanning `suffix` with all bytes of `body` counted and the sink state that `rs`
leads to. -/
def ScansThrough (F : Int) (body : List Nat) (rs : List Result) : Prop :=
  ∀ field : Result, ∃ field2 : Result,
    ∀ {σ : Type} (sink : Result → σ → σ × Outcome Bool) (suffix : List Nat) (c : Int) (st st2 : σ),
      feed sink rs st = (st2, .ret true) →
      IterFieldsLoop (body ++ suffix).length F sink (body ++ suffix) c field st =
        IterFieldsLoop suffix.length F sink suffix (c + (body.length : Nat)) field2 st2

/-! ## The writer's side of the scalar encodings -/

/-- Modelled from the spec: the zigzag encoding of an `int64` (spec sections 6 and 8), the
writer that goes with `protowire.DecodeZigZag`: `(x << 1) ^ (x >> 63)` as a uint64. -/
def EncodeZigZag (x : Int) : Nat := bitsOfInt64 (Int.xor (x * 2) (x >>> (63 : Nat)))

/-- Modelled from the spec: the zigzag encoding of an `int32` (spec section 6),
`(x << 1) ^ (x >> 31)` as a uint32, zero-extended to 64 bits. -/
def EncodeZigZag32 (x : Int) : Nat := (Int.xor (x * 2) (x >>> (31 : Nat)) % 2 ^ 32).toNat

/-- Modelled from the spec: the four little-endian bytes of a 32-bit word (spec section 6). -/
def encodeFixed32 (x : Nat) : List Nat :=
  [x % 256, x / 2 ^ 8 % 256, x / 2 ^ 16 % 256, x / 2 ^ 24 % 256]

/-- Modelled from the spec: the eight little-endian bytes of a 64-bit word (spec section 6). -/
def encodeFixed64 (x : Nat) : List Nat :=
  [x % 256, x / 2 ^ 8 % 256, x / 2 ^ 16 % 256, x / 2 ^ 24 % 256, x / 2 ^ 32 % 256,
    x / 2 ^ 40 % 256, x / 2 ^ 48 % 256, x / 2 ^ 56 % 256]

/-! ## Sinks and relations used to state the properties -/

/-- A call that did not return: it faulted or the model ran out of fuel. -/
def Outcome.aborted {α : Type} : Outcome α → Prop
  | .ret _ => False
  | _ => True

/-- Two traversals in step: same `skip` and `err`, the first `k` levels deeper than the second,
the second at level `d` or deeper, and the captured sink states related by `Ru`. -/
def WalkRel {α β : Type} (Ru : α → β → Prop) (k : Nat) (d : Int) (a : WalkState α)
    (b : WalkState β) : Prop :=
  a.skip = b.skip ∧ a.depth = b.depth + k ∧ a.err = b.err ∧ d ≤ b.depth ∧ Ru a.user b.user

/-- Two traversals that have parted: the second has set `skip`, and the captured sink states are
related by `Du`. -/
def WalkDone {α β : Type} (Du : α → β → Prop) (a : WalkState α) (b : WalkState β) : Prop :=
  b.skip = true ∧ Du a.user b.user

/-- A sink that records every field it is handed and answers with the predicate `p`. -/
def predSink (p : Result → Bool) (r : Result) (results : List Result) :
    List Result × Outcome Bool :=
  (results ++ [r], .ret (p r))

/-- A sink that counts its invocations and always answers true. -/
def countSink (_ : Result) (n : Nat) : Nat × Outcome Bool := (n + 1, .ret true)

/-- The shortest beginning of a list that ends with its first element on which `p` is false;
the whole list when there is none. -/
def takeThrough (p : Result → Bool) : List Result → List Result
  | [] => []
  | x :: xs => if p x then x :: takeThrough p xs else [x]

/-- The relation between the traversal of the path `F :: rest` and the scan for `F` alone, after
the same top-level matches: no error so far, both at level 0, and the first has collected the
concatenation of `r.GetAll(rest...)` over the matches `r` the second has collected. -/
def DescentRel (rest : List Int) (a g : WalkState (List Result)) : Prop :=
  a.skip = false ∧ a.depth = 0 ∧ a.err = none ∧ g.skip = false ∧ g.depth = 0 ∧ g.err = none ∧
    ∃ ls : List (List Result),
      List.Forall₂ (fun r l => Result.GetAll r rest = .ret l) g.user ls ∧ a.user = ls.flatten

/-- The message `b` is well-formed along the path: `b` is a well-formed message and, when the
path goes on, so is the payload of every field of `b` that the first step lands on, along the
rest of the path. -/
def DeepWF : List Int → List Nat → Prop
  | [], _ => True
  | [_], b => WellFormed b
  | F :: n :: rest, b =>
    WellFormed b ∧ ∀ rs, GetAll b [F] = .ret rs → ∀ r ∈ rs, DeepWF (n :: rest) r.Raw

/-! ## The payload layout of a delivered field -/

/-- The layout the scanner gives a field: 4 bytes of `Raw` for FIXED32, 8 for FIXED64, for
VARINT a `Raw` that is one complete varint encoding of `Varint`, and `Varint` 0 for every other
wire type. -/
def Layout (r : Result) : Prop :=
  (r.WireType = Fixed32Type → r.Raw.length = 4) ∧
    (r.WireType = Fixed64Type → r.Raw.length = 8) ∧
    (r.WireType = VarintType → ConsumeVarint r.Raw = (r.Varint, (r.Raw.length : Int))) ∧
    (r.WireType ≠ VarintType → r.Varint = 0)

instance (r : Result) : Decidable (Layout r) := by
  unfold Layout; infer_instance

/-- A sink wrapped so that it records every field it is handed, then passes it on. -/
def recordSink {σ : Type} (sink : Result → σ → σ × Outcome Bool) (r : Result)
    (st : List Result × σ) : (List Result × σ) × Outcome Bool :=
  match sink r st.2 with
  | (st2, out) => ((st.1 ++ [r], st2), out)

/-! ## The level of the traversal -/

/-- The captured state of the traversal is at level `d`: `skip` is set, or `depth` is `d`. -/
def AtLevel {σ : Type} (d : Int) (st : WalkState σ) : Prop :=
  st.skip = true ∨ st.depth = d

/-- A sink wrapped so that it records every call made to it, the field together with the captured
state at the time of the call, then passes the field on. -/
def traceSink {σ : Type} (sink : Result → σ → σ × Outcome Bool) (r : Result)
    (st : List (Result × σ) × σ) : (List (Result × σ) × σ) × Outcome Bool :=
  match sink r st.2 with
  | (st2, out) => ((st.1 ++ [(r, st.2)], st2), out)

/-- The calls of `walkFunc` in the course of `r.GetIter(resultSink, pbNumbers...)`:
`WalkCalled pbNumbers resultSink r user fuel it st` says that `walkFunc` is called on the field
`it` with the captured state `st` (and `fuel` levels of descent left).  The calls are those the
scan started by `GetIter` makes (gpb.go line 110) and those the scan started by a call that
descends makes (gpb.go line 101); what a scan calls is what the recording sink has recorded. -/
inductive WalkCalled {σ : Type} (pbNumbers : List Int)
    (resultSink : Result → σ → σ × Outcome Bool) (r : Result) (user : σ) :
    Nat → Result → WalkState σ → Prop where
  | top (pbNumber : Int) (it : Result) (st : WalkState σ) :
      indexPath pbNumbers 0 = some pbNumber →
      (it, st) ∈ (IterFields r pbNumber
        (traceSink (walkFunc pbNumbers resultSink pbNumbers.length))
        ([], ({ user := user } : WalkState σ))).1.1 →
      WalkCalled pbNumbers resultSink r user pbNumbers.length it st
  | inner (fuel : Nat) (it : Result) (st : WalkState σ) (pbNumber : Int) (it2 : Result)
      (st2 : WalkState σ) :
      WalkCalled pbNumbers resultSink r user (fuel + 1) it st →
      st.skip = false → st.depth ≠ (pbNumbers.length : Int) - 1 →
      indexPath pbNumbers (st.depth + 1) = some pbNumber →
      (it2, st2) ∈ (IterFields it pbNumber (traceSink (walkFunc pbNumbers resultSink fuel))
        ([], { st with depth := st.depth + 1 })).1.1 →
      WalkCalled pbNumbers resultSink r user fuel it2 st2

/-! ## The position of the scanner when it returns -/

/-- The value of the loop variable `pb` at each `return` inside the loop body of `IterFields`
(gpb.go lines 124-205): the bytes the scanner has not advanced past when the body returns.
`none` when the body does not return there (control reaches the code after the `switch`, or
the slice expression faults). -/
def remainingAtReturn (scanGroup : Int → List Nat → Bool × Outcome (Int × Option Err))
    (pb : List Nat) : Option (List Nat) :=
  match ConsumeTag pb with
  | (fieldNumber, wireType, totalLen) =>
    if totalLen < 0 then some pb
    else
      let pb := pb.drop totalLen.toNat
      if wireType = VarintType then
        if (ConsumeVarint pb).2 < 0 then some pb else none
      else if wireType = Fixed32Type then
        if pb.length < 4 then some pb else none
      else if wireType = Fixed64Type then
        if pb.length < 8 then some pb else none
      else if wireType = BytesType then
        if (ConsumeVarint pb).2 < 0 then some pb else none
      else if wireType = StartGroupType then
        match scanGroup fieldNumber pb with
        | (_, .fault) => none
        | (_, .diverge) => none
        | (_, .ret (_, some _)) => some pb
        | (endGroupOccurred, .ret (groupLength, none)) =>
          if !endGroupOccurred then some pb
          else if groupLength < 0 ∨ groupLength > pb.length then none
          else
            let pb := pb.drop groupLength.toNat
            if (ConsumeTag pb).2.2 < 0 then some pb else none
      else if wireType = EndGroupType then none
      else some pb

/-- The value of the loop variable `pb` when the loop of `IterFields` returns (gpb.go lines
123-215): what is left of the buffer at the `return` that ends the scan.  The control flow is
that of `IterFieldsLoop`; `none` when the scan does not return. -/
def IterFieldsLoopRemaining : (fuel : Nat) → {σ : Type} → (pbNumber : Int) →
    (resultSink : Result → σ → σ × Outcome Bool) →
    (pb : List Nat) → (consumedLength : Int) → (field : Result) → σ → Option (List Nat)
  | 0, _, _, _, pb, _, _, _ => if pb.length > 0 then none else some pb
  | fuel + 1, _, pbNumber, resultSink, pb, consumedLength, field, st =>
    if pb.length > 0 then
      match readField (fun fieldNumber tail => IterFieldsLoop fuel fieldNumber groupSink tail 0 {} false)
          pb consumedLength field with
      | .stop _ =>
        remainingAtReturn
          (fun fieldNumber tail => IterFieldsLoop fuel fieldNumber groupSink tail 0 {} false) pb
      | .cont fieldNumber pb consumedLength field =>
        if fieldNumber ≠ pbNumber then
          IterFieldsLoopRemaining fuel pbNumber resultSink pb consumedLength field st
        else
          match resultSink field st with
          | (st, .ret true) =>
            IterFieldsLoopRemaining fuel pbNumber resultSink pb consumedLength field st
          | (_, .ret false) => some pb
          | (_, .fault) => none
          | (_, .diverge) => none
    else some pb

/-- The value of `pb` when `r.IterFields(pbNumber, resultSink)` returns. -/
def IterFieldsRemaining {σ : Type} (r : Result) (pbNumber : Int)
    (resultSink : Result → σ → σ × Outcome Bool) (st : σ) : Option (List Nat) :=
  IterFieldsLoopRemaining r.Raw.length pbNumber resultSink r.Raw 0 {} st

/-! ## Generic facts about the field scanner -/

/-- A sink-state property that every call of the sink keeps is kept by the whole scan. -/
theorem IterFieldsLoop_inv {σ : Type} (P : σ → Prop) (sink : Result → σ → σ × Outcome Bool)
    (hs : ∀ r st, P st → P (sink r st).1) :
    ∀ (fuel : Nat) (F : Int) (pb : List Nat) (c : Int) (field : Result) (st : σ),
      P st → P (IterFieldsLoop fuel F sink pb c field st).1 := by
  intro fuel
  induction fuel with
  | zero =>
    intro F pb c field st h
    simp only [IterFieldsLoop]
    split <;> exact h
  | succ n ih =>
    intro F pb c field st h
    simp only [IterFieldsLoop]
    split
    · split
      · exact h
      · split
        · exact ih _ _ _ _ _ h
        · have h2 := hs ‹Result› st h
          split <;> rename_i heq <;> rw [heq] at h2
          · exact ih _ _ _ _ _ h2
          · exact h2
          · exact h2
          · exact h2
    · exact h

/-- Two scans of the same bytes with two sinks.  While the sink states are related by `R` the
sinks answer alike (or, when `X` is granted, the first one aborts); once they part, the
relation `D` holds, and `D` is kept by every later call of either sink.  Then the two scans end
alike in `R`, or end in `D`, or (under `X`) the first one aborts. -/
theorem IterFieldsLoop_couple {α β : Type} (sinkA : Result → α → α × Outcome Bool)
    (sinkB : Result → β → β × Outcome Bool) (R D : α → β → Prop) (X : Prop)
    (hstep : ∀ r a b, R a b →
      ((sinkA r a).2 = (sinkB r b).2 ∧ R (sinkA r a).1 (sinkB r b).1) ∨
        D (sinkA r a).1 (sinkB r b).1 ∨ (X ∧ (sinkA r a).2.aborted))
    (hDA : ∀ r a b, D a b → D (sinkA r a).1 b)
    (hDB : ∀ r a b, D a b → D a (sinkB r b).1) :
    ∀ (fuel : Nat) (F : Int) (pb : List Nat) (c : Int) (field : Result) (a : α) (b : β),
      R a b →
      (((IterFieldsLoop fuel F sinkA pb c field a).2 = (IterFieldsLoop fuel F sinkB pb c field b).2
          ∧ R (IterFieldsLoop fuel F sinkA pb c field a).1
              (IterFieldsLoop fuel F sinkB pb c field b).1) ∨
        D (IterFieldsLoop fuel F sinkA pb c field a).1 (IterFieldsLoop fuel F sinkB pb c field b).1 ∨
        (X ∧ (IterFieldsLoop fuel F sinkA pb c field a).2.aborted)) := by
  intro fuel
  induction fuel with
  | zero =>
    intro F pb c field a b h
    simp only [IterFieldsLoop]
    split
    · exact Or.inl ⟨rfl, h⟩
    · exact Or.inl ⟨rfl, h⟩
  | succ n ih =>
    intro F pb c field a b h
    simp only [IterFieldsLoop]
    split
    · split
      · exact Or.inl ⟨rfl, h⟩
      · rename_i fn pb2 c2 f2 _
        split
        · exact ih _ _ _ _ _ _ h
        · rcases hstep f2 a b h with ⟨h1, h2⟩ | h2 | h2
          · rcases hA : sinkA f2 a with ⟨a2, oa⟩
            rcases hB : sinkB f2 b with ⟨b2, ob⟩
            rw [hA, hB] at h1 h2
            simp only at h1 h2
            subst h1
            cases oa with
            | ret v =>
              cases v with
              | true => exact ih _ _ _ _ _ _ h2
              | false => exact Or.inl ⟨rfl, h2⟩
            | fault => exact Or.inl ⟨rfl, h2⟩
            | diverge => exact Or.inl ⟨rfl, h2⟩
          · refine Or.inr (Or.inl ?_)
            rcases hA : sinkA f2 a with ⟨a2, oa⟩
            rcases hB : sinkB f2 b with ⟨b2, ob⟩
            rw [hA, hB] at h2
            simp only at h2
            have hA2 : ∀ x, D a2 x → D (match (a2, oa) with
                | (st, Outcome.ret true) => IterFieldsLoop n F sinkA pb2 c2 f2 st
                | (st, Outcome.ret false) => (st, Outcome.ret (c2, none))
                | (st, Outcome.fault) => (st, Outcome.fault)
                | (st, Outcome.diverge) => (st, Outcome.diverge)).1 x := by
              intro x hx
              cases oa with
              | ret v =>
                cases v with
                | true => exact IterFieldsLoop_inv (fun y => D y x) sinkA (fun r y hy => hDA r y x hy) _ _ _ _ _ _ hx
                | false => exact hx
              | fault => exact hx
              | diverge => exact hx
            have hB2 : ∀ x, D x b2 → D x (match (b2, ob) with
                | (st, Outcome.ret true) => IterFieldsLoop n F sinkB pb2 c2 f2 st
                | (st, Outcome.ret false) => (st, Outcome.ret (c2, none))
                | (st, Outcome.fault) => (st, Outcome.fault)
                | (st, Outcome.diverge) => (st, Outcome.diverge)).1 := by
              intro x hx
              cases ob with
              | ret v =>
                cases v with
                | true => exact IterFieldsLoop_inv (fun y => D x y) sinkB (fun r y hy => hDB r x y hy) _ _ _ _ _ _ hx
                | false => exact hx
              | fault => exact hx
              | diverge => exact hx
            exact hA2 _ (hB2 _ h2)
          · refine Or.inr (Or.inr ⟨h2.1, ?_⟩)
            have h2 := h2.2
            rcases hA : sinkA f2 a with ⟨a2, oa⟩
            rw [hA] at h2
            cases oa with
            | ret v => exact absurd h2 (by simp [Outcome.aborted])
            | fault => simp [Outcome.aborted]
            | diverge => simp [Outcome.aborted]
    · exact Or.inl ⟨rfl, h⟩

/-- The variant of `IterFieldsLoop_inv` for properties that only matter while nothing aborts. -/
theorem IterFieldsLoop_inv_ret {σ : Type} (P : σ → Prop) (sink : Result → σ → σ × Outcome Bool)
    (hs : ∀ r st, P st → ¬ (sink r st).2.aborted → P (sink r st).1) :
    ∀ (fuel : Nat) (F : Int) (pb : List Nat) (c : Int) (field : Result) (st : σ),
      P st → ¬ (IterFieldsLoop fuel F sink pb c field st).2.aborted →
        P (IterFieldsLoop fuel F sink pb c field st).1 := by
  intro fuel
  induction fuel with
  | zero =>
    intro F pb c field st h
    simp only [IterFieldsLoop]
    split <;> exact fun _ => h
  | succ n ih =>
    intro F pb c field st h
    simp only [IterFieldsLoop]
    split
    · split
      · exact fun _ => h
      · split
        · exact ih _ _ _ _ _ h
        · have h2 := hs ‹Result› st h
          split <;> rename_i heq <;> rw [heq] at h2
          · exact ih _ _ _ _ _ (h2 (by simp [Outcome.aborted]))
          · exact fun _ => h2 (by simp [Outcome.aborted])
          · intro hc; exact absurd trivial hc
          · intro hc; exact absurd trivial hc
    · exact fun _ => h

/-! ## Fuel: the buffer length is enough -/

theorem ConsumeVarintFrom_bounds : ∀ (b : List Nat) (i acc : Nat),
    (ConsumeVarintFrom i acc b).2 < 0 ∨
      ((i : Int) + 1 ≤ (ConsumeVarintFrom i acc b).2 ∧
        (ConsumeVarintFrom i acc b).2 ≤ (i : Int) + b.length) := by
  intro b
  induction b with
  | nil => intro i acc; left; simp [ConsumeVarintFrom, errCodeTruncated]
  | cons y bs ih =>
    intro i acc
    simp only [ConsumeVarintFrom]
    by_cases h9 : i = 9
    · rw [if_pos h9]
      by_cases hy : y < 2
      · rw [if_pos hy]; right; subst h9
        refine ⟨by norm_num, ?_⟩
        show (10 : Int) ≤ ((9 : Nat) : Int) + ((y :: bs).length : Int)
        rw [List.length_cons]; push_cast; omega
      · rw [if_neg hy]; left; simp [errCodeOverflow]
    · rw [if_neg h9]
      by_cases hy : y < 0x80
      · rw [if_pos hy]; right; simp
      · rw [if_neg hy]
        rcases ih (i + 1) (acc + (y - 0x80) * 2 ^ (7 * i)) with h | ⟨h1, h2⟩
        · exact Or.inl h
        · right
          simp only [List.length_cons]
          push_cast at h1 h2 ⊢
          constructor <;> omega

theorem ConsumeVarint_bounds (b : List Nat) :
    (ConsumeVarint b).2 < 0 ∨ (1 ≤ (ConsumeVarint b).2 ∧ (ConsumeVarint b).2 ≤ b.length) := by
  have h := ConsumeVarintFrom_bounds b 0 0
  unfold ConsumeVarint
  simpa using h

theorem ConsumeTag_bounds (b : List Nat) :
    (ConsumeTag b).2.2 < 0 ∨ (1 ≤ (ConsumeTag b).2.2 ∧ (ConsumeTag b).2.2 ≤ b.length) := by
  have h := ConsumeVarint_bounds b
  unfold ConsumeTag
  rcases hv : ConsumeVarint b with ⟨v, n⟩
  rw [hv] at h
  simp only at h ⊢
  by_cases hn : n < 0
  · rw [if_pos hn]; exact Or.inl hn
  · rw [if_neg hn]
    rcases hd : DecodeTag v with ⟨num, typ⟩
    simp only
    by_cases h1 : num < 1
    · rw [if_pos h1]; left; simp [errCodeFieldNumber]
    · rw [if_neg h1]; exact h

/-- The tag decoding and `switch` call the group scan only on a strictly shorter buffer. -/
theorem readField_congr (sg sg2 : Int → List Nat → Bool × Outcome (Int × Option Err))
    (pb : List Nat) (c : Int) (field : Result)
    (h : ∀ num tail, tail.length < pb.length → sg num tail = sg2 num tail) :
    readField sg pb c field = readField sg2 pb c field := by
  unfold readField
  rcases hT : ConsumeTag pb with ⟨fn, wt, t⟩
  simp only
  by_cases ht : t < 0
  · rw [if_pos ht, if_pos ht]
  · rw [if_neg ht, if_neg ht]
    have hb := ConsumeTag_bounds pb
    rw [hT] at hb
    simp only at hb
    have hlt : (pb.drop t.toNat).length < pb.length := by
      rcases hb with hb | ⟨hb1, hb2⟩
      · exact absurd hb ht
      · rw [List.length_drop]; omega
    rw [h fn (pb.drop t.toNat) hlt]

/-- When the tag decoding and `switch` go through, the remaining buffer is strictly shorter. -/
theorem readField_cont_length (sg : Int → List Nat → Bool × Outcome (Int × Option Err))
    (pb : List Nat) (c : Int) (field : Result) (fn : Int) (pb2 : List Nat) (c2 : Int)
    (f2 : Result) (h : readField sg pb c field = .cont fn pb2 c2 f2) :
    pb2.length < pb.length := by
  unfold readField at h
  rcases hT : ConsumeTag pb with ⟨fn0, wt, t⟩
  rw [hT] at h
  simp only at h
  have hb := ConsumeTag_bounds pb
  rw [hT] at hb
  simp only at hb
  by_cases ht : t < 0
  · rw [if_pos ht] at h; cases h
  · rw [if_neg ht] at h
    rcases hb with hb | ⟨hb1, hb2⟩
    · exact absurd hb ht
    have hlt : (pb.drop t.toNat).length < pb.length := by
      rw [List.length_drop]; omega
    iterate 12 (all_goals try split at h)
    all_goals first
      | (cases h; done)
      | (cases h; simp only [List.length_drop]; omega)

/-- Fuel beyond the buffer length changes nothing. -/
theorem IterFieldsLoop_fuel : ∀ (fuel : Nat) {σ : Type} (F : Int)
    (sink : Result → σ → σ × Outcome Bool) (pb : List Nat) (c : Int) (field : Result) (st : σ),
    pb.length ≤ fuel →
      IterFieldsLoop fuel F sink pb c field st = IterFieldsLoop pb.length F sink pb c field st := by
  intro fuel
  induction fuel using Nat.strong_induction_on with
  | _ fuel ih =>
    intro σ F sink pb c field st hle
    rcases Nat.eq_zero_or_pos pb.length with h0 | hpos
    · rw [h0]
      cases fuel with
      | zero => rfl
      | succ f => simp only [IterFieldsLoop, h0, gt_iff_lt, lt_self_iff_false, if_false]
    · obtain ⟨m, hm⟩ : ∃ m, pb.length = m + 1 := ⟨pb.length - 1, by omega⟩
      obtain ⟨f, rfl⟩ : ∃ f, fuel = f + 1 := ⟨fuel - 1, by omega⟩
      rw [hm]
      have hmf : m ≤ f := by omega
      simp only [IterFieldsLoop]
      have hsg : readField (fun fieldNumber tail => IterFieldsLoop f fieldNumber groupSink tail 0 {} false)
          pb c field =
          readField (fun fieldNumber tail => IterFieldsLoop m fieldNumber groupSink tail 0 {} false)
          pb c field := by
        apply readField_congr
        intro num tail hlt
        show IterFieldsLoop f num groupSink tail 0 {} false =
          IterFieldsLoop m num groupSink tail 0 {} false
        rw [ih f (by omega) num groupSink tail 0 {} false (by omega),
          ih m (by omega) num groupSink tail 0 {} false (by omega)]
      rw [hsg]
      have hgt : pb.length > 0 := hpos
      rw [if_pos hgt, if_pos hgt]
      rcases hr : readField (fun fieldNumber tail => IterFieldsLoop m fieldNumber groupSink tail 0 {} false)
        pb c field with out | ⟨fn, pb2, c2, f2⟩
      · rfl
      · have hlen := readField_cont_length _ pb c field fn pb2 c2 f2 hr
        have e1 : ∀ s : σ, IterFieldsLoop f F sink pb2 c2 f2 s = IterFieldsLoop m F sink pb2 c2 f2 s := by
          intro s
          rw [ih f (by omega) F sink pb2 c2 f2 s (by omega),
            ih m (by omega) F sink pb2 c2 f2 s (by omega)]
        simp only [e1]

/-- The loop of `IterFields`, one turn unfolded, with the fuel out of the way: the group scan is
`IterFields` on the bytes after the start-group tag. -/
theorem IterFieldsLoop_eq {σ : Type} (fuel : Nat) (F : Int)
    (sink : Result → σ → σ × Outcome Bool) (pb : List Nat) (c : Int) (field : Result) (st : σ)
    (hle : pb.length ≤ fuel) :
    IterFieldsLoop fuel F sink pb c field st =
      if pb.length > 0 then
        match readField (fun num tail => IterFields { Raw := tail } num groupSink false)
            pb c field with
        | .stop out => (st, out)
        | .cont fn pb2 c2 f2 =>
          if fn ≠ F then IterFieldsLoop pb2.length F sink pb2 c2 f2 st
          else
            match sink f2 st with
            | (st, .ret true) => IterFieldsLoop pb2.length F sink pb2 c2 f2 st
            | (st, .ret false) => (st, .ret (c2, none))
            | (st, .fault) => (st, .fault)
            | (st, .diverge) => (st, .diverge)
      else (st, .ret (c, none)) := by
  rw [IterFieldsLoop_fuel fuel F sink pb c field st hle]
  rcases Nat.eq_zero_or_pos pb.length with h0 | hpos
  · rw [h0]
    simp only [IterFieldsLoop, h0, gt_iff_lt, lt_self_iff_false, if_false]
  · obtain ⟨m, hm⟩ : ∃ m, pb.length = m + 1 := ⟨pb.length - 1, by omega⟩
    have hgt : pb.length > 0 := hpos
    rw [if_pos hgt, hm]
    simp only [IterFieldsLoop]
    rw [if_pos hgt]
    have hsg : readField (fun fieldNumber tail => IterFieldsLoop m fieldNumber groupSink tail 0 {} false)
        pb c field =
        readField (fun num tail => IterFields { Raw := tail } num groupSink false) pb c field := by
      apply readField_congr
      intro num tail hlt
      show IterFieldsLoop m num groupSink tail 0 {} false =
        IterFieldsLoop tail.length num groupSink tail 0 {} false
      rw [IterFieldsLoop_fuel m num groupSink tail 0 {} false (by omega)]
    rw [hsg]
    rcases hr : readField (fun num tail => IterFields { Raw := tail } num groupSink false)
      pb c field with out | ⟨fn, pb2, c2, f2⟩
    · rfl
    · have hlen := readField_cont_length _ pb c field fn pb2 c2 f2 hr
      have e1 : ∀ s : σ, IterFieldsLoop m F sink pb2 c2 f2 s =
          IterFieldsLoop pb2.length F sink pb2 c2 f2 s := by
        intro s
        rw [IterFieldsLoop_fuel m F sink pb2 c2 f2 s (by omega)]
      simp only [e1]

/-! ## Reading back what the writer wrote -/

theorem encodeVarintAux_length_pos (k v : Nat) : 1 ≤ (encodeVarintAux k v).length := by
  cases k with
  | zero => simp [encodeVarintAux]
  | succ k =>
    simp only [encodeVarintAux]
    split <;> simp

theorem ConsumeVarintFrom_encode : ∀ (k i acc v : Nat) (rest : List Nat),
    i + k = 9 → v < 2 ^ (64 - 7 * i) →
      ConsumeVarintFrom i acc (encodeVarintAux k v ++ rest) =
        (acc + v * 2 ^ (7 * i), (i : Int) + (encodeVarintAux k v).length) := by
  intro k
  induction k with
  | zero =>
    intro i acc v rest hik hv
    have hi : i = 9 := by omega
    subst hi
    have hv2 : v < 2 := by simpa using hv
    simp [encodeVarintAux, ConsumeVarintFrom, hv2]
  | succ k ih =>
    intro i acc v rest hik hv
    have hi : i ≠ 9 := by omega
    simp only [encodeVarintAux]
    by_cases h128 : v < 128
    · rw [if_pos h128]
      simp [ConsumeVarintFrom, hi, h128]
    · rw [if_neg h128]
      have hy : ¬ (v % 128 + 128 < 0x80) := by omega
      rw [List.cons_append, ConsumeVarintFrom, if_neg hi, if_neg hy]
      have hpow : (2 : Nat) ^ (64 - 7 * i) = 128 * 2 ^ (64 - 7 * (i + 1)) := by
        have : 64 - 7 * i = 7 + (64 - 7 * (i + 1)) := by omega
        rw [this, pow_add]; norm_num
      have hv' : v / 128 < 2 ^ (64 - 7 * (i + 1)) := by
        rw [hpow] at hv
        exact Nat.div_lt_of_lt_mul hv
      rw [ih (i + 1) _ (v / 128) rest (by omega) hv']
      have hsplit : v % 128 + 128 - 0x80 = v % 128 := by omega
      have hp2 : (2 : Nat) ^ (7 * (i + 1)) = 128 * 2 ^ (7 * i) := by
        have : 7 * (i + 1) = 7 + 7 * i := by ring
        rw [this, pow_add]; norm_num
      rw [hsplit, hp2]
      refine Prod.ext ?_ ?_
      · simp only
        have := Nat.mod_add_div v 128
        calc acc + v % 128 * 2 ^ (7 * i) + v / 128 * (128 * 2 ^ (7 * i))
            = acc + (v % 128 + 128 * (v / 128)) * 2 ^ (7 * i) := by ring
          _ = acc + v * 2 ^ (7 * i) := by rw [this]
      · simp only [List.length_cons]
        push_cast
        ring

theorem ConsumeVarint_encodeVarint (v : Nat) (rest : List Nat) (hv : v < 2 ^ 64) :
    ConsumeVarint (encodeVarint v ++ rest) = (v, ((encodeVarint v).length : Int)) := by
  unfold ConsumeVarint encodeVarint
  rw [ConsumeVarintFrom_encode 9 0 0 v rest (by norm_num) (by simpa using hv)]
  simp

theorem encodeVarint_length_pos (v : Nat) : 1 ≤ (encodeVarint v).length :=
  encodeVarintAux_length_pos 9 v

theorem ConsumeTag_encodeTag (num wt : Nat) (rest : List Nat) (hnum : ValidNumber num)
    (hwt : wt < 8) :
    ConsumeTag (encodeTag num wt ++ rest) =
      ((num : Int), (wt : Int), ((encodeTag num wt).length : Int)) := by
  obtain ⟨h1, h2⟩ := hnum
  have hlt : num * 8 + wt < 2 ^ 64 := by
    have : (2 : Nat) ^ 29 * 8 ≤ 2 ^ 64 := by norm_num
    omega
  unfold ConsumeTag encodeTag
  rw [ConsumeVarint_encodeVarint _ rest hlt]
  have hdiv : (num * 8 + wt) / 8 = num := by omega
  have hmod : (num * 8 + wt) % 8 = wt := by omega
  have hpos : ¬ (((encodeVarint (num * 8 + wt)).length : Int) < 0) := by omega
  have hsmall : ¬ (num > 2147483647) := by
    have : (2 : Nat) ^ 29 ≤ 2147483647 := by norm_num
    omega
  simp only [hpos, if_false, DecodeTag, hdiv, hmod, hsmall]
  have hn1 : ¬ ((num : Int) < 1) := by omega
  rw [if_neg hn1]

theorem readField_varint (sg : Int → List Nat → Bool × Outcome (Int × Option Err))
    (num v : Nat) (rest : List Nat) (c : Int) (field : Result) (hnum : ValidNumber num)
    (hv : v < 2 ^ 64) :
    readField sg (encodeTag num 0 ++ encodeVarint v ++ rest) c field =
      .cont num rest (c + ((encodeTag num 0 ++ encodeVarint v).length : Nat))
        { WireType := VarintType, Varint := v, Raw := encodeVarint v } := by
  unfold readField
  rw [List.append_assoc, ConsumeTag_encodeTag num 0 _ hnum (by norm_num)]
  have hpos : ¬ (((encodeTag num 0).length : Int) < 0) := by omega
  have hpos2 : ¬ (((encodeVarint v).length : Int) < 0) := by omega
  simp only [hpos, if_false, Int.toNat_ofNat, List.drop_left, Nat.cast_zero, VarintType,
    if_true, ConsumeVarint_encodeVarint v rest hv, hpos2, List.take_left, List.length_append,
    Nat.cast_add, add_assoc]

theorem readField_fixed32 (sg : Int → List Nat → Bool × Outcome (Int × Option Err))
    (num : Nat) (payload rest : List Nat) (c : Int) (field : Result) (hnum : ValidNumber num)
    (hp : payload.length = 4) :
    readField sg (encodeTag num 5 ++ payload ++ rest) c field =
      .cont num rest (c + ((encodeTag num 5 ++ payload).length : Nat))
        { WireType := Fixed32Type, Varint := 0, Raw := payload } := by
  unfold readField
  rw [List.append_assoc, ConsumeTag_encodeTag num 5 _ hnum (by norm_num)]
  have hpos : ¬ (((encodeTag num 5).length : Int) < 0) := by omega
  have hlen : ¬ ((payload ++ rest).length < 4) := by rw [List.length_append]; omega
  have h4 : List.take 4 (payload ++ rest) = payload := by rw [← hp, List.take_left]
  have h4d : List.drop 4 (payload ++ rest) = rest := by rw [← hp, List.drop_left]
  simp [hpos, VarintType, Fixed32Type, hlen, h4, h4d, hp, add_assoc]

theorem readField_fixed64 (sg : Int → List Nat → Bool × Outcome (Int × Option Err))
    (num : Nat) (payload rest : List Nat) (c : Int) (field : Result) (hnum : ValidNumber num)
    (hp : payload.length = 8) :
    readField sg (encodeTag num 1 ++ payload ++ rest) c field =
      .cont num rest (c + ((encodeTag num 1 ++ payload).length : Nat))
        { WireType := Fixed64Type, Varint := 0, Raw := payload } := by
  unfold readField
  rw [List.append_assoc, ConsumeTag_encodeTag num 1 _ hnum (by norm_num)]
  have hpos : ¬ (((encodeTag num 1).length : Int) < 0) := by omega
  have hlen : ¬ ((payload ++ rest).length < 8) := by rw [List.length_append]; omega
  have h8 : List.take 8 (payload ++ rest) = payload := by rw [← hp, List.take_left]
  have h8d : List.drop 8 (payload ++ rest) = rest := by rw [← hp, List.drop_left]
  simp [hpos, VarintType, Fixed32Type, Fixed64Type, hlen, h8, h8d, hp, add_assoc]

theorem readField_len (sg : Int → List Nat → Bool × Outcome (Int × Option Err))
    (num : Nat) (payload rest : List Nat) (c : Int) (field : Result) (hnum : ValidNumber num)
    (hp : payload.length < 2 ^ 64) :
    readField sg (encodeTag num 2 ++ encodeVarint payload.length ++ payload ++ rest) c field =
      .cont num rest
        (c + ((encodeTag num 2 ++ encodeVarint payload.length ++ payload).length : Nat))
        { WireType := BytesType, Varint := 0, Raw := payload } := by
  unfold readField
  rw [List.append_assoc, List.append_assoc,
    ConsumeTag_encodeTag num 2 _ hnum (by norm_num)]
  have hpos : ¬ (((encodeTag num 2).length : Int) < 0) := by omega
  have hpos2 : ¬ (((encodeVarint payload.length).length : Int) < 0) := by omega
  have hlen : ¬ (payload.length > (payload ++ rest).length) := by
    rw [List.length_append]; omega
  simp only [hpos, if_false, Int.toNat_ofNat, List.drop_left,
    ConsumeVarint_encodeVarint payload.length (payload ++ rest) hp, hpos2, hlen, List.take_left]
  simp [VarintType, Fixed32Type, Fixed64Type, BytesType, add_assoc]

/-- An end-group tag at the head of the buffer: nothing but the tag is read, the tag's length is
taken back from the count, and the field keeps the payload of the field before it. -/
theorem readField_egroup (sg : Int → List Nat → Bool × Outcome (Int × Option Err))
    (num : Nat) (rest : List Nat) (c : Int) (field : Result) (hnum : ValidNumber num) :
    readField sg (encodeTag num 4 ++ rest) c field =
      .cont num rest c { WireType := EndGroupType, Varint := 0, Raw := field.Raw } := by
  unfold readField
  rw [ConsumeTag_encodeTag num 4 _ hnum (by norm_num)]
  have hpos : ¬ (((encodeTag num 4).length : Int) < 0) := by omega
  simp [hpos, VarintType, Fixed32Type, Fixed64Type, BytesType, StartGroupType, EndGroupType]

/-- A start-group tag whose group scan found the end-group tag after `body`. -/
theorem readField_group (sg : Int → List Nat → Bool × Outcome (Int × Option Err))
    (num : Nat) (body rest : List Nat) (c : Int) (field : Result) (hnum : ValidNumber num)
    (hsg : sg num (body ++ encodeTag num 4 ++ rest) = (true, .ret ((body.length : Nat), none))) :
    readField sg (encodeTag num 3 ++ body ++ encodeTag num 4 ++ rest) c field =
      .cont num rest (c + ((encodeTag num 3 ++ body ++ encodeTag num 4).length : Nat))
        { WireType := StartGroupType, Varint := 0, Raw := body } := by
  unfold readField
  rw [List.append_assoc, List.append_assoc, ConsumeTag_encodeTag num 3 _ hnum (by norm_num)]
  have hpos : ¬ (((encodeTag num 3).length : Int) < 0) := by omega
  have hpos4 : ¬ (((encodeTag num 4).length : Int) < 0) := by omega
  have hsg2 : sg num (body ++ (encodeTag num 4 ++ rest)) =
      (true, .ret ((body.length : Nat), none)) := by
    rw [← List.append_assoc]; exact hsg
  have hrange : ¬ (((body.length : Nat) : Int) < 0 ∨
      ((body.length : Nat) : Int) > ((body ++ (encodeTag num 4 ++ rest)).length : Nat)) := by
    rw [List.length_append]; push_cast; omega
  simp only [hpos, if_false, Int.toNat_ofNat, List.drop_left, hsg2]
  simp only [VarintType, Fixed32Type, Fixed64Type, BytesType, StartGroupType, hrange,
    Int.toNat_ofNat, List.drop_left, List.take_left,
    ConsumeTag_encodeTag num 4 rest hnum (by norm_num), hpos4]
  simp [add_assoc]

/-! ## Scanning a well-formed message -/

theorem feed_allSink (rs l : List Result) : feed allSink rs l = (l ++ rs, .ret true) := by
  induction rs generalizing l with
  | nil => simp [feed]
  | cons r rs ih => simp [feed, allSink, ih]

theorem feed_groupSink (rs : List Result) (flag : Bool)
    (h : ∀ r ∈ rs, r.WireType ≠ EndGroupType) : feed groupSink rs flag = (flag, .ret true) := by
  induction rs with
  | nil => simp [feed]
  | cons r rs ih =>
    have hr : r.WireType ≠ EndGroupType := h r (List.mem_cons_self _ _)
    simp only [feed, groupSink, if_neg hr]
    exact ih (fun x hx => h x (List.mem_cons_of_mem _ hx))

/-- One turn of the scan over a field that the tag decoding and `switch` accept: if the scan
of the rest is known for the sink states that the rest's matches lead to, so is the scan of
the whole. -/
theorem scan_step {σ : Type} (F : Int) (sink : Result → σ → σ × Outcome Bool)
    (pb : List Nat) (c : Int) (field : Result) (st st2 : σ)
    (fn : Int) (pb2 : List Nat) (c2 : Int) (f2 : Result) (X : σ × Outcome (Int × Option Err))
    (hr : readField (fun num tail => IterFields { Raw := tail } num groupSink false) pb c field =
      .cont fn pb2 c2 f2)
    (rs2 : List Result)
    (hrest : ∀ st1, feed sink rs2 st1 = (st2, .ret true) →
      IterFieldsLoop pb2.length F sink pb2 c2 f2 st1 = X)
    (hfeed : feed sink (if fn = F then f2 :: rs2 else rs2) st = (st2, .ret true)) :
    IterFieldsLoop pb.length F sink pb c field st = X := by
  have hlen := readField_cont_length _ pb c field fn pb2 c2 f2 hr
  have hgt : pb.length > 0 := by omega
  rw [IterFieldsLoop_eq pb.length F sink pb c field st (le_refl _), if_pos hgt, hr]
  simp only
  by_cases hfn : fn = F
  · rw [if_pos hfn] at hfeed
    rw [if_neg (by simpa using hfn)]
    simp only [feed] at hfeed
    rcases hs : sink f2 st with ⟨st1, o⟩
    rw [hs] at hfeed
    cases o with
    | ret v =>
      cases v with
      | true => exact hrest st1 hfeed
      | false => simp at hfeed
    | fault => simp at hfeed
    | diverge => simp at hfeed
  · rw [if_neg hfn] at hfeed
    rw [if_pos hfn]
    exact hrest st hfeed

theorem ScansThrough_nil (F : Int) : ScansThrough F [] [] := by
  intro field
  refine ⟨field, ?_⟩
  intro σ sink suffix c st st2 hfeed
  simp only [feed, Prod.mk.injEq, and_true] at hfeed
  subst hfeed
  simp

/-- A field in front of a message that the scan passes over. -/
theorem ScansThrough_cons (F : Int) (enc rest : List Nat) (num : Int) (f2 : Result)
    (rs2 : List Result)
    (hread : ∀ (suffix : List Nat) (c : Int) (field : Result),
      readField (fun num tail => IterFields { Raw := tail } num groupSink false)
        (enc ++ (rest ++ suffix)) c field =
        .cont num (rest ++ suffix) (c + (enc.length : Nat)) f2)
    (ih : ScansThrough F rest rs2) :
    ScansThrough F (enc ++ rest) (if num = F then f2 :: rs2 else rs2) := by
  intro field
  obtain ⟨field2, h2⟩ := ih f2
  refine ⟨field2, ?_⟩
  intro σ sink suffix c st st2 hfeed
  rw [List.append_assoc]
  refine scan_step F sink _ c field st st2 num (rest ++ suffix) _ f2 _
    (hread suffix c field) rs2 ?_ hfeed
  intro st1 h1
  rw [h2 sink suffix (c + (enc.length : Nat)) st1 st2 h1, List.length_append]
  push_cast
  rw [add_assoc]

/-- The group scan over a body that the scan passes over: it stops at the end-group tag,
reports the length of the body and has seen the tag. -/
theorem groupScan_of_body (num : Nat) (hnum : ValidNumber num) (body rest : List Nat)
    (rs : List Result) (hrs : ∀ r ∈ rs, r.WireType ≠ EndGroupType)
    (hbody : ScansThrough (num : Int) body rs) :
    IterFields { Raw := body ++ encodeTag num 4 ++ rest } (num : Int) groupSink false =
      (true, .ret ((body.length : Nat), none)) := by
  unfold IterFields
  simp only
  rw [List.append_assoc]
  obtain ⟨field2, h2⟩ := hbody {}
  rw [h2 groupSink (encodeTag num 4 ++ rest) 0 false false (feed_groupSink rs false hrs)]
  have hlen : (encodeTag num 4 ++ rest).length > 0 := by
    rw [List.length_append]
    have := encodeVarint_length_pos (num * 8 + 4)
    unfold encodeTag
    omega
  rw [IterFieldsLoop_eq _ _ _ _ _ _ _ (le_refl _), if_pos hlen, readField_egroup _ _ _ _ _ hnum]
  simp [groupSink]

/-- The scan passes over every well-formed message, and none of the fields it hands to the
sink is an end-group tag. -/
theorem scan_wellFormed (body : List Nat) (h : WellFormed body) :
    ∀ (F : Int), ∃ rs : List Result, (∀ r ∈ rs, r.WireType ≠ EndGroupType) ∧
      ScansThrough F body rs := by
  have hmem : ∀ (c : Prop) [Decidable c] (f2 : Result) (rs2 : List Result),
      f2.WireType ≠ EndGroupType → (∀ r ∈ rs2, r.WireType ≠ EndGroupType) →
      ∀ r ∈ (if c then f2 :: rs2 else rs2), r.WireType ≠ EndGroupType := by
    intro c _ f2 rs2 hf2 hrs2 r hr
    split at hr
    · rcases List.mem_cons.1 hr with rfl | hr
      · exact hf2
      · exact hrs2 r hr
    · exact hrs2 r hr
  induction h with
  | nil => intro F; exact ⟨[], by simp, ScansThrough_nil F⟩
  | varint num v rest hnum hv _ ih =>
    intro F
    obtain ⟨rs2, hrs2, h2⟩ := ih F
    refine ⟨if (num : Int) = F then ({ WireType := VarintType, Varint := v, Raw := encodeVarint v } : Result) :: rs2 else rs2,
      hmem _ _ rs2 (by simp [VarintType, Fixed32Type, Fixed64Type, BytesType, StartGroupType,
        EndGroupType]) hrs2, ?_⟩
    exact ScansThrough_cons F (encodeTag num 0 ++ encodeVarint v) rest num { WireType := VarintType, Varint := v, Raw := encodeVarint v } rs2
      (fun suffix c field => readField_varint _ num v (rest ++ suffix) c field hnum hv) h2
  | fixed32 num payload rest hnum hp _ ih =>
    intro F
    obtain ⟨rs2, hrs2, h2⟩ := ih F
    refine ⟨if (num : Int) = F then ({ WireType := Fixed32Type, Varint := 0, Raw := payload } : Result) :: rs2 else rs2,
      hmem _ _ rs2 (by simp [VarintType, Fixed32Type, Fixed64Type, BytesType, StartGroupType,
        EndGroupType]) hrs2, ?_⟩
    exact ScansThrough_cons F (encodeTag num 5 ++ payload) rest num { WireType := Fixed32Type, Varint := 0, Raw := payload } rs2
      (fun suffix c field => readField_fixed32 _ num payload (rest ++ suffix) c field hnum hp) h2
  | fixed64 num payload rest hnum hp _ ih =>
    intro F
    obtain ⟨rs2, hrs2, h2⟩ := ih F
    refine ⟨if (num : Int) = F then ({ WireType := Fixed64Type, Varint := 0, Raw := payload } : Result) :: rs2 else rs2,
      hmem _ _ rs2 (by simp [VarintType, Fixed32Type, Fixed64Type, BytesType, StartGroupType,
        EndGroupType]) hrs2, ?_⟩
    exact ScansThrough_cons F (encodeTag num 1 ++ payload) rest num { WireType := Fixed64Type, Varint := 0, Raw := payload } rs2
      (fun suffix c field => readField_fixed64 _ num payload (rest ++ suffix) c field hnum hp) h2
  | len num payload rest hnum hp _ ih =>
    intro F
    obtain ⟨rs2, hrs2, h2⟩ := ih F
    refine ⟨if (num : Int) = F then ({ WireType := BytesType, Varint := 0, Raw := payload } : Result) :: rs2 else rs2,
      hmem _ _ rs2 (by simp [VarintType, Fixed32Type, Fixed64Type, BytesType, StartGroupType,
        EndGroupType]) hrs2, ?_⟩
    exact ScansThrough_cons F (encodeTag num 2 ++ encodeVarint payload.length ++ payload) rest num { WireType := BytesType, Varint := 0, Raw := payload } rs2
      (fun suffix c field => readField_len _ num payload (rest ++ suffix) c field hnum hp) h2
  | group num body rest hnum _ _ ihb ih =>
    intro F
    obtain ⟨rs2, hrs2, h2⟩ := ih F
    obtain ⟨rsb, hrsb, hb⟩ := ihb (num : Int)
    refine ⟨if (num : Int) = F then
        ({ WireType := StartGroupType, Varint := 0, Raw := body } : Result) :: rs2 else rs2,
      hmem _ _ rs2 (by simp [VarintType, Fixed32Type, Fixed64Type, BytesType, StartGroupType,
        EndGroupType]) hrs2, ?_⟩
    exact ScansThrough_cons F (encodeTag num 3 ++ body ++ encodeTag num 4) rest num
      { WireType := StartGroupType, Varint := 0, Raw := body } rs2
      (fun suffix c field => readField_group _ num body (rest ++ suffix) c field hnum
        (groupScan_of_body num hnum body (rest ++ suffix) rsb hrsb hb)) h2

theorem IterFields_of_ScansThrough {σ : Type} (F : Int) (b : List Nat) (rs : List Result)
    (h : ScansThrough F b rs) (sink : Result → σ → σ × Outcome Bool) (st st2 : σ)
    (hfeed : feed sink rs st = (st2, .ret true)) :
    IterFields { Raw := b } F sink st = (st2, .ret (((b.length : Nat) : Int), none)) := by
  obtain ⟨field2, h2⟩ := h {}
  have h3 := h2 sink [] 0 st st2 hfeed
  rw [List.append_nil] at h3
  unfold IterFields
  simp only
  rw [h3]
  simp [IterFieldsLoop]

theorem feed_always_true {σ : Type} (sink : Result → σ → σ × Outcome Bool)
    (hsink : ∀ r u, (sink r u).2 = .ret true) (rs : List Result) (st : σ) :
    ∃ st2, feed sink rs st = (st2, .ret true) := by
  induction rs generalizing st with
  | nil => exact ⟨st, rfl⟩
  | cons r rs ih =>
    rcases hs : sink r st with ⟨st1, o⟩
    have ho := hsink r st
    rw [hs] at ho
    simp only at ho
    subst ho
    obtain ⟨st2, h2⟩ := ih st1
    exact ⟨st2, by simp only [feed, hs]; exact h2⟩

/-- C8. On a well-formed message (a concatenation of complete field encodings in which every
start-group tag is closed by the end-group tag of the same number) `IterFields` with a sink that
always answers true returns the length of the buffer and no error, for every target number. -/
theorem IterFields_wellFormed_consumes_all {σ : Type} (b : List Nat) (h : WellFormed b)
    (F : Int) (sink : Result → σ → σ × Outcome Bool)
    (hsink : ∀ r u, (sink r u).2 = .ret true) (st : σ) :
    (IterFields { Raw := b } F sink st).2 = .ret (((b.length : Nat) : Int), none) := by
  obtain ⟨rs, _, hrs⟩ := scan_wellFormed b h F
  obtain ⟨st2, h2⟩ := feed_always_true sink hsink rs st
  rw [IterFields_of_ScansThrough F b rs hrs sink st st2 h2]

/-- C8 at a message with a group: field 1 is a group that holds the varint field 2 with value
5 and a nested group 1; it is followed by the varint field 1 with value 150. -/
theorem IterFields_wellFormed_consumes_all_witness :
    WellFormed (encodeTag 1 3 ++ (encodeTag 2 0 ++ encodeVarint 5 ++
        (encodeTag 1 3 ++ [] ++ encodeTag 1 4 ++ [])) ++ encodeTag 1 4 ++
          (encodeTag 1 0 ++ encodeVarint 150 ++ [])) ∧
      (∀ (r : Result) (u : List Result), (allSink r u).2 = .ret true) ∧
      (IterFields { Raw := encodeTag 1 3 ++ (encodeTag 2 0 ++ encodeVarint 5 ++
        (encodeTag 1 3 ++ [] ++ encodeTag 1 4 ++ [])) ++ encodeTag 1 4 ++
          (encodeTag 1 0 ++ encodeVarint 150 ++ []) } 1 allSink []).2 =
        .ret (((encodeTag 1 3 ++ (encodeTag 2 0 ++ encodeVarint 5 ++
          (encodeTag 1 3 ++ [] ++ encodeTag 1 4 ++ [])) ++ encodeTag 1 4 ++
            (encodeTag 1 0 ++ encodeVarint 150 ++ [])).length : Nat), none) :=
  have hwf : WellFormed (encodeTag 1 3 ++ (encodeTag 2 0 ++ encodeVarint 5 ++
        (encodeTag 1 3 ++ [] ++ encodeTag 1 4 ++ [])) ++ encodeTag 1 4 ++
          (encodeTag 1 0 ++ encodeVarint 150 ++ [])) :=
    WellFormed.group 1 _ _ (by decide)
      (WellFormed.varint 2 5 _ (by decide) (by decide)
        (WellFormed.group 1 [] [] (by decide) WellFormed.nil WellFormed.nil))
      (WellFormed.varint 1 150 [] (by decide) (by decide) WellFormed.nil)
  ⟨hwf, fun _ _ => rfl, IterFields_wellFormed_consumes_all _ hwf 1 allSink (fun _ _ => rfl) []⟩

/-! ## Generic facts about the path resolver -/

/-- Once `skip` is set, `walkFunc` answers false and changes nothing. -/
theorem walkFunc_skip {σ : Type} (path : List Int) (sink : Result → σ → σ × Outcome Bool)
    (fuel : Nat) (it : Result) (st : WalkState σ) (h : st.skip = true) :
    walkFunc path sink fuel it st = (st, .ret false) := by
  cases fuel <;> simp [walkFunc, h]

/-- The descending branch of `walkFunc`, one level unfolded. -/
theorem walkFunc_descend {σ : Type} (path : List Int) (sink : Result → σ → σ × Outcome Bool)
    (fuel : Nat) (it : Result) (st : WalkState σ) (num : Int) (hs : ¬ st.skip = true)
    (hd : ¬ st.depth = (path.length : Int) - 1) (hi : indexPath path (st.depth + 1) = some num) :
    walkFunc path sink (fuel + 1) it st =
      match IterFields it num (walkFunc path sink fuel) { st with depth := st.depth + 1 } with
      | (st, .ret (_, some innerErr)) =>
        ({ st with err := some innerErr, skip := true }, .ret false)
      | (st, .ret (_, none)) => ({ st with depth := st.depth - 1 }, .ret true)
      | (st, .fault) => (st, .fault)
      | (st, .diverge) => (st, .diverge) := by
  rw [walkFunc, if_neg hs, if_neg hd]
  simp only [hi]

/-- The terminal branch of `walkFunc`. -/
theorem walkFunc_deliver {σ : Type} (path : List Int) (sink : Result → σ → σ × Outcome Bool)
    (fuel : Nat) (it : Result) (st : WalkState σ) (hs : ¬ st.skip = true)
    (hd : st.depth = (path.length : Int) - 1) :
    walkFunc path sink fuel it st = walkDeliver sink it st := by
  cases fuel <;> rw [walkFunc, if_neg hs, if_pos hd]

/-- A property of the caller's sink state that every call of the sink keeps is kept by
`walkFunc`. -/
theorem walkFunc_user_inv {σ : Type} (path : List Int) (sink : Result → σ → σ × Outcome Bool)
    (P : σ → Prop) (hs : ∀ r u, P u → P (sink r u).1) :
    ∀ (fuel : Nat) (it : Result) (st : WalkState σ),
      P st.user → P (walkFunc path sink fuel it st).1.user := by
  have hd : ∀ (it : Result) (st : WalkState σ), P st.user → P (walkDeliver sink it st).1.user := by
    intro it st h
    have h2 := hs it st.user h
    unfold walkDeliver
    split <;> rename_i heq <;> rw [heq] at h2 <;> exact h2
  intro fuel
  induction fuel with
  | zero =>
    intro it st h
    simp only [walkFunc]
    split
    · exact h
    · split
      · exact hd it st h
      · exact h
  | succ n ih =>
    intro it st h
    simp only [walkFunc]
    split
    · exact h
    · split
      · exact hd it st h
      · split
        · exact h
        · have h3 := IterFieldsLoop_inv (fun s : WalkState σ => P s.user) (walkFunc path sink n)
            (fun r s hs2 => ih r s hs2) it.Raw.length ‹Int› it.Raw 0 {}
            { st with depth := st.depth + 1 } h
          unfold IterFields
          split <;> rename_i heq <;> rw [heq] at h3 <;> exact h3

/-- Coupling of two traversals.  The first path is the second one with `k` more steps in front,
and the sinks answer alike while their states are related by `Ru`; when they part, the second
sink has answered false and `Du` holds from then on.  Then one call of `walkFunc` keeps the two
traversals in step, or leaves them parted. -/
theorem walkFunc_couple {α β : Type} (pathA pathB : List Int) (k : Nat)
    (hlen : pathA.length = pathB.length + k)
    (hidx : ∀ d : Int, 0 ≤ d → indexPath pathA (d + k) = indexPath pathB d)
    (sinkA : Result → α → α × Outcome Bool) (sinkB : Result → β → β × Outcome Bool)
    (Ru Du : α → β → Prop)
    (hU : ∀ r ua ub, Ru ua ub →
      ((sinkA r ua).2 = (sinkB r ub).2 ∧ Ru (sinkA r ua).1 (sinkB r ub).1) ∨
        ((sinkB r ub).2 = .ret false ∧ Du (sinkA r ua).1 (sinkB r ub).1))
    (hDU : ∀ r ua ub, Du ua ub → Du (sinkA r ua).1 ub) :
    ∀ (fuel : Nat) (d : Int) (it : Result) (a : WalkState α) (b : WalkState β),
      0 ≤ d → WalkRel Ru k d a b →
      (((walkFunc pathA sinkA fuel it a).2 = (walkFunc pathB sinkB fuel it b).2 ∧
          WalkRel Ru k d (walkFunc pathA sinkA fuel it a).1 (walkFunc pathB sinkB fuel it b).1) ∨
        WalkDone Du (walkFunc pathA sinkA fuel it a).1 (walkFunc pathB sinkB fuel it b).1) := by
  have hd : ∀ (d : Int) (it : Result) (a : WalkState α) (b : WalkState β), WalkRel Ru k d a b →
      (((walkDeliver sinkA it a).2 = (walkDeliver sinkB it b).2 ∧
          WalkRel Ru k d (walkDeliver sinkA it a).1 (walkDeliver sinkB it b).1) ∨
        WalkDone Du (walkDeliver sinkA it a).1 (walkDeliver sinkB it b).1) := by
    intro d it a b ⟨h1, h2, h3, h4, h5⟩
    unfold walkDeliver
    rcases hA : sinkA it a.user with ⟨ua, oa⟩
    rcases hB : sinkB it b.user with ⟨ub, ob⟩
    rcases hU it a.user b.user h5 with ⟨e1, e2⟩ | ⟨e1, e2⟩
    · rw [hA, hB] at e1 e2
      simp only at e1 e2
      subst e1
      left
      cases oa with
      | ret v => cases v <;> exact ⟨rfl, by simp [h1], h2, h3, h4, e2⟩
      | fault => exact ⟨rfl, h1, h2, h3, h4, e2⟩
      | diverge => exact ⟨rfl, h1, h2, h3, h4, e2⟩
    · rw [hB] at e1
      rw [hA, hB] at e2
      simp only at e1 e2
      subst e1
      right
      cases oa with
      | ret v => cases v <;> exact ⟨rfl, e2⟩
      | fault => exact ⟨rfl, e2⟩
      | diverge => exact ⟨rfl, e2⟩
  have hfin : ∀ (a : WalkState α) (b : WalkState β), a.depth = b.depth + k →
      (a.depth = (pathA.length : Int) - 1 ↔ b.depth = (pathB.length : Int) - 1) := by
    intro a b h
    rw [h, hlen]
    push_cast
    constructor <;> intro h' <;> linarith
  intro fuel
  induction fuel with
  | zero =>
    intro d it a b hd0 hR
    have ⟨h1, h2, h3, h4, h5⟩ := hR
    simp only [walkFunc]
    by_cases hs : b.skip = true
    · have hsa : a.skip = true := h1.trans hs
      rw [if_pos hsa, if_pos hs]
      exact Or.inl ⟨rfl, hR⟩
    · have hsa : ¬ a.skip = true := fun h => hs (h1 ▸ h)
      rw [if_neg hsa, if_neg hs]
      by_cases hf : b.depth = (pathB.length : Int) - 1
      · rw [if_pos ((hfin a b h2).2 hf), if_pos hf]
        exact hd d it a b hR
      · have hfa := fun h => hf ((hfin a b h2).1 h)
        rw [if_neg hfa, if_neg hf]
        exact Or.inl ⟨rfl, hR⟩
  | succ n ih =>
    intro d it a b hd0 hR
    have ⟨h1, h2, h3, h4, h5⟩ := hR
    simp only [walkFunc]
    by_cases hs : b.skip = true
    · have hsa : a.skip = true := h1.trans hs
      rw [if_pos hsa, if_pos hs]
      exact Or.inl ⟨rfl, hR⟩
    · have hsa : ¬ a.skip = true := fun h => hs (h1 ▸ h)
      rw [if_neg hsa, if_neg hs]
      by_cases hf : b.depth = (pathB.length : Int) - 1
      · rw [if_pos ((hfin a b h2).2 hf), if_pos hf]
        exact hd d it a b hR
      · have hfa := fun h => hf ((hfin a b h2).1 h)
        rw [if_neg hfa, if_neg hf]
        have hix : indexPath pathA (a.depth + 1) = indexPath pathB (b.depth + 1) := by
          have := hidx (b.depth + 1) (by omega)
          rw [← this, h2]
          congr 1
          ring
        simp only [hix]
        cases hB : indexPath pathB (b.depth + 1) with
        | none =>
          exact Or.inl ⟨rfl, h1, by simp only [h2]; ring, h3, by simp only; omega, h5⟩
        | some num =>
          simp only
          have hR1 : WalkRel Ru k (d + 1) { a with depth := a.depth + 1 }
              { b with depth := b.depth + 1 } :=
            ⟨h1, by simp only [h2]; ring, h3, by simp only; omega, h5⟩
          have hc := IterFieldsLoop_couple (walkFunc pathA sinkA n) (walkFunc pathB sinkB n)
            (WalkRel Ru k (d + 1)) (WalkDone Du) False
            (fun r x y hxy => by
              rcases ih (d + 1) r x y (by omega) hxy with h | h
              · exact Or.inl h
              · exact Or.inr (Or.inl h))
            (fun r x y hxy => ⟨hxy.1, walkFunc_user_inv pathA sinkA (fun u => Du u y.user)
              (fun r2 u hu => hDU r2 u y.user hu) n r x hxy.2⟩)
            (fun r x y hxy => by rw [walkFunc_skip pathB sinkB n r y hxy.1]; exact hxy)
            it.Raw.length num it.Raw 0 {} _ _ hR1
          unfold IterFields
          rcases hLA : IterFieldsLoop it.Raw.length num (walkFunc pathA sinkA n) it.Raw 0 {}
            { a with depth := a.depth + 1 } with ⟨a2, oa⟩
          rcases hLB : IterFieldsLoop it.Raw.length num (walkFunc pathB sinkB n) it.Raw 0 {}
            { b with depth := b.depth + 1 } with ⟨b2, ob⟩
          rw [hLA, hLB] at hc
          simp only at hc
          rcases hc with ⟨e1, g1, g2, g3, g4, g5⟩ | ⟨g1, g2⟩ | hab
          · subst e1
            left
            cases oa with
            | ret v =>
              rcases v with ⟨cc, _ | e⟩
              · exact ⟨rfl, g1, by simp only [g2]; ring, g3, by simp only; omega, g5⟩
              · exact ⟨rfl, rfl, g2, rfl, by simp only; omega, g5⟩
            | fault => exact ⟨rfl, g1, g2, g3, by simp only; omega, g5⟩
            | diverge => exact ⟨rfl, g1, g2, g3, by simp only; omega, g5⟩
          · right
            cases oa with
            | ret v =>
              rcases v with ⟨cc, _ | e⟩ <;> cases ob with
              | ret w => rcases w with ⟨cc2, _ | e2⟩ <;> exact ⟨by simp [g1], g2⟩
              | fault => exact ⟨g1, g2⟩
              | diverge => exact ⟨g1, g2⟩
            | fault =>
              cases ob with
              | ret w => rcases w with ⟨cc2, _ | e2⟩ <;> exact ⟨by simp [g1], g2⟩
              | fault => exact ⟨g1, g2⟩
              | diverge => exact ⟨g1, g2⟩
            | diverge =>
              cases ob with
              | ret w => rcases w with ⟨cc2, _ | e2⟩ <;> exact ⟨by simp [g1], g2⟩
              | fault => exact ⟨g1, g2⟩
              | diverge => exact ⟨g1, g2⟩
          · exact absurd hab.1 id

/-- Coupling of two runs of `GetIter` over the same buffer and path with two sinks: they end
alike with sink states in `Ru`, or they have parted and the sink states are in `Du`. -/
theorem GetIter_couple {α β : Type} (path : List Int)
    (sinkA : Result → α → α × Outcome Bool) (sinkB : Result → β → β × Outcome Bool)
    (Ru Du : α → β → Prop)
    (hU : ∀ r ua ub, Ru ua ub →
      ((sinkA r ua).2 = (sinkB r ub).2 ∧ Ru (sinkA r ua).1 (sinkB r ub).1) ∨
        ((sinkB r ub).2 = .ret false ∧ Du (sinkA r ua).1 (sinkB r ub).1))
    (hDU : ∀ r ua ub, Du ua ub → Du (sinkA r ua).1 ub)
    (r : Result) (ua : α) (ub : β) (h : Ru ua ub) :
    ((r.GetIter sinkA path ua).2 = (r.GetIter sinkB path ub).2 ∧
        Ru (r.GetIter sinkA path ua).1 (r.GetIter sinkB path ub).1) ∨
      Du (r.GetIter sinkA path ua).1 (r.GetIter sinkB path ub).1 := by
  unfold Result.GetIter
  simp only
  cases hI : indexPath path 0 with
  | none => exact Or.inl ⟨rfl, h⟩
  | some num =>
    simp only
    have hR0 : WalkRel Ru 0 0 ({ user := ua } : WalkState α) ({ user := ub } : WalkState β) :=
      ⟨rfl, by simp, rfl, le_refl _, h⟩
    have hc := IterFieldsLoop_couple (walkFunc path sinkA path.length)
      (walkFunc path sinkB path.length) (WalkRel Ru 0 0) (WalkDone Du) False
      (fun it x y hxy => by
        rcases walkFunc_couple path path 0 (by simp) (fun d _ => by simp) sinkA sinkB Ru Du hU hDU
          path.length 0 it x y (le_refl _) hxy with h | h
        · exact Or.inl h
        · exact Or.inr (Or.inl h))
      (fun it x y hxy => ⟨hxy.1, walkFunc_user_inv path sinkA (fun u => Du u y.user)
        (fun r2 u hu => hDU r2 u y.user hu) path.length it x hxy.2⟩)
      (fun it x y hxy => by rw [walkFunc_skip path sinkB path.length it y hxy.1]; exact hxy)
      r.Raw.length num r.Raw 0 {} _ _ hR0
    unfold IterFields
    rcases hLA : IterFieldsLoop r.Raw.length num (walkFunc path sinkA path.length) r.Raw 0 {}
      ({ user := ua } : WalkState α) with ⟨a2, oa⟩
    rcases hLB : IterFieldsLoop r.Raw.length num (walkFunc path sinkB path.length) r.Raw 0 {}
      ({ user := ub } : WalkState β) with ⟨b2, ob⟩
    rw [hLA, hLB] at hc
    simp only at hc
    rcases hc with ⟨e1, g1, g2, g3, g4, g5⟩ | ⟨g1, g2⟩ | hab
    · subst e1
      left
      cases oa with
      | ret v =>
        rcases v with ⟨cc, _ | e⟩
        · exact ⟨by simp only [g3], g5⟩
        · exact ⟨rfl, g5⟩
      | fault => exact ⟨rfl, g5⟩
      | diverge => exact ⟨rfl, g5⟩
    · right
      cases oa with
      | ret v =>
        rcases v with ⟨cc, _ | e⟩ <;> cases ob with
        | ret w => rcases w with ⟨cc2, _ | e2⟩ <;> exact g2
        | fault => exact g2
        | diverge => exact g2
      | fault =>
        cases ob with
        | ret w => rcases w with ⟨cc2, _ | e2⟩ <;> exact g2
        | fault => exact g2
        | diverge => exact g2
      | diverge =>
        cases ob with
        | ret w => rcases w with ⟨cc2, _ | e2⟩ <;> exact g2
        | fault => exact g2
        | diverge => exact g2
    · exact absurd hab.1 id

/-- An error recorded in `err` is never cleared by `walkFunc`. -/
theorem walkFunc_err_mono {σ : Type} (path : List Int) (sink : Result → σ → σ × Outcome Bool) :
    ∀ (fuel : Nat) (it : Result) (st : WalkState σ),
      st.err ≠ none → (walkFunc path sink fuel it st).1.err ≠ none := by
  have hd : ∀ (it : Result) (st : WalkState σ), st.err ≠ none →
      (walkDeliver sink it st).1.err ≠ none := by
    intro it st h
    unfold walkDeliver
    split <;> exact h
  intro fuel
  induction fuel with
  | zero =>
    intro it st h
    simp only [walkFunc]
    split
    · exact h
    · split
      · exact hd it st h
      · exact h
  | succ n ih =>
    intro it st h
    simp only [walkFunc]
    split
    · exact h
    · split
      · exact hd it st h
      · split
        · exact h
        · have h3 := IterFieldsLoop_inv (fun s : WalkState σ => s.err ≠ none) (walkFunc path sink n)
            (fun r s hs2 => ih r s hs2) it.Raw.length ‹Int› it.Raw 0 {}
            { st with depth := st.depth + 1 } h
          unfold IterFields
          split <;> rename_i heq <;> rw [heq] at h3
          · simp
          · exact h3
          · exact h3
          · exact h3

/-- With a sink that never answers false, a call of `walkFunc` at level `d` that returns leaves
`skip` unset and `depth` at `d` unless an error has been recorded. -/
theorem walkFunc_clean {σ : Type} (path : List Int) (sink : Result → σ → σ × Outcome Bool)
    (htrue : ∀ r u, (sink r u).2 ≠ .ret false) :
    ∀ (fuel : Nat) (d : Int) (it : Result) (st : WalkState σ),
      (st.err = none → st.skip = false ∧ st.depth = d) →
      ¬ (walkFunc path sink fuel it st).2.aborted →
      ((walkFunc path sink fuel it st).1.err = none →
        (walkFunc path sink fuel it st).1.skip = false ∧
          (walkFunc path sink fuel it st).1.depth = d) := by
  have hd : ∀ (d : Int) (it : Result) (st : WalkState σ),
      (st.err = none → st.skip = false ∧ st.depth = d) →
      ((walkDeliver sink it st).1.err = none →
        (walkDeliver sink it st).1.skip = false ∧ (walkDeliver sink it st).1.depth = d) := by
    intro d it st h
    have h2 := htrue it st.user
    unfold walkDeliver
    split <;> rename_i heq <;> rw [heq] at h2
    · exact h
    · exact absurd rfl h2
    · exact h
    · exact h
  intro fuel
  induction fuel with
  | zero =>
    intro d it st h
    simp only [walkFunc]
    split
    · exact fun _ => h
    · split
      · exact fun _ => hd d it st h
      · exact fun _ => h
  | succ n ih =>
    intro d it st h
    simp only [walkFunc]
    split
    · exact fun _ => h
    · split
      · exact fun _ => hd d it st h
      · split
        · intro hc; exact absurd trivial hc
        · have h3 := IterFieldsLoop_inv_ret
            (fun s : WalkState σ => s.err = none → s.skip = false ∧ s.depth = d + 1)
            (walkFunc path sink n) (fun r s hs2 => ih (d + 1) r s hs2) it.Raw.length ‹Int› it.Raw 0 {}
            { st with depth := st.depth + 1 }
            (fun he => ⟨(h he).1, by simp only [(h he).2]⟩)
          unfold IterFields
          split <;> rename_i heq <;> rw [heq] at h3
          · intro _ he; cases he
          · intro _ he
            have := h3 (by simp [Outcome.aborted]) he
            exact ⟨this.1, by have h5 := this.2; simp only at h5 ⊢; omega⟩
          · intro hc; exact absurd trivial hc
          · intro hc; exact absurd trivial hc

theorem indexPath_cons (F : Int) (rest : List Int) (d : Int) (hd : 0 ≤ d) :
    indexPath (F :: rest) (d + ((1 : Nat) : Int)) = indexPath rest d := by
  unfold indexPath
  have h1 : ¬ (d + ((1 : Nat) : Int) < 0) := by push_cast; omega
  have h2 : ¬ (d < 0) := by omega
  rw [if_neg h1, if_neg h2]
  have h3 : (d + ((1 : Nat) : Int)).toNat = d.toNat + 1 := by push_cast; omega
  rw [h3]
  rfl

/-! ## Path descent -/

/-- What `GetIter` computes on a path that starts with `F`, in terms of the top-level scan. -/
theorem GetIter_cons {σ : Type} (r : Result) (sink : Result → σ → σ × Outcome Bool) (F : Int)
    (rest : List Int) (u : σ) :
    r.GetIter sink (F :: rest) u =
      match IterFieldsLoop r.Raw.length F (walkFunc (F :: rest) sink (F :: rest).length) r.Raw 0 {}
        ({ user := u } : WalkState σ) with
      | (st, .ret (_, some innerErr)) => (st.user, .ret (some innerErr))
      | (st, .ret (_, none)) => (st.user, .ret st.err)
      | (st, .fault) => (st.user, .fault)
      | (st, .diverge) => (st.user, .diverge) := by
  unfold Result.GetIter IterFields
  have : indexPath (F :: rest) (({ user := u } : WalkState σ).depth) = some F := rfl
  simp only [this]

/-- One top-level match `it` in the traversal of `F :: n :: rest`, against the same match in the
scan for `F` alone: the descent into `it` does what `it.GetIter(n :: rest)` does; either it
ends clean and the two stay related, or `it.GetIter` does not return "no error" and the
traversal has recorded an error or aborted. -/
theorem descent_step_strong (F n : Int) (rest : List Int) (it : Result)
    (a g : WalkState (List Result)) (h : DescentRel (n :: rest) a g) :
    ((walkFunc (F :: n :: rest) allSink (F :: n :: rest).length it a).2 =
          (walkFunc [F] allSink [F].length it g).2 ∧
        DescentRel (n :: rest) (walkFunc (F :: n :: rest) allSink (F :: n :: rest).length it a).1
          (walkFunc [F] allSink [F].length it g).1) ∨
      ((Result.GetIter it allSink (n :: rest) []).2 ≠ .ret none ∧
        ((walkFunc (F :: n :: rest) allSink (F :: n :: rest).length it a).1.err ≠ none ∨
          (walkFunc (F :: n :: rest) allSink (F :: n :: rest).length it a).2.aborted)) := by
  obtain ⟨a1, a2, a3, g1, g2, g3, ls, hls, hau⟩ := h
  have hwg : walkFunc [F] allSink [F].length it g =
      ({ g with user := g.user ++ [it] }, .ret true) := by
    simp [walkFunc, walkDeliver, allSink, g1, g2]
  rw [hwg]
  have hne : ¬ (a.depth = (((F :: n :: rest).length : Nat) : Int) - 1) := by
    rw [a2]; simp only [List.length_cons]; push_cast; omega
  have hskip : ¬ (a.skip = true) := by rw [a1]; simp
  have hidx : indexPath (F :: n :: rest) (a.depth + 1) = some n := by
    rw [a2]; rfl
  have hw0 : walkFunc (F :: n :: rest) allSink (F :: n :: rest).length it a = _ :=
    walkFunc_descend (F :: n :: rest) allSink (n :: rest).length it a n hskip hne hidx
  rw [hw0]
  -- the descent of the first traversal against `it.GetAll(n :: rest)`
  have hR1 : WalkRel (fun (ua ub : List Result) => ua = a.user ++ ub) 1 0
      ({ a with depth := a.depth + 1 }) ({ user := [] } : WalkState (List Result)) :=
    ⟨by simp [a1], by simp [a2], by simp [a3], le_refl _, by simp⟩
  have hc := IterFieldsLoop_couple (walkFunc (F :: n :: rest) allSink (n :: rest).length)
    (walkFunc (n :: rest) allSink (n :: rest).length)
    (WalkRel (fun (ua ub : List Result) => ua = a.user ++ ub) 1 0)
    (WalkDone (fun (_ _ : List Result) => False)) False
    (fun r x y hxy => by
      rcases walkFunc_couple (F :: n :: rest) (n :: rest) 1 rfl
        (fun d hd => indexPath_cons F (n :: rest) d hd) allSink allSink
        (fun (ua ub : List Result) => ua = a.user ++ ub) (fun _ _ => False)
        (fun r2 ua ub hu => Or.inl ⟨rfl, by simp [allSink, hu]⟩)
        (fun r2 ua ub hu => hu) (n :: rest).length 0 r x y (le_refl _) hxy with h | h
      · exact Or.inl h
      · exact Or.inr (Or.inl h))
    (fun r x y hxy => absurd hxy.2 id)
    (fun r x y hxy => absurd hxy.2 id)
    it.Raw.length n it.Raw 0 {} _ _ hR1
  have hinv := IterFieldsLoop_inv_ret
    (fun s : WalkState (List Result) => s.err = none → s.skip = false ∧ s.depth = 0 + 1)
    (walkFunc (F :: n :: rest) allSink (n :: rest).length)
    (fun r s hs2 => walkFunc_clean (F :: n :: rest) allSink (fun r u => by simp [allSink])
      (n :: rest).length (0 + 1) r s hs2) it.Raw.length n it.Raw 0 {}
    { a with depth := a.depth + 1 } (fun _ => ⟨a1, by simp [a2]⟩)
  have hget : Result.GetAll it (n :: rest) =
      match (IterFieldsLoop it.Raw.length n (walkFunc (n :: rest) allSink (n :: rest).length)
        it.Raw 0 {} ({ user := [] } : WalkState (List Result))) with
      | (st, .ret _) => .ret st.user
      | (_, .fault) => .fault
      | (_, .diverge) => .diverge := by
    unfold Result.GetAll Result.GetIter IterFields
    have : indexPath (n :: rest) (({ user := [] } : WalkState (List Result)).depth) = some n := rfl
    simp only [this]
    rcases IterFieldsLoop it.Raw.length n (walkFunc (n :: rest) allSink (n :: rest).length)
      it.Raw 0 {} ({ user := [] } : WalkState (List Result)) with ⟨b2, ob⟩
    cases ob with
    | ret v => rcases v with ⟨cc, _ | e⟩ <;> rfl
    | fault => rfl
    | diverge => rfl
  unfold IterFields
  rcases hLA : IterFieldsLoop it.Raw.length n (walkFunc (F :: n :: rest) allSink (n :: rest).length)
    it.Raw 0 {} { a with depth := a.depth + 1 } with ⟨a2', oa⟩
  rcases hLB : IterFieldsLoop it.Raw.length n (walkFunc (n :: rest) allSink (n :: rest).length)
    it.Raw 0 {} ({ user := [] } : WalkState (List Result)) with ⟨b2, ob⟩
  have hgi := GetIter_cons it allSink n rest []
  rw [hLA] at hinv
  rw [hLA, hLB] at hc
  rw [hLB] at hget hgi
  simp only at hc hinv hget hgi
  rw [hgi]
  rcases hc with ⟨e1, k1, k2, k3, k4, k5⟩ | ⟨_, k2⟩ | hab
  · subst e1
    cases oa with
    | ret v =>
      rcases v with ⟨cc, _ | e⟩
      · by_cases herr : a2'.err = none
        · left
          have hi := hinv (by simp [Outcome.aborted]) herr
          refine ⟨rfl, hi.1, by simp only [hi.2]; norm_num, herr, g1, g2, g3,
            ls ++ [b2.user], ?_, ?_⟩
          · exact List.rel_append hls (List.Forall₂.cons hget List.Forall₂.nil)
          · simp only [List.flatten_append, List.flatten_cons, List.flatten_nil, List.append_nil]
            rw [k5, hau]
        · right
          refine ⟨?_, Or.inl herr⟩
          simp only [ne_eq, Outcome.ret.injEq]
          rw [← k3]; exact herr
      · right; exact ⟨by simp, Or.inl (by simp)⟩
    | fault => right; exact ⟨by simp, Or.inr trivial⟩
    | diverge => right; exact ⟨by simp, Or.inr trivial⟩
  · exact absurd k2 id
  · exact absurd hab.1 id

theorem descent_step (F n : Int) (rest : List Int) (it : Result)
    (a g : WalkState (List Result)) (h : DescentRel (n :: rest) a g) :
    ((walkFunc (F :: n :: rest) allSink (F :: n :: rest).length it a).2 =
          (walkFunc [F] allSink [F].length it g).2 ∧
        DescentRel (n :: rest) (walkFunc (F :: n :: rest) allSink (F :: n :: rest).length it a).1
          (walkFunc [F] allSink [F].length it g).1) ∨
      (walkFunc (F :: n :: rest) allSink (F :: n :: rest).length it a).1.err ≠ none ∨
      (True ∧ (walkFunc (F :: n :: rest) allSink (F :: n :: rest).length it a).2.aborted) := by
  rcases descent_step_strong F n rest it a g h with h1 | ⟨_, h2 | h2⟩
  · exact Or.inl h1
  · exact Or.inr (Or.inl h2)
  · exact Or.inr (Or.inr ⟨trivial, h2⟩)

/-- C3. Path descent composes: when the traversal of the path `F :: rest` (with `rest` not
empty) under an always-true sink returns no error, `GetAll(b, F)` returns some results `rs`,
`r.GetAll(rest...)` returns a list for each of them, and `GetAll(b, F, rest...)` is the
concatenation of these lists in the order of `rs` (depth first). -/
theorem GetAll_descent (b : List Nat) (F : Int) (rest : List Int) (hrest : rest ≠ [])
    (h : (Result.GetIter { Raw := b } allSink (F :: rest) []).2 = .ret none) :
    ∃ (rs : List Result) (ls : List (List Result)),
      GetAll b [F] = .ret rs ∧
        List.Forall₂ (fun r l => Result.GetAll r rest = .ret l) rs ls ∧
        GetAll b (F :: rest) = .ret ls.flatten := by
  obtain ⟨n, rest, rfl⟩ : ∃ n r, rest = n :: r := by
    cases rest with
    | nil => exact absurd rfl hrest
    | cons n r => exact ⟨n, r, rfl⟩
  have hc := IterFieldsLoop_couple (walkFunc (F :: n :: rest) allSink (F :: n :: rest).length)
    (walkFunc [F] allSink [F].length) (DescentRel (n :: rest))
    (fun (a _ : WalkState (List Result)) => a.err ≠ none) True
    (fun r a g hag => descent_step F n rest r a g hag)
    (fun r a g hd => walkFunc_err_mono _ _ _ r a hd)
    (fun r a g hd => hd)
    b.length F b 0 {} ({ user := [] } : WalkState (List Result))
    ({ user := [] } : WalkState (List Result))
    ⟨rfl, rfl, rfl, rfl, rfl, rfl, [], List.Forall₂.nil, rfl⟩
  unfold GetAll Result.GetAll
  rw [GetIter_cons] at h ⊢
  rw [GetIter_cons]
  simp only at h ⊢
  rcases hLA : IterFieldsLoop b.length F (walkFunc (F :: n :: rest) allSink (F :: n :: rest).length)
    b 0 {} ({ user := [] } : WalkState (List Result)) with ⟨a2, oa⟩
  rcases hLB : IterFieldsLoop b.length F (walkFunc [F] allSink [F].length)
    b 0 {} ({ user := [] } : WalkState (List Result)) with ⟨g2, og⟩
  rw [hLA] at h hc
  rw [hLB] at hc
  simp only at h hc
  cases oa with
  | ret v =>
    rcases v with ⟨cc, _ | e⟩
    · simp only [Outcome.ret.injEq] at h
      rcases hc with ⟨e1, _, _, _, _, _, _, ls, hls, hau⟩ | hd | hab
      · subst e1
        exact ⟨g2.user, ls, rfl, hls, by show Outcome.ret a2.user = _; rw [hau]⟩
      · exact absurd h hd
      · exact absurd hab.2 (by simp [Outcome.aborted])
    · simp at h
  | fault => simp at h
  | diverge => simp at h

/-- C3 at the buffer `0a 02 08 2a 0a 02 08 2b` (two sub-messages numbered 1, each holding a
field 1) and the path 1, 1. -/
theorem GetAll_descent_witness :
    (Result.GetIter { Raw := [0x0a, 0x02, 0x08, 0x2a, 0x0a, 0x02, 0x08, 0x2b] } allSink (1 :: [1])
        []).2 = .ret none ∧
      ∃ (rs : List Result) (ls : List (List Result)),
        GetAll [0x0a, 0x02, 0x08, 0x2a, 0x0a, 0x02, 0x08, 0x2b] [1] = .ret rs ∧
          List.Forall₂ (fun r l => Result.GetAll r [1] = .ret l) rs ls ∧
          GetAll [0x0a, 0x02, 0x08, 0x2a, 0x0a, 0x02, 0x08, 0x2b] (1 :: [1]) = .ret ls.flatten :=
  ⟨by decide, GetAll_descent [0x0a, 0x02, 0x08, 0x2a, 0x0a, 0x02, 0x08, 0x2b] 1 [1] (by decide)
    (by decide)⟩

/-! ## Decode undoes encode -/

theorem feed_walk_single (F : Int) (fuel : Nat) (rs : List Result)
    (st : WalkState (List Result)) (hs : st.skip = false) (hd : st.depth = 0) :
    feed (walkFunc [F] allSink fuel) rs st = ({ st with user := st.user ++ rs }, .ret true) := by
  induction rs generalizing st with
  | nil => simp [feed]
  | cons r rs ih =>
    have hw : walkFunc [F] allSink fuel r st = ({ st with user := st.user ++ [r] }, .ret true) := by
      rw [walkFunc_deliver [F] allSink fuel r st (by simp [hs]) (by simp [hd])]
      simp [walkDeliver, allSink]
    simp only [feed, hw]
    rw [ih { st with user := st.user ++ [r] } hs hd]
    simp

/-- When the scan for `F` passes over the whole buffer handing over `rs`, `GetAll` on the
one-step path `F` returns `rs`, and `GetIter` returns no error. -/
theorem GetIter_of_ScansThrough (F : Int) (b : List Nat) (rs : List Result)
    (h : ScansThrough F b rs) :
    Result.GetIter { Raw := b } allSink [F] [] = (rs, .ret none) := by
  rw [GetIter_cons]
  have h2 := IterFields_of_ScansThrough F b rs h (walkFunc [F] allSink [F].length)
    ({ user := [] } : WalkState (List Result)) _ (feed_walk_single F [F].length rs _ rfl rfl)
  unfold IterFields at h2
  simp only at h2
  rw [h2]
  simp

theorem GetAll_of_ScansThrough (F : Int) (b : List Nat) (rs : List Result)
    (h : ScansThrough F b rs) : GetAll b [F] = .ret rs := by
  unfold GetAll Result.GetAll
  rw [GetIter_of_ScansThrough F b rs h]

theorem readField_encode (sg : Int → List Nat → Bool × Outcome (Int × Option Err))
    (f : WireField) (hf : f.Valid) (rest : List Nat) (c : Int) (field : Result) :
    readField sg (f.encode ++ rest) c field =
      .cont f.num rest (c + (f.encode.length : Nat)) f.toResult := by
  cases f with
  | varint num v => exact readField_varint sg num v rest c field hf.1 hf.2
  | fixed32 num payload => exact readField_fixed32 sg num payload rest c field hf.1 hf.2
  | fixed64 num payload => exact readField_fixed64 sg num payload rest c field hf.1 hf.2
  | len num payload => exact readField_len sg num payload rest c field hf.1 hf.2

theorem ScansThrough_encodeFields (F : Int) (fields : List WireField)
    (hv : ∀ f ∈ fields, f.Valid) :
    ScansThrough F (encodeFields fields)
      ((fields.filter (fun f => decide ((f.num : Int) = F))).map WireField.toResult) := by
  induction fields with
  | nil => exact ScansThrough_nil F
  | cons f fs ih =>
    have h1 := ScansThrough_cons F f.encode (encodeFields fs) f.num f.toResult _
      (fun suffix c field =>
        readField_encode _ f (hv f (List.mem_cons_self _ _)) (encodeFields fs ++ suffix) c field)
      (ih (fun g hg => hv g (List.mem_cons_of_mem _ hg)))
    have e1 : encodeFields (f :: fs) = f.encode ++ encodeFields fs := by
      simp [encodeFields]
    rw [e1]
    by_cases hF : (f.num : Int) = F
    · rw [if_pos hF] at h1
      simpa [List.filter_cons, hF] using h1
    · rw [if_neg hF] at h1
      simpa [List.filter_cons, hF] using h1

/-- C1. Decode undoes encode at one level: for every list of fields of wire type VARINT,
FIXED32, FIXED64 or LEN with field numbers from 1 to `2^29 - 1`, and every field number `F`,
`GetAll` on the concatenation of their standard encodings returns exactly the fields numbered
`F`, in list order, each with its wire type, its payload bytes in `Raw` (the varint bytes for a
VARINT, the bytes after the length for a LEN) and, for a VARINT, its value in `Varint`. -/
theorem GetAll_encodeFields (fields : List WireField) (hv : ∀ f ∈ fields, f.Valid) (F : Int) :
    GetAll (encodeFields fields) [F] =
      .ret ((fields.filter (fun f => decide ((f.num : Int) = F))).map WireField.toResult) :=
  GetAll_of_ScansThrough F _ _ (ScansThrough_encodeFields F fields hv)

/-- C1 at a message with five fields, three of them numbered 5. -/
theorem GetAll_encodeFields_witness :
    (∀ f ∈ [WireField.varint 5 1, WireField.len 2 [0x74, 0x65], WireField.varint 5 300,
        WireField.fixed32 7 [1, 2, 3, 4], WireField.fixed64 5 [1, 2, 3, 4, 5, 6, 7, 8]],
        f.Valid) ∧
      GetAll (encodeFields [WireField.varint 5 1, WireField.len 2 [0x74, 0x65],
        WireField.varint 5 300, WireField.fixed32 7 [1, 2, 3, 4],
        WireField.fixed64 5 [1, 2, 3, 4, 5, 6, 7, 8]]) [5] =
        .ret (([WireField.varint 5 1, WireField.len 2 [0x74, 0x65], WireField.varint 5 300,
          WireField.fixed32 7 [1, 2, 3, 4], WireField.fixed64 5 [1, 2, 3, 4, 5, 6, 7, 8]].filter
            (fun f => decide ((f.num : Int) = 5))).map WireField.toResult) :=
  ⟨by decide, GetAll_encodeFields _ (by decide) 5⟩

/-! ## Groups -/

/-- The scan of a buffer that holds exactly one field, numbered `F`. -/
theorem IterFieldsLoop_single {σ : Type} (F : Int) (sink : Result → σ → σ × Outcome Bool)
    (pb : List Nat) (c : Int) (field : Result) (st : σ) (c2 : Int) (f2 : Result)
    (hr : readField (fun num tail => IterFields { Raw := tail } num groupSink false) pb c field =
      .cont F [] c2 f2) :
    IterFieldsLoop pb.length F sink pb c field st =
      match sink f2 st with
      | (st, .ret _) => (st, .ret (c2, none))
      | (st, .fault) => (st, .fault)
      | (st, .diverge) => (st, .diverge) := by
  have hlen := readField_cont_length _ pb c field F [] c2 f2 hr
  have hgt : pb.length > 0 := by omega
  rw [IterFieldsLoop_eq pb.length F sink pb c field st (le_refl _), if_pos hgt, hr]
  simp only [ne_eq, not_true_eq_false, if_false]
  rcases sink f2 st with ⟨st1, o⟩
  cases o with
  | ret v => cases v <;> simp [IterFieldsLoop]
  | fault => rfl
  | diverge => rfl

/-- Off the last step of the path, `walkFunc` looks at the payload of the field only. -/
theorem walkFunc_raw_only {σ : Type} (path : List Int) (sink : Result → σ → σ × Outcome Bool)
    (fuel : Nat) (it it2 : Result) (st : WalkState σ) (hraw : it.Raw = it2.Raw)
    (hd : ¬ st.depth = (path.length : Int) - 1) :
    walkFunc path sink fuel it st = walkFunc path sink fuel it2 st := by
  cases fuel with
  | zero => simp only [walkFunc, if_neg hd]
  | succ n =>
    simp only [walkFunc, if_neg hd]
    unfold IterFields
    rw [hraw]

/-- Two buffers that each hold exactly one field numbered `F`, with the same payload, give the
same `GetAll` on every path that goes on after `F`. -/
theorem GetAll_single_raw (F : Int) (rest : List Int) (hrest : rest ≠ []) (b1 b2 : List Nat)
    (c1 c2 : Int) (f1 f2 : Result)
    (h1 : readField (fun num tail => IterFields { Raw := tail } num groupSink false) b1 0 {} =
      .cont F [] c1 f1)
    (h2 : readField (fun num tail => IterFields { Raw := tail } num groupSink false) b2 0 {} =
      .cont F [] c2 f2)
    (hraw : f1.Raw = f2.Raw) :
    GetAll b1 (F :: rest) = GetAll b2 (F :: rest) := by
  unfold GetAll Result.GetAll
  rw [GetIter_cons, GetIter_cons]
  simp only
  rw [IterFieldsLoop_single F _ b1 0 {} _ c1 f1 h1, IterFieldsLoop_single F _ b2 0 {} _ c2 f2 h2]
  have hd : ¬ ({ user := [] } : WalkState (List Result)).depth =
      (((F :: rest).length : Nat) : Int) - 1 := by
    cases rest with
    | nil => exact absurd rfl hrest
    | cons n r => simp only [List.length_cons]; push_cast; omega
  rw [walkFunc_raw_only (F :: rest) allSink (F :: rest).length f1 f2 _ hraw hd]
  rcases walkFunc (F :: rest) allSink (F :: rest).length f2
    ({ user := [] } : WalkState (List Result)) with ⟨st1, o⟩
  cases o with
  | ret v => rfl
  | fault => rfl
  | diverge => rfl

/-- C4. A group reads like a length-delimited sub-message: for a valid field number `F` and a
well-formed body `B`, the scan of `SGROUP-tag(F) ++ B ++ EGROUP-tag(F)` for `F` delivers exactly
one field, of wire type SGROUP, whose `Raw` is `B`, and counts the whole buffer; hence on every
path that goes on after `F`, `GetAll` returns the same on the group and on the LEN field
`LEN-tag(F) ++ varint(len B) ++ B`. -/
theorem group_reads_like_len (F : Nat) (hF : ValidNumber F) (B : List Nat) (hB : WellFormed B)
    (hlen : B.length < 2 ^ 64) :
    IterFields { Raw := encodeTag F 3 ++ B ++ encodeTag F 4 } (F : Int) allSink [] =
        ([{ WireType := StartGroupType, Varint := 0, Raw := B }],
          .ret (((encodeTag F 3 ++ B ++ encodeTag F 4).length : Nat), none)) ∧
      ∀ rest : List Int, rest ≠ [] →
        GetAll (encodeTag F 3 ++ B ++ encodeTag F 4) ((F : Int) :: rest) =
          GetAll (encodeTag F 2 ++ encodeVarint B.length ++ B) ((F : Int) :: rest) := by
  obtain ⟨rsb, hrsb, hb⟩ := scan_wellFormed B hB (F : Int)
  have hread : ∀ (suffix : List Nat) (c : Int) (field : Result),
      readField (fun num tail => IterFields { Raw := tail } num groupSink false)
        (encodeTag F 3 ++ B ++ encodeTag F 4 ++ suffix) c field =
        .cont F suffix (c + ((encodeTag F 3 ++ B ++ encodeTag F 4).length : Nat))
          { WireType := StartGroupType, Varint := 0, Raw := B } :=
    fun suffix c field => readField_group _ F B suffix c field hF
      (groupScan_of_body F hF B suffix rsb hrsb hb)
  constructor
  · have hs := ScansThrough_cons (F : Int) (encodeTag F 3 ++ B ++ encodeTag F 4) [] (F : Int)
      { WireType := StartGroupType, Varint := 0, Raw := B } []
      (fun suffix c field => by rw [List.nil_append]; exact hread suffix c field)
      (ScansThrough_nil F)
    rw [if_pos rfl, List.append_nil] at hs
    exact IterFields_of_ScansThrough (F : Int) _ _ hs allSink [] _ (by simp [feed, allSink])
  · intro rest hrest
    have h1 := hread [] 0 {}
    have h2 := readField_len (fun num tail => IterFields { Raw := tail } num groupSink false)
      F B [] 0 {} hF hlen
    rw [List.append_nil] at h1 h2
    exact GetAll_single_raw (F : Int) rest hrest _ _ _ _ _ _ h1 h2 rfl

/-- C4 at the group 70 whose body is the field 71 holding the bytes `72 65 71`, with the path
that goes on to 71. -/
theorem group_reads_like_len_witness :
    ValidNumber 70 ∧
      WellFormed (encodeTag 71 2 ++ encodeVarint [0x72, 0x65, 0x71].length ++ [0x72, 0x65, 0x71]
        ++ []) ∧
      (IterFields { Raw := encodeTag 70 3 ++ (encodeTag 71 2 ++
          encodeVarint [0x72, 0x65, 0x71].length ++ [0x72, 0x65, 0x71] ++ []) ++ encodeTag 70 4 }
          ((70 : Nat) : Int) allSink [] =
        ([{ WireType := StartGroupType, Varint := 0, Raw := encodeTag 71 2 ++
            encodeVarint [0x72, 0x65, 0x71].length ++ [0x72, 0x65, 0x71] ++ [] }],
          .ret (((encodeTag 70 3 ++ (encodeTag 71 2 ++
            encodeVarint [0x72, 0x65, 0x71].length ++ [0x72, 0x65, 0x71] ++ []) ++
              encodeTag 70 4).length : Nat), none)) ∧
        ∀ rest : List Int, rest ≠ [] →
          GetAll (encodeTag 70 3 ++ (encodeTag 71 2 ++
              encodeVarint [0x72, 0x65, 0x71].length ++ [0x72, 0x65, 0x71] ++ []) ++
                encodeTag 70 4) (((70 : Nat) : Int) :: rest) =
            GetAll (encodeTag 70 2 ++ encodeVarint (encodeTag 71 2 ++
              encodeVarint [0x72, 0x65, 0x71].length ++ [0x72, 0x65, 0x71] ++ []).length ++
                (encodeTag 71 2 ++ encodeVarint [0x72, 0x65, 0x71].length ++
                  [0x72, 0x65, 0x71] ++ [])) (((70 : Nat) : Int) :: rest)) :=
  have hwf : WellFormed (encodeTag 71 2 ++ encodeVarint [0x72, 0x65, 0x71].length ++
      [0x72, 0x65, 0x71] ++ []) :=
    WellFormed.len 71 [0x72, 0x65, 0x71] [] (by decide) (by decide) WellFormed.nil
  ⟨by decide, hwf, group_reads_like_len 70 (by decide) _ hwf (by decide)⟩

/-! ## Counting the matches -/

theorem GetIter_raw {σ : Type} (r : Result) (sink : Result → σ → σ × Outcome Bool)
    (path : List Int) (u : σ) :
    r.GetIter sink path u = Result.GetIter { Raw := r.Raw } sink path u := by
  unfold Result.GetIter IterFields
  rfl

/-- Feeding top-level matches whose own traversals return no error to the traversal of
`F :: n :: rest`: every descent ends clean. -/
theorem feed_descent (F n : Int) (rest : List Int) (rs : List Result)
    (hrs : ∀ r ∈ rs, (Result.GetIter r allSink (n :: rest) []).2 = .ret none) :
    ∀ (a g : WalkState (List Result)), DescentRel (n :: rest) a g →
      ∃ a2, feed (walkFunc (F :: n :: rest) allSink (F :: n :: rest).length) rs a =
        (a2, .ret true) ∧ a2.err = none := by
  induction rs with
  | nil => intro a g h; exact ⟨a, rfl, h.2.2.1⟩
  | cons r rs ih =>
    intro a g h
    have hwg : (walkFunc [F] allSink [F].length r g).2 = .ret true := by
      rw [walkFunc_deliver [F] allSink [F].length r g (by simp [h.2.2.2.1])
        (by simp [h.2.2.2.2.1])]
      simp [walkDeliver, allSink]
    rcases descent_step_strong F n rest r a g h with ⟨h1, h2⟩ | ⟨h1, _⟩
    · rw [hwg] at h1
      obtain ⟨a2, h3, h4⟩ := ih (fun x hx => hrs x (List.mem_cons_of_mem _ hx)) _ _ h2
      refine ⟨a2, ?_, h4⟩
      rcases hw : walkFunc (F :: n :: rest) allSink (F :: n :: rest).length r a with ⟨a1, o⟩
      rw [hw] at h1 h3
      simp only at h1 h3
      subst h1
      simp only [feed, hw]
      exact h3
    · exact absurd (hrs r (List.mem_cons_self _ _)) h1

/-- On a message that is well-formed along the path, the traversal returns no error. -/
theorem GetIter_deepWF : ∀ (path : List Int) (b : List Nat), path ≠ [] → DeepWF path b →
    (Result.GetIter { Raw := b } allSink path []).2 = .ret none := by
  intro path
  induction path with
  | nil => intro b h; exact absurd rfl h
  | cons F tail ih =>
    intro b _ hd
    cases tail with
    | nil =>
      obtain ⟨rs, _, hrs⟩ := scan_wellFormed b hd F
      rw [GetIter_of_ScansThrough F b rs hrs]
    | cons n rest =>
      obtain ⟨hwf, hdeep⟩ := hd
      obtain ⟨rs, _, hrs⟩ := scan_wellFormed b hwf F
      have hall := hdeep rs (GetAll_of_ScansThrough F b rs hrs)
      have hok : ∀ r ∈ rs, (Result.GetIter r allSink (n :: rest) []).2 = .ret none := by
        intro r hr
        rw [GetIter_raw]
        exact ih r.Raw (by simp) (hall r hr)
      obtain ⟨a2, hfeed, herr⟩ := feed_descent F n rest rs hok
        ({ user := [] } : WalkState (List Result)) ({ user := [] } : WalkState (List Result))
        ⟨rfl, rfl, rfl, rfl, rfl, rfl, [], List.Forall₂.nil, rfl⟩
      have h2 := IterFields_of_ScansThrough F b rs hrs _ _ a2 hfeed
      unfold IterFields at h2
      simp only at h2
      rw [GetIter_cons]
      simp only
      rw [h2]
      simp only [herr]

/-- C7 (as stated, refuted). The buffer `08 96 01` is a well-formed message (field 1, VARINT,
150), yet on the path 1, 2, whose first step lands on that scalar, `GetIter` with the counting
sink returns an error: the varint bytes `96 01` are scanned as a message and their tag has wire
type 6. -/
theorem GetIter_error_on_scalar_descent :
    WellFormed (encodeTag 1 0 ++ encodeVarint 150 ++ []) ∧
      encodeTag 1 0 ++ encodeVarint 150 ++ [] = [0x08, 0x96, 0x01] ∧
      Result.GetIter { Raw := encodeTag 1 0 ++ encodeVarint 150 ++ [] } countSink [1, 2] 0 =
        (0, .ret (some (.ErrUnknownWireType 6))) :=
  ⟨WellFormed.varint 1 150 [] (by decide) (by decide) WellFormed.nil, by decide, by decide⟩

/-- C7 (amended). For every buffer and path, `GetIter` with a counting sink that always answers
true invokes the sink exactly as many times as the sink of `GetAll` collects results, that is
`len(GetAll(b, path))` times; and it returns no error when the message is well-formed along
the path: `b` is well-formed and so is the payload of every field that a non-final step of
the path lands on. -/
theorem GetIter_count_visits (b : List Nat) (path : List Int) :
    (Result.GetIter { Raw := b } countSink path 0).1 =
        (Result.GetIter { Raw := b } allSink path []).1.length ∧
      (∀ l, GetAll b path = .ret l → (Result.GetIter { Raw := b } countSink path 0).1 = l.length) ∧
      (path ≠ [] → DeepWF path b →
        (Result.GetIter { Raw := b } countSink path 0).2 = .ret none) := by
  have hc := GetIter_couple path countSink allSink (fun n l => n = l.length) (fun _ _ => False)
    (fun r n l hnl => Or.inl ⟨rfl, by simp [countSink, allSink, hnl]⟩)
    (fun r n l hnl => hnl) { Raw := b } 0 [] rfl
  rcases hc with ⟨h1, h2⟩ | h1
  · refine ⟨h2, ?_, ?_⟩
    · intro l hl
      rw [h2]
      unfold GetAll Result.GetAll at hl
      rcases hG : Result.GetIter { Raw := b } allSink path [] with ⟨u, o⟩
      rw [hG] at hl
      cases o with
      | ret v => simp only [Outcome.ret.injEq] at hl; rw [hl]
      | fault => cases hl
      | diverge => cases hl
    · intro hp hd
      rw [h1]
      exact GetIter_deepWF path b hp hd
  · exact absurd h1 id

/-- The amended C7 at a message whose field 3 holds the sub-message `08 2a`, on the path 3, 1. -/
theorem GetIter_count_visits_witness :
    DeepWF [3, 1] (encodeTag 3 2 ++ encodeVarint [0x08, 0x2a].length ++ [0x08, 0x2a] ++ []) ∧
      (Result.GetIter { Raw := encodeTag 3 2 ++ encodeVarint [0x08, 0x2a].length ++
          [0x08, 0x2a] ++ [] } countSink [3, 1] 0).1 =
        (Result.GetIter { Raw := encodeTag 3 2 ++ encodeVarint [0x08, 0x2a].length ++
          [0x08, 0x2a] ++ [] } allSink [3, 1] []).1.length ∧
      (∀ l, GetAll (encodeTag 3 2 ++ encodeVarint [0x08, 0x2a].length ++ [0x08, 0x2a] ++ [])
          [3, 1] = .ret l →
        (Result.GetIter { Raw := encodeTag 3 2 ++ encodeVarint [0x08, 0x2a].length ++
          [0x08, 0x2a] ++ [] } countSink [3, 1] 0).1 = l.length) ∧
      (Result.GetIter { Raw := encodeTag 3 2 ++ encodeVarint [0x08, 0x2a].length ++
        [0x08, 0x2a] ++ [] } countSink [3, 1] 0).2 = .ret none :=
  have hin : WellFormed [0x08, 0x2a] := by
    have e : [0x08, 0x2a] = encodeTag 1 0 ++ encodeVarint 42 ++ [] := by decide
    rw [e]
    exact WellFormed.varint 1 42 [] (by decide) (by decide) WellFormed.nil
  have hd : DeepWF [3, 1]
      (encodeTag 3 2 ++ encodeVarint [0x08, 0x2a].length ++ [0x08, 0x2a] ++ []) :=
    ⟨WellFormed.len 3 [0x08, 0x2a] [] (by decide) (by decide) WellFormed.nil, by
      intro rs hrs r hr
      have e : GetAll (encodeTag 3 2 ++ encodeVarint [0x08, 0x2a].length ++ [0x08, 0x2a] ++ [])
          [3] = .ret [{ WireType := BytesType, Varint := 0, Raw := [0x08, 0x2a] }] := by decide
      rw [e] at hrs
      simp only [Outcome.ret.injEq] at hrs
      subst hrs
      simp only [List.mem_singleton] at hr
      subst hr
      exact hin⟩
  have h := GetIter_count_visits
    (encodeTag 3 2 ++ encodeVarint [0x08, 0x2a].length ++ [0x08, 0x2a] ++ []) [3, 1]
  ⟨hd, h.1, h.2.1, h.2.2 (by decide) hd⟩

/-! ## Early termination -/

theorem takeThrough_all (p : Result → Bool) (l : List Result) (h : ∀ x ∈ l, p x = true) :
    takeThrough p l = l := by
  induction l with
  | nil => rfl
  | cons x xs ih =>
    simp only [takeThrough, h x (List.mem_cons_self _ _), if_true]
    rw [ih (fun y hy => h y (List.mem_cons_of_mem _ hy))]

theorem takeThrough_append_of_false (p : Result → Bool) (l m : List Result)
    (h : ∃ x ∈ l, p x = false) : takeThrough p (l ++ m) = takeThrough p l := by
  induction l with
  | nil => simp at h
  | cons x xs ih =>
    simp only [List.cons_append, takeThrough]
    cases hx : p x with
    | true =>
      simp only [if_true]
      rcases h with ⟨y, hy, hpy⟩
      rcases List.mem_cons.1 hy with rfl | hy2
      · rw [hx] at hpy; cases hpy
      · exact congrArg (x :: ·) (ih ⟨y, hy2, hpy⟩)
    | false => simp

theorem takeThrough_snoc_false (p : Result → Bool) (l : List Result) (r : Result)
    (h : ∀ x ∈ l, p x = true) (hr : p r = false) : takeThrough p (l ++ [r]) = l ++ [r] := by
  induction l with
  | nil => simp [takeThrough, hr]
  | cons x xs ih =>
    simp only [List.cons_append, takeThrough, h x (List.mem_cons_self _ _), if_true]
    exact congrArg (x :: ·) (ih (fun y hy => h y (List.mem_cons_of_mem _ hy)))

theorem takeThrough_init (p : Result → Bool) (l : List Result) :
    ∀ x ∈ (takeThrough p l).dropLast, p x = true := by
  induction l with
  | nil => simp [takeThrough]
  | cons y ys ih =>
    simp only [takeThrough]
    cases hy : p y with
    | false => simp
    | true =>
      simp only [if_true]
      intro x hx
      cases hT : takeThrough p ys with
      | nil => rw [hT] at hx; simp at hx
      | cons z zs =>
        rw [hT, List.dropLast_cons₂] at hx
        rcases List.mem_cons.1 hx with rfl | hx2
        · exact hy
        · exact ih x (by rw [hT]; exact hx2)

/-- C10. Early termination is sticky: the results that `GetIter` hands to a sink answering
with the predicate `p` are the results of `GetAll` up to and including the first one on which
`p` is false (all of them when there is none), so every result handed over but the last
satisfies `p` and the sink is not invoked again after it has answered false. -/
theorem GetIter_early_termination (b : List Nat) (path : List Int) (p : Result → Bool) :
    (Result.GetIter { Raw := b } (predSink p) path []).1 =
        takeThrough p (Result.GetIter { Raw := b } allSink path []).1 ∧
      (∀ l, GetAll b path = .ret l →
        (Result.GetIter { Raw := b } (predSink p) path []).1 = takeThrough p l) ∧
      (∀ x ∈ (Result.GetIter { Raw := b } (predSink p) path []).1.dropLast, p x = true) := by
  have key : (Result.GetIter { Raw := b } (predSink p) path []).1 =
      takeThrough p (Result.GetIter { Raw := b } allSink path []).1 := by
    have hc := GetIter_couple path allSink (predSink p)
      (fun la lb => la = lb ∧ ∀ x ∈ la, p x = true)
      (fun la lb => lb = takeThrough p la ∧ ∃ x ∈ la, p x = false)
      (fun r la lb hab => by
        rcases hab with ⟨rfl, hall⟩
        cases hr : p r with
        | true =>
          left
          refine ⟨by simp [allSink, predSink, hr], rfl, ?_⟩
          intro x hx
          simp only [allSink, List.mem_append, List.mem_singleton] at hx
          rcases hx with hx | rfl
          · exact hall x hx
          · exact hr
        | false =>
          right
          refine ⟨by simp [predSink, hr], ?_, ⟨r, by simp [allSink], hr⟩⟩
          simp only [allSink, predSink]
          exact (takeThrough_snoc_false p la r hall hr).symm)
      (fun r la lb hab => by
        rcases hab with ⟨h1, h2⟩
        refine ⟨?_, ?_⟩
        · simp only [allSink]
          rw [takeThrough_append_of_false p la [r] h2]
          exact h1
        · rcases h2 with ⟨x, hx, hpx⟩
          exact ⟨x, by simp [allSink, hx], hpx⟩)
      { Raw := b } [] [] ⟨rfl, by simp⟩
    rcases hc with ⟨_, h1, h2⟩ | ⟨h1, _⟩
    · rw [← h1, takeThrough_all p _ h2]
    · exact h1
  refine ⟨key, ?_, ?_⟩
  · intro l hl
    rw [key]
    unfold GetAll Result.GetAll at hl
    rcases hG : Result.GetIter { Raw := b } allSink path [] with ⟨u, o⟩
    rw [hG] at hl
    cases o with
    | ret v => simp only [Outcome.ret.injEq] at hl; rw [hl]
    | fault => cases hl
    | diverge => cases hl
  · rw [key]
    exact takeThrough_init p _

/-! ## Malformed input -/

/-- C2. On the buffer `0a 03 08 01 0f 12 07 74` and the path 1, 1 the traversal of `GetAll`
returns one result (the scan of the sub-message stops with an error after the match), whereas
`GetOne` does not return: after its sink has stopped the inner scan, the outer scan resumes, runs
into the length-delimited field that declares 7 bytes where 1 is left, and faults. -/
theorem GetOne_faults_where_GetAll_returns :
    GetAll [0x0a, 0x03, 0x08, 0x01, 0x0f, 0x12, 0x07, 0x74] [1, 1] =
        .ret [{ WireType := VarintType, Varint := 1, Raw := [0x01] }] ∧
      GetOne [0x0a, 0x03, 0x08, 0x01, 0x0f, 0x12, 0x07, 0x74] [1, 1] = .fault := by
  decide

/-- C5. On the buffer `12 07 74 65 73 74` (a length-delimited field that declares 7 bytes where
4 are left) `IterFields` does not return `ErrInvalidLength`: the slice expression faults, and
so do `GetIter` and `GetOne`; nothing is delivered. -/
theorem IterFields_faults_on_short_len_payload :
    IterFields { Raw := [0x12, 0x07, 0x74, 0x65, 0x73, 0x74] } 2 allSink [] = ([], .fault) ∧
      Result.GetIter { Raw := [0x12, 0x07, 0x74, 0x65, 0x73, 0x74] } allSink [2] [] =
        ([], .fault) ∧
      GetOne [0x12, 0x07, 0x74, 0x65, 0x73, 0x74] [2] = .fault := by
  decide

/-- C6 (as stated, refuted). On the buffer `08 01 0f` and the path 1 the traversal returns an
error (unknown wire type 7), yet `GetAll` is not empty and `GetOne` is not the INVALID result:
the match delivered before the error is kept. -/
theorem GetAll_keeps_matches_before_error :
    (Result.GetIter { Raw := [0x08, 0x01, 0x0f] } allSink [1] []).2 =
        .ret (some (.ErrUnknownWireType 7)) ∧
      GetAll [0x08, 0x01, 0x0f] [1] = .ret [{ WireType := VarintType, Varint := 1, Raw := [0x01] }] ∧
      GetOne [0x08, 0x01, 0x0f] [1] = .ret { WireType := VarintType, Varint := 1, Raw := [0x01] } ∧
      Result.Exist { WireType := VarintType, Varint := 1, Raw := [0x01] } = true := by
  decide

/-- C6 (amended). When `GetIter` with the always-true sink of `GetAll` returns an error, `GetAll`
drops the error and returns the matches delivered before it; when no match was delivered
before the error, `GetAll` is empty and `GetOne` is the INVALID result, for which `Exist` is
false. -/
theorem GetAll_GetOne_on_error (b : List Nat) (path : List Int) (e : Err)
    (h : (Result.GetIter { Raw := b } allSink path []).2 = .ret (some e)) :
    GetAll b path = .ret (Result.GetIter { Raw := b } allSink path []).1 ∧
      ((Result.GetIter { Raw := b } allSink path []).1 = [] →
        GetAll b path = .ret [] ∧ GetOne b path = .ret invalidResult ∧
          invalidResult.Exist = false) := by
  have hall : GetAll b path = .ret (Result.GetIter { Raw := b } allSink path []).1 := by
    unfold GetAll Result.GetAll
    rcases hG : Result.GetIter { Raw := b } allSink path [] with ⟨u, o⟩
    rw [hG] at h
    simp only at h
    subst h
    rfl
  refine ⟨hall, fun hnil => ⟨by rw [hall, hnil], ?_, by decide⟩⟩
  have hc := GetIter_couple path allSink oneSink
    (fun la rb => la = [] ∧ rb = invalidResult) (fun la _ => la ≠ [])
    (fun r la rb _ => Or.inr ⟨rfl, by simp [allSink]⟩)
    (fun r la rb _ => by simp [allSink])
    { Raw := b } [] invalidResult ⟨rfl, rfl⟩
  rcases hc with ⟨h1, _, h2⟩ | h1
  · unfold GetOne Result.GetOne
    rcases hO : Result.GetIter { Raw := b } oneSink path invalidResult with ⟨u, o⟩
    rw [hO] at h1 h2
    simp only at h1 h2
    rw [h] at h1
    subst h1 h2
    rfl
  · exact absurd hnil h1

/-- The amended C6 at the buffer `0f`: the error comes before any match. -/
theorem GetAll_GetOne_on_error_witness :
    (Result.GetIter { Raw := [0x0f] } allSink [1] []).2 = .ret (some (.ErrUnknownWireType 7)) ∧
      GetAll [0x0f] [1] = .ret (Result.GetIter { Raw := [0x0f] } allSink [1] []).1 ∧
      ((Result.GetIter { Raw := [0x0f] } allSink [1] []).1 = [] →
        GetAll [0x0f] [1] = .ret [] ∧ GetOne [0x0f] [1] = .ret invalidResult ∧
          invalidResult.Exist = false) :=
  ⟨by decide, GetAll_GetOne_on_error [0x0f] [1] (.ErrUnknownWireType 7) (by decide)⟩

/-- C9. On the buffer `0a 03 0a 01 0b 0f` and the path 1, 1, 1 the first error of the traversal is
`ErrEndGroupNotFound`, raised by the scan of the innermost message `0b` (and it is what
`GetIter` returns when the buffer ends there); but the outermost scan resumes, meets the tag
`0f`, and `GetIter` returns that later error, unknown wire type 7. -/
theorem GetIter_later_error_replaces_first :
    (IterFields { Raw := [0x0b] } 1 allSink []).2 = .ret (1, some .ErrEndGroupNotFound) ∧
      (Result.GetIter { Raw := [0x0a, 0x03, 0x0a, 0x01, 0x0b] } allSink [1, 1, 1] []).2 =
        .ret (some .ErrEndGroupNotFound) ∧
      (Result.GetIter { Raw := [0x0a, 0x03, 0x0a, 0x01, 0x0b, 0x0f] } allSink [1, 1, 1] []).2 =
        .ret (some (.ErrUnknownWireType 7)) := by
  decide

/-! ## The typed view layer -/

/-- C19. Zero on wire-type mismatch: `Int32`, `Int64`, `Uint32`, `Uint64`, `Sint32`, `Sint64`
return 0 and `Bool` returns false when the wire type is not VARINT; `Fixed32`, `SFixed32`,
`Float32` return 0 when it is not FIXED32; `Fixed64`, `SFixed64`, `Float64` return 0 when it is
not FIXED64; `String` returns the empty string and `Bytes` returns nil when it is not LEN;
whatever `Varint` and `Raw` hold (every accessor is a total function). -/
theorem accessors_zero_on_mismatch (r : Result) :
    (r.WireType ≠ VarintType →
        r.Int32 = 0 ∧ r.Int64 = 0 ∧ r.Uint32 = 0 ∧ r.Uint64 = 0 ∧ r.Sint32 = 0 ∧ r.Sint64 = 0 ∧
          r.Bool = false) ∧
      (r.WireType ≠ Fixed32Type → r.Fixed32 = 0 ∧ r.SFixed32 = 0 ∧ r.Float32 = 0) ∧
      (r.WireType ≠ Fixed64Type → r.Fixed64 = 0 ∧ r.SFixed64 = 0 ∧ r.Float64 = 0) ∧
      (r.WireType ≠ BytesType → r.String = [] ∧ r.Bytes = []) := by
  refine ⟨fun h => ?_, fun h => ?_, fun h => ?_, fun h => ?_⟩
  · simp [Result.Int32, Result.Int64, Result.Uint32, Result.Uint64, Result.Sint32, Result.Sint64,
      Result.Bool, h]
  · simp [Result.Fixed32, Result.SFixed32, Result.Float32, h]
  · simp [Result.Fixed64, Result.SFixed64, Result.Float64, h]
  · simp [Result.String, Result.Bytes, h]

/-- C19 at a FIXED32 result that holds a non-zero varint value and four non-zero bytes. -/
theorem accessors_zero_on_mismatch_witness :
    (Result.Int32 { WireType := Fixed32Type, Varint := 7, Raw := [1, 2, 3, 4] } = 0 ∧
      Result.Fixed64 { WireType := Fixed32Type, Varint := 7, Raw := [1, 2, 3, 4] } = 0 ∧
      Result.Bytes { WireType := Fixed32Type, Varint := 7, Raw := [1, 2, 3, 4] } = []) :=
  have h := accessors_zero_on_mismatch { WireType := Fixed32Type, Varint := 7, Raw := [1, 2, 3, 4] }
  ⟨(h.1 (by decide)).1, (h.2.2.1 (by decide)).1, (h.2.2.2 (by decide)).2⟩

/-- C20. For a VARINT result with value `v` (a uint64): `Uint64` is `v`, `Uint32` is
`v mod 2^32`, `Int64` is `v` read as a 64-bit two's-complement integer and `Int32` is
`v mod 2^32` read as a 32-bit two's-complement integer; so `Int32` gives back every int32 `x`
from the 64-bit sign extension of `x`, and `Int64` gives back every int64 `y` from
`y mod 2^64`. -/
theorem varint_views (r : Result) (hw : r.WireType = VarintType) (hv : r.Varint < 2 ^ 64) :
    r.Uint64 = r.Varint ∧ r.Uint32 = r.Varint % 2 ^ 32 ∧
      r.Int64 = (if r.Varint < 2 ^ 63 then (r.Varint : Int) else (r.Varint : Int) - 2 ^ 64) ∧
      r.Int32 = (if r.Varint % 2 ^ 32 < 2 ^ 31 then ((r.Varint % 2 ^ 32 : Nat) : Int)
        else ((r.Varint % 2 ^ 32 : Nat) : Int) - 2 ^ 32) ∧
      (∀ x : Int, -2 ^ 31 ≤ x → x < 2 ^ 31 →
        Result.Int32 { r with Varint := (x % 2 ^ 64).toNat } = x) ∧
      (∀ y : Int, -2 ^ 63 ≤ y → y < 2 ^ 63 →
        Result.Int64 { r with Varint := (y % 2 ^ 64).toNat } = y) := by
  have hne : ¬ (r.WireType ≠ VarintType) := by simp [hw]
  refine ⟨?_, ?_, ?_, ?_, ?_, ?_⟩
  · simp [Result.Uint64, hw]
  · simp [Result.Uint32, hw]
  · simp only [Result.Int64, if_neg hne, int64OfBits]
    have : r.Varint % 2 ^ 64 = r.Varint := Nat.mod_eq_of_lt hv
    rw [this]
  · simp only [Result.Int32, if_neg hne, int32OfBits]
  · intro x h1 h2
    simp only [Result.Int32, if_neg hne, int32OfBits]
    norm_num at h1 h2 ⊢
    split <;> omega
  · intro y h1 h2
    simp only [Result.Int64, if_neg hne, int64OfBits]
    norm_num at h1 h2 ⊢
    split <;> omega

/-- C20 at the VARINT result with value `2^64 - 32`, the sign extension of -32. -/
theorem varint_views_witness :
    Result.Uint64 { WireType := VarintType, Varint := 2 ^ 64 - 32 } = 2 ^ 64 - 32 ∧
      Result.Uint32 { WireType := VarintType, Varint := 2 ^ 64 - 32 } = 2 ^ 32 - 32 ∧
      Result.Int64 { WireType := VarintType, Varint := 2 ^ 64 - 32 } = -32 ∧
      Result.Int32 { WireType := VarintType, Varint := 2 ^ 64 - 32 } = -32 :=
  have h := varint_views { WireType := VarintType, Varint := 2 ^ 64 - 32 } rfl (by decide)
  ⟨h.1, by rw [h.2.1]; decide, by rw [h.2.2.1]; decide, by rw [h.2.2.2.1]; decide⟩

/-! ## The packed unpacker -/

/-- C18. `Unpack(t)` returns an empty sequence whenever the wire type of the result is not LEN
or `t` is not one of VARINT, FIXED32, FIXED64; otherwise it is `UnpackVarint`, `UnpackFixed32`
or `UnpackFixed64` respectively. -/
theorem Unpack_dispatch (r : Result) (t : Int) :
    (r.WireType ≠ BytesType → r.Unpack t = []) ∧
      (t ≠ VarintType → t ≠ Fixed32Type → t ≠ Fixed64Type → r.Unpack t = []) ∧
      r.Unpack VarintType = r.UnpackVarint ∧ r.Unpack Fixed32Type = r.UnpackFixed32 ∧
      r.Unpack Fixed64Type = r.UnpackFixed64 := by
  refine ⟨fun h => ?_, fun h1 h2 h3 => ?_, ?_, ?_, ?_⟩
  · unfold Result.Unpack Result.UnpackVarint Result.UnpackFixed32 Result.UnpackFixed64
    simp [h]
  · simp [Result.Unpack, h1, h2, h3]
  · simp [Result.Unpack]
  · simp [Result.Unpack, VarintType, Fixed32Type]
  · simp [Result.Unpack, VarintType, Fixed32Type, Fixed64Type]

/-- C18 at a VARINT result asked for varints, and at a LEN result asked for groups. -/
theorem Unpack_dispatch_witness :
    Result.Unpack { WireType := VarintType, Varint := 1, Raw := [1] } VarintType = [] ∧
      Result.Unpack { WireType := BytesType, Raw := [1, 2, 3, 4] } StartGroupType = [] :=
  ⟨(Unpack_dispatch { WireType := VarintType, Varint := 1, Raw := [1] } VarintType).1
      (by decide),
    (Unpack_dispatch { WireType := BytesType, Raw := [1, 2, 3, 4] } StartGroupType).2.1
      (by decide) (by decide) (by decide)⟩

theorem UnpackFixed32Loop_eq (pb : List Nat) (results : List Result) :
    UnpackFixed32Loop pb results =
      results ++ (List.range (pb.length / 4)).map (fun i =>
        ({ WireType := Fixed32Type, Varint := 0, Raw := (pb.drop (4 * i)).take 4 } : Result)) := by
  induction pb, results using UnpackFixed32Loop.induct with
  | case1 b0 b1 b2 b3 pb results ih =>
    rw [UnpackFixed32Loop, ih]
    have hlen : (b0 :: b1 :: b2 :: b3 :: pb).length / 4 = pb.length / 4 + 1 := by
      simp only [List.length_cons]; omega
    rw [hlen, List.range_succ_eq_map, List.map_cons, List.map_map, List.append_assoc]
    congr 1
  | case2 t results hne =>
    have hlt : t.length < 4 := by
      match t, hne with
      | [], _ => simp
      | [_], _ => simp
      | [_, _], _ => simp
      | [_, _, _], _ => simp
      | b0 :: b1 :: b2 :: b3 :: pb, h => exact absurd rfl (h b0 b1 b2 b3 pb)
    have h0 : t.length / 4 = 0 := by omega
    rw [h0]
    have : UnpackFixed32Loop t results = results := by
      match t, hne with
      | [], _ => rfl
      | [_], _ => rfl
      | [_, _], _ => rfl
      | [_, _, _], _ => rfl
      | b0 :: b1 :: b2 :: b3 :: pb, h => exact absurd rfl (h b0 b1 b2 b3 pb)
    simp [this]

theorem UnpackFixed64Loop_eq (pb : List Nat) (results : List Result) :
    UnpackFixed64Loop pb results =
      results ++ (List.range (pb.length / 8)).map (fun i =>
        ({ WireType := Fixed64Type, Varint := 0, Raw := (pb.drop (8 * i)).take 8 } : Result)) := by
  induction pb, results using UnpackFixed64Loop.induct with
  | case1 b0 b1 b2 b3 b4 b5 b6 b7 pb results ih =>
    rw [UnpackFixed64Loop, ih]
    have hlen : (b0 :: b1 :: b2 :: b3 :: b4 :: b5 :: b6 :: b7 :: pb).length / 8 =
        pb.length / 8 + 1 := by
      simp only [List.length_cons]; omega
    rw [hlen, List.range_succ_eq_map, List.map_cons, List.map_map, List.append_assoc]
    congr 1
  | case2 t results hne =>
    have hlt : t.length < 8 := by
      by_contra hge
      match t, hne with
      | b0 :: b1 :: b2 :: b3 :: b4 :: b5 :: b6 :: b7 :: pb, h =>
        exact absurd rfl (h b0 b1 b2 b3 b4 b5 b6 b7 pb)
      | [], _ => simp at hge
      | [_], _ => simp at hge
      | [_, _], _ => simp at hge
      | [_, _, _], _ => simp at hge
      | [_, _, _, _], _ => simp at hge
      | [_, _, _, _, _], _ => simp at hge
      | [_, _, _, _, _, _], _ => simp at hge
      | [_, _, _, _, _, _, _], _ => simp at hge
    have h0 : t.length / 8 = 0 := by omega
    rw [h0]
    have : UnpackFixed64Loop t results = results := by
      match t, hne with
      | b0 :: b1 :: b2 :: b3 :: b4 :: b5 :: b6 :: b7 :: pb, h =>
        exact absurd rfl (h b0 b1 b2 b3 b4 b5 b6 b7 pb)
      | [], _ => rfl
      | [_], _ => rfl
      | [_, _], _ => rfl
      | [_, _, _], _ => rfl
      | [_, _, _, _], _ => rfl
      | [_, _, _, _, _], _ => rfl
      | [_, _, _, _, _, _], _ => rfl
      | [_, _, _, _, _, _, _], _ => rfl
    simp [this]

/-- C17. For a LEN result with `Raw` of length `n`, `UnpackFixed32` returns exactly `n / 4`
results, the `i`-th with wire type FIXED32, `Varint` 0 and `Raw = Raw[4i .. 4i+4)`, and the
trailing `n mod 4` bytes are ignored; `UnpackFixed64` returns exactly `n / 8` results, the
`i`-th with wire type FIXED64, `Varint` 0 and `Raw = Raw[8i .. 8i+8)`. -/
theorem UnpackFixed_strides (r : Result) (h : r.WireType = BytesType) :
    r.UnpackFixed32 = (List.range (r.Raw.length / 4)).map (fun i =>
        ({ WireType := Fixed32Type, Varint := 0, Raw := (r.Raw.drop (4 * i)).take 4 } : Result)) ∧
      r.UnpackFixed32.length = r.Raw.length / 4 ∧
      r.UnpackFixed64 = (List.range (r.Raw.length / 8)).map (fun i =>
        ({ WireType := Fixed64Type, Varint := 0, Raw := (r.Raw.drop (8 * i)).take 8 } : Result)) ∧
      r.UnpackFixed64.length = r.Raw.length / 8 := by
  have hne : ¬ (r.WireType ≠ BytesType) := by simp [h]
  have h32 : r.UnpackFixed32 = (List.range (r.Raw.length / 4)).map (fun i =>
      ({ WireType := Fixed32Type, Varint := 0, Raw := (r.Raw.drop (4 * i)).take 4 } : Result)) := by
    unfold Result.UnpackFixed32
    rw [if_neg hne, UnpackFixed32Loop_eq, List.nil_append]
  have h64 : r.UnpackFixed64 = (List.range (r.Raw.length / 8)).map (fun i =>
      ({ WireType := Fixed64Type, Varint := 0, Raw := (r.Raw.drop (8 * i)).take 8 } : Result)) := by
    unfold Result.UnpackFixed64
    rw [if_neg hne, UnpackFixed64Loop_eq, List.nil_append]
  refine ⟨h32, ?_, h64, ?_⟩
  · rw [h32, List.length_map, List.length_range]
  · rw [h64, List.length_map, List.length_range]

/-- C17 at a LEN result of nine bytes: two FIXED32 results and one trailing byte, one FIXED64
result and one trailing byte. -/
theorem UnpackFixed_strides_witness :
    Result.UnpackFixed32 { WireType := BytesType, Raw := [1, 2, 3, 4, 5, 6, 7, 8, 9] } =
        [{ WireType := Fixed32Type, Varint := 0, Raw := [1, 2, 3, 4] },
          { WireType := Fixed32Type, Varint := 0, Raw := [5, 6, 7, 8] }] ∧
      Result.UnpackFixed64 { WireType := BytesType, Raw := [1, 2, 3, 4, 5, 6, 7, 8, 9] } =
        [{ WireType := Fixed64Type, Varint := 0, Raw := [1, 2, 3, 4, 5, 6, 7, 8] }] :=
  have h := UnpackFixed_strides { WireType := BytesType, Raw := [1, 2, 3, 4, 5, 6, 7, 8, 9] } rfl
  ⟨by rw [h.1]; decide, by rw [h.2.2.1]; decide⟩

theorem ConsumeVarintFrom_continued : ∀ (T : List Nat) (i acc : Nat),
    (∀ y ∈ T, 128 ≤ y) → (ConsumeVarintFrom i acc T).2 < 0 := by
  intro T
  induction T with
  | nil => intro i acc _; simp [ConsumeVarintFrom, errCodeTruncated]
  | cons y ys ih =>
    intro i acc h
    have hy : 128 ≤ y := h y (List.mem_cons_self _ _)
    rw [ConsumeVarintFrom]
    by_cases h9 : i = 9
    · rw [if_pos h9, if_neg (by omega)]
      simp [errCodeOverflow]
    · rw [if_neg h9, if_neg (by omega)]
      exact ih _ _ (fun z hz => h z (List.mem_cons_of_mem _ hz))

/-- A varint cut short: every byte that is left has the continuation bit set. -/
theorem ConsumeVarint_truncated (T : List Nat) (h : ∀ y ∈ T, 128 ≤ y) :
    (ConsumeVarint T).2 < 0 :=
  ConsumeVarintFrom_continued T 0 0 h

/-- The loop of `UnpackVarint` over the encodings of `vs`, followed by nothing or by bytes
that do not start a complete varint. -/
theorem UnpackVarintLoop_encode (vs : List Nat) (hv : ∀ v ∈ vs, v < 2 ^ 64) (T : List Nat)
    (hT : T = [] ∨ (ConsumeVarint T).2 < 0) :
    ∀ (fuel : Nat) (results : List Result),
      ((vs.map encodeVarint).flatten ++ T).length ≤ fuel →
      UnpackVarintLoop fuel ((vs.map encodeVarint).flatten ++ T) results =
        results ++ vs.map (fun v =>
          ({ WireType := VarintType, Varint := v, Raw := encodeVarint v } : Result)) := by
  induction vs with
  | nil =>
    intro fuel results hle
    simp only [List.map_nil, List.flatten_nil, List.nil_append, List.append_nil]
    cases fuel with
    | zero => rfl
    | succ f =>
      rw [UnpackVarintLoop]
      rcases hT with rfl | hT
      · simp
      · split
        · rcases hc : ConsumeVarint T with ⟨v, n⟩
          rw [hc] at hT
          simp only at hT ⊢
          rw [if_pos hT]
        · rfl
  | cons v vs ih =>
    intro fuel results hle
    have hvlt : v < 2 ^ 64 := hv v (List.mem_cons_self _ _)
    have e1 : ((v :: vs).map encodeVarint).flatten ++ T =
        encodeVarint v ++ ((vs.map encodeVarint).flatten ++ T) := by
      simp
    rw [e1] at hle ⊢
    have hpos := encodeVarint_length_pos v
    rw [List.length_append] at hle
    obtain ⟨f, rfl⟩ : ∃ f, fuel = f + 1 := ⟨fuel - 1, by omega⟩
    rw [UnpackVarintLoop]
    have hgt : (encodeVarint v ++ ((vs.map encodeVarint).flatten ++ T)).length > 0 := by
      rw [List.length_append]; omega
    rw [if_pos hgt, ConsumeVarint_encodeVarint v _ hvlt]
    have hnn : ¬ (((encodeVarint v).length : Int) < 0) := by omega
    simp only [hnn, if_false, Int.toNat_ofNat, List.drop_left, List.take_left]
    rw [ih (fun w hw => hv w (List.mem_cons_of_mem _ hw)) f _ (by omega)]
    simp

/-- C15. `UnpackVarint` undoes varint concatenation: on a LEN result whose `Raw` is the
concatenation of the varint encodings of the uint64 values `vs` it returns `len(vs)` results,
the `i`-th with wire type VARINT, `Varint = vs[i]` and `Raw` the bytes of the `i`-th encoding;
so mapping `Uint64` over the output gives `vs`. -/
theorem UnpackVarint_concat (vs : List Nat) (hv : ∀ v ∈ vs, v < 2 ^ 64) :
    Result.UnpackVarint { WireType := BytesType, Raw := (vs.map encodeVarint).flatten } =
        vs.map (fun v =>
          ({ WireType := VarintType, Varint := v, Raw := encodeVarint v } : Result)) ∧
      (Result.UnpackVarint
        { WireType := BytesType, Raw := (vs.map encodeVarint).flatten }).length = vs.length ∧
      (Result.UnpackVarint
        { WireType := BytesType, Raw := (vs.map encodeVarint).flatten }).map Result.Uint64 = vs := by
  have h1 : Result.UnpackVarint { WireType := BytesType, Raw := (vs.map encodeVarint).flatten } =
      vs.map (fun v =>
        ({ WireType := VarintType, Varint := v, Raw := encodeVarint v } : Result)) := by
    unfold Result.UnpackVarint
    simp only [ne_eq, not_true_eq_false, if_false]
    have h := UnpackVarintLoop_encode vs hv [] (Or.inl rfl)
      ((vs.map encodeVarint).flatten).length [] (by simp)
    rw [List.append_nil] at h
    rw [h, List.nil_append]
  refine ⟨h1, by rw [h1, List.length_map], ?_⟩
  rw [h1, List.map_map]
  have : (Result.Uint64 ∘ fun v =>
      ({ WireType := VarintType, Varint := v, Raw := encodeVarint v } : Result)) = id := by
    funext v
    simp [Result.Uint64]
  rw [this, List.map_id]

/-- C15 at the packed values 1, 150 and `2^64 - 1`. -/
theorem UnpackVarint_concat_witness :
    (∀ v ∈ [1, 150, 2 ^ 64 - 1], v < 2 ^ 64) ∧
      (Result.UnpackVarint
        { WireType := BytesType
          Raw := (([1, 150, 2 ^ 64 - 1] : List Nat).map encodeVarint).flatten }).map
          Result.Uint64 = [1, 150, 2 ^ 64 - 1] :=
  ⟨by decide, (UnpackVarint_concat [1, 150, 2 ^ 64 - 1] (by decide)).2.2⟩

/-- C16. For a LEN result whose `Raw` is `P ++ T`, where `P` is a concatenation of complete
varint encodings and `T` is a truncated varint (bytes that all have the continuation bit
set; in particular a non-empty `T` of fewer than 10 such bytes), `UnpackVarint` returns
exactly what it returns for `Raw = P`: the truncated tail is dropped silently. -/
theorem UnpackVarint_truncated_tail (vs : List Nat) (hv : ∀ v ∈ vs, v < 2 ^ 64) (T : List Nat)
    (hT : ∀ y ∈ T, 128 ≤ y) :
    Result.UnpackVarint { WireType := BytesType, Raw := (vs.map encodeVarint).flatten ++ T } =
      Result.UnpackVarint { WireType := BytesType, Raw := (vs.map encodeVarint).flatten } := by
  rw [(UnpackVarint_concat vs hv).1]
  unfold Result.UnpackVarint
  simp only [ne_eq, not_true_eq_false, if_false]
  rw [UnpackVarintLoop_encode vs hv T (Or.inr (ConsumeVarint_truncated T hT)) _ [] (le_refl _),
    List.nil_append]

/-- C16 at the packed values 1 and 150 followed by the two bytes `80 ff`. -/
theorem UnpackVarint_truncated_tail_witness :
    (∀ v ∈ [1, 150], v < 2 ^ 64) ∧ ([0x80, 0xff] : List Nat) ≠ [] ∧
      ([0x80, 0xff] : List Nat).length < 10 ∧ (∀ y ∈ ([0x80, 0xff] : List Nat), 128 ≤ y) ∧
      Result.UnpackVarint
          { WireType := BytesType
            Raw := (([1, 150] : List Nat).map encodeVarint).flatten ++ [0x80, 0xff] } =
        Result.UnpackVarint
          { WireType := BytesType
            Raw := (([1, 150] : List Nat).map encodeVarint).flatten } :=
  ⟨by decide, by decide, by decide, by decide,
    UnpackVarint_truncated_tail [1, 150] (by decide) [0x80, 0xff] (by decide)⟩

/-- `GetOne` on a buffer that holds exactly one field, numbered `F`, returns that field. -/
theorem GetOne_single (F : Int) (b : List Nat) (c2 : Int) (f2 : Result)
    (hr : readField (fun num tail => IterFields { Raw := tail } num groupSink false) b 0 {} =
      .cont F [] c2 f2) :
    GetOne b [F] = .ret f2 := by
  unfold GetOne Result.GetOne
  rw [GetIter_cons]
  simp only
  rw [IterFieldsLoop_single F _ b 0 {} _ c2 f2 hr,
    walkFunc_deliver [F] oneSink [F].length f2 _ (by simp) (by simp)]
  simp [walkDeliver, oneSink]

theorem UnpackFixed32Loop_words (ws : List (List Nat)) (h : ∀ w ∈ ws, w.length = 4) :
    ∀ results : List Result, UnpackFixed32Loop ws.flatten results =
      results ++ ws.map (fun w =>
        ({ WireType := Fixed32Type, Varint := 0, Raw := w } : Result)) := by
  induction ws with
  | nil => intro results; simp [UnpackFixed32Loop]
  | cons w ws ih =>
    intro results
    have hw := h w (List.mem_cons_self _ _)
    match w, hw with
    | [b0, b1, b2, b3], _ =>
      simp only [List.flatten_cons, List.cons_append, List.nil_append]
      rw [UnpackFixed32Loop, ih (fun x hx => h x (List.mem_cons_of_mem _ hx))]
      simp

theorem UnpackFixed64Loop_words (ws : List (List Nat)) (h : ∀ w ∈ ws, w.length = 8) :
    ∀ results : List Result, UnpackFixed64Loop ws.flatten results =
      results ++ ws.map (fun w =>
        ({ WireType := Fixed64Type, Varint := 0, Raw := w } : Result)) := by
  induction ws with
  | nil => intro results; simp [UnpackFixed64Loop]
  | cons w ws ih =>
    intro results
    have hw := h w (List.mem_cons_self _ _)
    match w, hw with
    | [b0, b1, b2, b3, b4, b5, b6, b7], _ =>
      simp only [List.flatten_cons, List.cons_append, List.nil_append]
      rw [UnpackFixed64Loop, ih (fun x hx => h x (List.mem_cons_of_mem _ hx))]
      simp

/-- `GetAll` on the repeated encoding of one field number: one result per field. -/
theorem GetAll_repeated (F : Nat) (fields : List WireField) (hv : ∀ f ∈ fields, f.Valid)
    (hnum : ∀ f ∈ fields, f.num = F) :
    GetAll (encodeFields fields) [(F : Int)] = .ret (fields.map WireField.toResult) := by
  rw [GetAll_encodeFields fields hv (F : Int)]
  have : fields.filter (fun f => decide ((f.num : Int) = (F : Int))) = fields := by
    rw [List.filter_eq_self]
    intro f hf
    simp [hnum f hf]
  rw [this]

/-- C14. Packed and non-packed repeated scalars read the same: for a valid field number `F` and
uint64 values `vs`, `GetOne(packed, F).UnpackVarint()` is `GetAll(unpacked, F)`, where `packed`
is one LEN field `F` whose payload is the concatenation of the varint encodings of `vs` and
`unpacked` is one VARINT field `F` per value; likewise for 4-byte words with `UnpackFixed32`
and FIXED32 fields, and for 8-byte words with `UnpackFixed64` and FIXED64 fields. -/
theorem packed_reads_like_repeated (F : Nat) (hF : ValidNumber F) :
    (∀ vs : List Nat, (∀ v ∈ vs, v < 2 ^ 64) → (vs.map encodeVarint).flatten.length < 2 ^ 64 →
      ∃ r, GetOne (WireField.encode (.len F (vs.map encodeVarint).flatten)) [(F : Int)] = .ret r ∧
        GetAll (encodeFields (vs.map (WireField.varint F))) [(F : Int)] = .ret r.UnpackVarint) ∧
      (∀ ws : List (List Nat), (∀ w ∈ ws, w.length = 4) → ws.flatten.length < 2 ^ 64 →
        ∃ r, GetOne (WireField.encode (.len F ws.flatten)) [(F : Int)] = .ret r ∧
          GetAll (encodeFields (ws.map (WireField.fixed32 F))) [(F : Int)] =
            .ret r.UnpackFixed32) ∧
      (∀ ws : List (List Nat), (∀ w ∈ ws, w.length = 8) → ws.flatten.length < 2 ^ 64 →
        ∃ r, GetOne (WireField.encode (.len F ws.flatten)) [(F : Int)] = .ret r ∧
          GetAll (encodeFields (ws.map (WireField.fixed64 F))) [(F : Int)] =
            .ret r.UnpackFixed64) := by
  have hone : ∀ payload : List Nat, payload.length < 2 ^ 64 →
      GetOne (WireField.encode (.len F payload)) [(F : Int)] =
        .ret { WireType := BytesType, Varint := 0, Raw := payload } := by
    intro payload hp
    have h := readField_len (fun num tail => IterFields { Raw := tail } num groupSink false)
      F payload [] 0 {} hF hp
    rw [List.append_nil] at h
    exact GetOne_single (F : Int) _ _ _ h
  refine ⟨fun vs hv hlen => ?_, fun ws hw hlen => ?_, fun ws hw hlen => ?_⟩
  · refine ⟨_, hone _ hlen, ?_⟩
    rw [(UnpackVarint_concat vs hv).1, GetAll_repeated F _
      (by intro f hf
          obtain ⟨v, hvm, rfl⟩ := List.mem_map.1 hf
          exact ⟨hF, hv v hvm⟩)
      (by intro f hf
          obtain ⟨v, _, rfl⟩ := List.mem_map.1 hf
          rfl),
      List.map_map]
    rfl
  · refine ⟨_, hone _ hlen, ?_⟩
    rw [GetAll_repeated F _
      (by intro f hf
          obtain ⟨w, hwm, rfl⟩ := List.mem_map.1 hf
          exact ⟨hF, hw w hwm⟩)
      (by intro f hf
          obtain ⟨w, _, rfl⟩ := List.mem_map.1 hf
          rfl),
      List.map_map]
    unfold Result.UnpackFixed32
    simp only [ne_eq, not_true_eq_false, if_false]
    rw [UnpackFixed32Loop_words ws hw, List.nil_append]
    rfl
  · refine ⟨_, hone _ hlen, ?_⟩
    rw [GetAll_repeated F _
      (by intro f hf
          obtain ⟨w, hwm, rfl⟩ := List.mem_map.1 hf
          exact ⟨hF, hw w hwm⟩)
      (by intro f hf
          obtain ⟨w, _, rfl⟩ := List.mem_map.1 hf
          rfl),
      List.map_map]
    unfold Result.UnpackFixed64
    simp only [ne_eq, not_true_eq_false, if_false]
    rw [UnpackFixed64Loop_words ws hw, List.nil_append]
    rfl

/-- C14 at field 6 with the packed varints 1, 2, 3 (the spec's scenario 5). -/
theorem packed_reads_like_repeated_witness :
    ValidNumber 6 ∧ (∀ v ∈ [1, 2, 3], v < 2 ^ 64) ∧
      (([1, 2, 3] : List Nat).map encodeVarint).flatten.length < 2 ^ 64 ∧
      ∃ r, GetOne (WireField.encode (.len 6 (([1, 2, 3] : List Nat).map encodeVarint).flatten))
          [((6 : Nat) : Int)] = .ret r ∧
        GetAll (encodeFields (([1, 2, 3] : List Nat).map (WireField.varint 6)))
          [((6 : Nat) : Int)] = .ret r.UnpackVarint :=
  ⟨by decide, by decide, by decide,
    (packed_reads_like_repeated 6 (by decide)).1 [1, 2, 3] (by decide) (by decide)⟩

/-! ## Errors of the field scanner -/

/-- When the tag decoding and `switch` return, whatever the group scan, so does the loop, with
the sink state untouched. -/
theorem IterFieldsLoop_stop {σ : Type} (fuel : Nat) (F : Int)
    (sink : Result → σ → σ × Outcome Bool) (pb : List Nat) (c : Int) (field : Result) (st : σ)
    (out : Outcome (Int × Option Err)) (hpos : pb.length > 0)
    (h : ∀ sg, readField sg pb c field = .stop out) :
    IterFieldsLoop (fuel + 1) F sink pb c field st = (st, out) := by
  rw [IterFieldsLoop, if_pos hpos, h]

/-- A stop of the loop body right after a prefix that the scan passes over. -/
theorem IterFields_prefix_stop {σ : Type} (F : Int) (P : List Nat) (rs : List Result)
    (hP : ScansThrough F P rs) (sink : Result → σ → σ × Outcome Bool) (st st2 : σ)
    (hfeed : feed sink rs st = (st2, .ret true)) (X : List Nat) (hpos : X.length > 0)
    (out : Int → Outcome (Int × Option Err))
    (hstop : ∀ sg c field, readField sg X c field = .stop (out c)) :
    IterFields { Raw := P ++ X } F sink st = (st2, out (P.length : Nat)) := by
  obtain ⟨field2, h2⟩ := hP {}
  unfold IterFields
  simp only
  rw [h2 sink X 0 st st2 hfeed]
  obtain ⟨m, hm⟩ : ∃ m, X.length = m + 1 := ⟨X.length - 1, by omega⟩
  rw [hm, IterFieldsLoop_stop m F sink X _ field2 st2 _ hpos (fun sg => hstop sg _ field2)]
  simp

theorem ConsumeTag_pos_length (pb : List Nat) (num wt t : Int)
    (hT : ConsumeTag pb = (num, wt, t)) (ht : 0 ≤ t) : pb.length > 0 := by
  have hb := ConsumeTag_bounds pb
  rw [hT] at hb
  simp only at hb
  rcases hb with hb | ⟨h1, h2⟩
  · omega
  · omega

theorem readField_unknown (sg : Int → List Nat → Bool × Outcome (Int × Option Err))
    (pb : List Nat) (c : Int) (field : Result) (num wt t : Int)
    (hT : ConsumeTag pb = (num, wt, t)) (ht : 0 ≤ t) (hwt : wt = 6 ∨ wt = 7) :
    readField sg pb c field = .stop (.ret (c + t, some (.ErrUnknownWireType wt))) := by
  unfold readField
  rw [hT]
  have hneg : ¬ t < 0 := by omega
  rcases hwt with rfl | rfl <;>
    simp [hneg, VarintType, Fixed32Type, Fixed64Type, BytesType, StartGroupType, EndGroupType]

theorem readField_fixed32_short (sg : Int → List Nat → Bool × Outcome (Int × Option Err))
    (num : Nat) (hnum : ValidNumber num) (T : List Nat) (hT : T.length < 4) (c : Int)
    (field : Result) :
    readField sg (encodeTag num 5 ++ T) c field =
      .stop (.ret (c + ((encodeTag num 5).length : Nat), some .ErrInvalidLength)) := by
  unfold readField
  rw [ConsumeTag_encodeTag num 5 T hnum (by norm_num)]
  have hpos : ¬ (((encodeTag num 5).length : Int) < 0) := by omega
  simp [hpos, VarintType, Fixed32Type, hT]

theorem readField_fixed64_short (sg : Int → List Nat → Bool × Outcome (Int × Option Err))
    (num : Nat) (hnum : ValidNumber num) (T : List Nat) (hT : T.length < 8) (c : Int)
    (field : Result) :
    readField sg (encodeTag num 1 ++ T) c field =
      .stop (.ret (c + ((encodeTag num 1).length : Nat), some .ErrInvalidLength)) := by
  unfold readField
  rw [ConsumeTag_encodeTag num 1 T hnum (by norm_num)]
  have hpos : ¬ (((encodeTag num 1).length : Int) < 0) := by omega
  simp [hpos, VarintType, Fixed32Type, Fixed64Type, hT]

theorem readField_varint_short (sg : Int → List Nat → Bool × Outcome (Int × Option Err))
    (num : Nat) (hnum : ValidNumber num) (T : List Nat) (hT : ∀ y ∈ T, 128 ≤ y) (c : Int)
    (field : Result) :
    readField sg (encodeTag num 0 ++ T) c field =
      .stop (.ret (c + ((encodeTag num 0).length : Nat), some .ErrInvalidLength)) := by
  unfold readField
  rw [ConsumeTag_encodeTag num 0 T hnum (by norm_num)]
  have hpos : ¬ (((encodeTag num 0).length : Int) < 0) := by omega
  have hneg := ConsumeVarint_truncated T hT
  rcases hc : ConsumeVarint T with ⟨v, n⟩
  rw [hc] at hneg
  simp only at hneg
  simp [hpos, VarintType, hc, hneg]

theorem encodeTag_length_pos (num wt : Nat) : (encodeTag num wt).length > 0 :=
  encodeVarint_length_pos _

/-- The top-level matches of a message that is well-formed along a path: the scan passes over
the message, and `walkFunc` answers true on every match and records no error. -/
theorem deepWF_feed (F : Int) (tail : List Int) (P : List Nat) (hd : DeepWF (F :: tail) P) :
    ∃ (rs : List Result) (a2 : WalkState (List Result)), ScansThrough F P rs ∧
      feed (walkFunc (F :: tail) allSink (F :: tail).length) rs
        ({ user := [] } : WalkState (List Result)) = (a2, .ret true) ∧ a2.err = none := by
  cases tail with
  | nil =>
    obtain ⟨rs, _, hrs⟩ := scan_wellFormed P hd F
    exact ⟨rs, _, hrs, feed_walk_single F [F].length rs _ rfl rfl, rfl⟩
  | cons n rest =>
    obtain ⟨hwf, hdeep⟩ := hd
    obtain ⟨rs, _, hrs⟩ := scan_wellFormed P hwf F
    have hall := hdeep rs (GetAll_of_ScansThrough F P rs hrs)
    have hok : ∀ r ∈ rs, (Result.GetIter r allSink (n :: rest) []).2 = .ret none := by
      intro r hr
      rw [GetIter_raw]
      exact GetIter_deepWF (n :: rest) r.Raw (by simp) (hall r hr)
    obtain ⟨a2, hfeed, herr⟩ := feed_descent F n rest rs hok
      ({ user := [] } : WalkState (List Result)) ({ user := [] } : WalkState (List Result))
      ⟨rfl, rfl, rfl, rfl, rfl, rfl, [], List.Forall₂.nil, rfl⟩
    exact ⟨rs, a2, hrs, hfeed, herr⟩

/-- `GetIter` over a message that is well-formed along the path, followed by bytes on which the
loop body of the scan returns an error: the error is returned, after the matches of the
message. -/
theorem GetIter_prefix_error (path : List Int) (hp : path ≠ []) (P : List Nat)
    (hd : DeepWF path P) (X : List Nat) (hpos : X.length > 0) (e : Err) (out : Int → Int)
    (hstop : ∀ sg c field, readField sg X c field = .stop (.ret (out c, some e))) :
    Result.GetIter { Raw := P ++ X } allSink path [] =
      ((Result.GetIter { Raw := P } allSink path []).1, .ret (some e)) := by
  cases path with
  | nil => exact absurd rfl hp
  | cons F tail =>
    obtain ⟨rs, a2, hrs, hfeed, herr⟩ := deepWF_feed F tail P hd
    have h1 := IterFields_prefix_stop F P rs hrs _ _ a2 hfeed X hpos
      (fun c => .ret (out c, some e)) hstop
    have h2 := IterFields_of_ScansThrough F P rs hrs _ _ a2 hfeed
    unfold IterFields at h1 h2
    simp only at h1 h2
    rw [GetIter_cons, GetIter_cons]
    simp only
    rw [h1, h2]

/-- The scan of a well-formed prefix followed by bytes on which the loop body returns: the
sink has received the matches of the prefix and nothing else. -/
theorem IterFields_wellFormed_prefix_stop {σ : Type} (P : List Nat) (hP : WellFormed P)
    (F : Int) (sink : Result → σ → σ × Outcome Bool) (hsink : ∀ r u, (sink r u).2 = .ret true)
    (st : σ) (X : List Nat) (hpos : X.length > 0) (out : Int → Outcome (Int × Option Err))
    (hstop : ∀ sg c field, readField sg X c field = .stop (out c)) :
    IterFields { Raw := P ++ X } F sink st =
      ((IterFields { Raw := P } F sink st).1, out (P.length : Nat)) := by
  obtain ⟨rs, _, hrs⟩ := scan_wellFormed P hP F
  obtain ⟨st2, hfeed⟩ := feed_always_true sink hsink rs st
  rw [IterFields_prefix_stop F P rs hrs sink st st2 hfeed X hpos out hstop,
    IterFields_of_ScansThrough F P rs hrs sink st st2 hfeed]

/-- C11. When the scan reaches a tag with a valid field number and wire type 6 or 7,
`IterFields` returns `ErrUnknownWireType` with that wire type, for every target number and
without handing the field to the sink (the sink state is what it was when the tag was
reached): at every state of the loop, and so after every well-formed prefix; and `GetIter`
returns that error when the message before the tag is well-formed along the path. -/
theorem IterFields_unknown_wire_type (num wt : Nat) (hnum : ValidNumber num)
    (hwt : wt = 6 ∨ wt = 7) (rest : List Nat) :
    (∀ {σ : Type} (fuel : Nat) (F : Int) (sink : Result → σ → σ × Outcome Bool) (c : Int)
        (field : Result) (st : σ),
        IterFieldsLoop (fuel + 1) F sink (encodeTag num wt ++ rest) c field st =
          (st, .ret (c + ((encodeTag num wt).length : Nat),
            some (.ErrUnknownWireType (wt : Int))))) ∧
      (∀ {σ : Type} (P : List Nat), WellFormed P → ∀ (F : Int)
        (sink : Result → σ → σ × Outcome Bool), (∀ r u, (sink r u).2 = .ret true) → ∀ st : σ,
        IterFields { Raw := P ++ (encodeTag num wt ++ rest) } F sink st =
          ((IterFields { Raw := P } F sink st).1,
            .ret ((P.length : Nat) + ((encodeTag num wt).length : Nat),
              some (.ErrUnknownWireType (wt : Int))))) ∧
      (∀ (path : List Int) (P : List Nat), path ≠ [] → DeepWF path P →
        Result.GetIter { Raw := P ++ (encodeTag num wt ++ rest) } allSink path [] =
          ((Result.GetIter { Raw := P } allSink path []).1,
            .ret (some (.ErrUnknownWireType (wt : Int))))) := by
  have hwt8 : wt < 8 := by omega
  have hwtI : ((wt : Nat) : Int) = 6 ∨ ((wt : Nat) : Int) = 7 := by omega
  have hstop : ∀ sg c field, readField sg (encodeTag num wt ++ rest) c field =
      .stop (.ret (c + ((encodeTag num wt).length : Nat),
        some (.ErrUnknownWireType (wt : Int)))) :=
    fun sg c field => readField_unknown sg _ c field num wt _
      (ConsumeTag_encodeTag num wt rest hnum hwt8) (by omega) hwtI
  have hpos : (encodeTag num wt ++ rest).length > 0 := by
    rw [List.length_append]
    have := encodeTag_length_pos num wt
    omega
  refine ⟨?_, ?_, ?_⟩
  · intro σ fuel F sink c field st
    exact IterFieldsLoop_stop fuel F sink _ c field st _ hpos (fun sg => hstop sg c field)
  · intro σ P hP F sink hsink st
    exact IterFields_wellFormed_prefix_stop P hP F sink hsink st _ hpos
      (fun c => .ret (c + ((encodeTag num wt).length : Nat),
        some (.ErrUnknownWireType (wt : Int)))) hstop
  · intro path P hp hd
    exact GetIter_prefix_error path hp P hd _ hpos _
      (fun c => c + ((encodeTag num wt).length : Nat)) hstop

/-- C11 at the byte `0f` (field 1, wire type 7), alone and after the field `08 01`. -/
theorem IterFields_unknown_wire_type_witness :
    ValidNumber 1 ∧ encodeTag 1 7 = [0x0f] ∧
      IterFieldsLoop (0 + 1) 1 allSink (encodeTag 1 7 ++ []) 0 {} [] =
        ([], .ret (0 + ((encodeTag 1 7).length : Nat), some (.ErrUnknownWireType ((7 : Nat) : Int))))
      ∧ Result.GetIter { Raw := (encodeTag 1 0 ++ encodeVarint 1 ++ []) ++ (encodeTag 1 7 ++ []) }
          allSink [1] [] =
        ((Result.GetIter { Raw := encodeTag 1 0 ++ encodeVarint 1 ++ [] } allSink [1] []).1,
          .ret (some (.ErrUnknownWireType ((7 : Nat) : Int)))) :=
  have h := IterFields_unknown_wire_type 1 7 (by decide) (Or.inr rfl) []
  ⟨by decide, by decide, h.1 0 1 allSink 0 {} [],
    h.2.2 [1] (encodeTag 1 0 ++ encodeVarint 1 ++ []) (by decide)
      (WellFormed.varint 1 1 [] (by decide) (by decide) WellFormed.nil)⟩

/-- C12. For a valid field number `F` and a buffer that consists of the start-group tag of `F`
followed by a well-formed sequence of fields (so the buffer ends before an end-group tag of
`F` is met at the top level of the group), `IterFields` returns `ErrEndGroupNotFound`, for
every target number, and does not deliver the group: the sink state is untouched. -/
theorem IterFields_end_group_not_found {σ : Type} (F : Nat) (hF : ValidNumber F) (B : List Nat)
    (hB : WellFormed B) (T : Int) (sink : Result → σ → σ × Outcome Bool) (st : σ) :
    IterFields { Raw := encodeTag F 3 ++ B } T sink st =
      (st, .ret (((encodeTag F 3).length : Nat), some .ErrEndGroupNotFound)) := by
  obtain ⟨rs, hrs, hscan⟩ := scan_wellFormed B hB (F : Int)
  have hgroup : IterFields { Raw := B } (F : Int) groupSink false =
      (false, .ret (((B.length : Nat) : Int), none)) :=
    IterFields_of_ScansThrough (F : Int) B rs hscan groupSink false false
      (feed_groupSink rs false hrs)
  have hpos : (encodeTag F 3 ++ B).length > 0 := by
    rw [List.length_append]
    have := encodeTag_length_pos F 3
    omega
  have hread : readField (fun num tail => IterFields { Raw := tail } num groupSink false)
      (encodeTag F 3 ++ B) 0 {} =
      .stop (.ret (((encodeTag F 3).length : Nat), some .ErrEndGroupNotFound)) := by
    unfold readField
    rw [ConsumeTag_encodeTag F 3 B hF (by norm_num)]
    have hnn : ¬ (((encodeTag F 3).length : Int) < 0) := by omega
    simp only [hnn, if_false, Int.toNat_ofNat, List.drop_left, hgroup]
    simp [VarintType, Fixed32Type, Fixed64Type, BytesType, StartGroupType]
  unfold IterFields
  simp only
  rw [IterFieldsLoop_eq _ T sink _ 0 {} st (le_refl _), if_pos hpos, hread]

/-- C12 at the start-group tag of field 70 followed by the field 71 that holds `72 65`. -/
theorem IterFields_end_group_not_found_witness :
    ValidNumber 70 ∧
      WellFormed (encodeTag 71 2 ++ encodeVarint [0x72, 0x65].length ++ [0x72, 0x65] ++ []) ∧
      IterFields { Raw := encodeTag 70 3 ++
          (encodeTag 71 2 ++ encodeVarint [0x72, 0x65].length ++ [0x72, 0x65] ++ []) }
          70 allSink [] =
        ([], .ret (((encodeTag 70 3).length : Nat), some .ErrEndGroupNotFound)) :=
  have hwf : WellFormed (encodeTag 71 2 ++ encodeVarint [0x72, 0x65].length ++
      [0x72, 0x65] ++ []) :=
    WellFormed.len 71 [0x72, 0x65] [] (by decide) (by decide) WellFormed.nil
  ⟨by decide, hwf, IterFields_end_group_not_found 70 (by decide) _ hwf 70 allSink []⟩

/-- C13 (as stated, refuted). On `14 15 01 02 03` (the end-group tag of field 2, then a FIXED32
tag of field 2 with 3 bytes of payload) the scan returns `ErrInvalidLength` and does not
deliver the truncated field, but the count is 1, for the targets 1 and 2, although the tag of
the truncated field ends at offset 2: the end-group tag passed before it is not counted.  On `0b 15 01 02 03` (the truncated field lies
inside the group of field 1) the count is 1 as well, the offset of the end of the start-group
tag. -/
theorem IterFields_truncated_scalar_count_short :
    IterFields { Raw := [0x14, 0x15, 0x01, 0x02, 0x03] } 1 allSink [] =
        ([], .ret (1, some .ErrInvalidLength)) ∧
      (IterFields { Raw := [0x14, 0x15, 0x01, 0x02, 0x03] } 2 allSink []).2 =
        .ret (1, some .ErrInvalidLength) ∧
      ConsumeTag [0x14, 0x15, 0x01, 0x02, 0x03] = (2, EndGroupType, 1) ∧
      ConsumeTag ([0x14, 0x15, 0x01, 0x02, 0x03].drop 1) = (2, Fixed32Type, 1) ∧
      IterFields { Raw := [0x0b, 0x15, 0x01, 0x02, 0x03] } 2 allSink [] =
        ([], .ret (1, some .ErrInvalidLength)) ∧
      IterFields { Raw := [0x0b, 0x15, 0x01, 0x02, 0x03] } 1 allSink [] =
        ([], .ret (1, some .ErrInvalidLength)) := by
  decide

/-- C13 (amended). A scalar field with a truncated payload `T` (a FIXED32 tag followed by fewer
than 4 bytes, a FIXED64 tag followed by fewer than 8 bytes, or a VARINT tag followed by bytes
that all have the continuation bit set) makes the scan return `ErrInvalidLength` without
delivering the field.  When the field follows a well-formed prefix `P`, the sink has received
the matches of `P` only and the count is the offset of the end of the truncated field's tag.
In general, at whatever turn of the loop the scan reaches the field, for every sink and
target, the scan returns `ErrInvalidLength` with the sink state as it is and the count of that
turn plus the length of the tag. -/
theorem IterFields_truncated_scalar {σ : Type} (P : List Nat) (hP : WellFormed P) (num : Nat)
    (hnum : ValidNumber num) (T : List Nat) (F : Int) (sink : Result → σ → σ × Outcome Bool)
    (hsink : ∀ r u, (sink r u).2 = .ret true) (st : σ) :
    (T.length < 4 →
        IterFields { Raw := P ++ (encodeTag num 5 ++ T) } F sink st =
          ((IterFields { Raw := P } F sink st).1,
            .ret ((P.length : Nat) + ((encodeTag num 5).length : Nat), some .ErrInvalidLength))) ∧
      (T.length < 8 →
        IterFields { Raw := P ++ (encodeTag num 1 ++ T) } F sink st =
          ((IterFields { Raw := P } F sink st).1,
            .ret ((P.length : Nat) + ((encodeTag num 1).length : Nat), some .ErrInvalidLength))) ∧
      ((∀ y ∈ T, 128 ≤ y) →
        IterFields { Raw := P ++ (encodeTag num 0 ++ T) } F sink st =
          ((IterFields { Raw := P } F sink st).1,
            .ret ((P.length : Nat) + ((encodeTag num 0).length : Nat), some .ErrInvalidLength))) ∧
      (∀ {τ : Type} (sink2 : Result → τ → τ × Outcome Bool) (G : Int) (fuel : Nat) (c : Int)
        (field : Result) (s : τ) (wt : Nat),
        (wt = 5 ∧ T.length < 4) ∨ (wt = 1 ∧ T.length < 8) ∨ (wt = 0 ∧ ∀ y ∈ T, 128 ≤ y) →
        IterFieldsLoop (fuel + 1) G sink2 (encodeTag num wt ++ T) c field s =
          (s, .ret (c + ((encodeTag num wt).length : Nat), some .ErrInvalidLength))) := by
  have hpos : ∀ wt, (encodeTag num wt ++ T).length > 0 := by
    intro wt
    rw [List.length_append]
    have := encodeTag_length_pos num wt
    omega
  refine ⟨fun h => ?_, fun h => ?_, fun h => ?_, ?_⟩
  · exact IterFields_wellFormed_prefix_stop P hP F sink hsink st _ (hpos 5)
      (fun c => .ret (c + ((encodeTag num 5).length : Nat), some .ErrInvalidLength))
      (fun sg c field => readField_fixed32_short sg num hnum T h c field)
  · exact IterFields_wellFormed_prefix_stop P hP F sink hsink st _ (hpos 1)
      (fun c => .ret (c + ((encodeTag num 1).length : Nat), some .ErrInvalidLength))
      (fun sg c field => readField_fixed64_short sg num hnum T h c field)
  · exact IterFields_wellFormed_prefix_stop P hP F sink hsink st _ (hpos 0)
      (fun c => .ret (c + ((encodeTag num 0).length : Nat), some .ErrInvalidLength))
      (fun sg c field => readField_varint_short sg num hnum T h c field)
  · intro τ sink2 G fuel c field s wt h
    rcases h with ⟨rfl, h⟩ | ⟨rfl, h⟩ | ⟨rfl, h⟩
    · exact IterFieldsLoop_stop fuel G sink2 _ c field s _ (hpos 5)
        (fun sg => readField_fixed32_short sg num hnum T h c field)
    · exact IterFieldsLoop_stop fuel G sink2 _ c field s _ (hpos 1)
        (fun sg => readField_fixed64_short sg num hnum T h c field)
    · exact IterFieldsLoop_stop fuel G sink2 _ c field s _ (hpos 0)
        (fun sg => readField_varint_short sg num hnum T h c field)

/-- C13 (amended) after the field `08 01`: a FIXED32 field 2 with three bytes of payload. -/
theorem IterFields_truncated_scalar_witness :
    WellFormed (encodeTag 1 0 ++ encodeVarint 1 ++ []) ∧ ValidNumber 2 ∧
      (∀ (r : Result) (u : List Result), (allSink r u).2 = .ret true) ∧
      ([1, 2, 3] : List Nat).length < 4 ∧
      IterFields { Raw := (encodeTag 1 0 ++ encodeVarint 1 ++ []) ++ (encodeTag 2 5 ++ [1, 2, 3]) }
          1 allSink [] =
        ((IterFields { Raw := encodeTag 1 0 ++ encodeVarint 1 ++ [] } 1 allSink []).1,
          .ret (((encodeTag 1 0 ++ encodeVarint 1 ++ []).length : Nat) +
            ((encodeTag 2 5).length : Nat), some .ErrInvalidLength)) :=
  have hwf : WellFormed (encodeTag 1 0 ++ encodeVarint 1 ++ []) :=
    WellFormed.varint 1 1 [] (by decide) (by decide) WellFormed.nil
  ⟨hwf, by decide, fun _ _ => rfl, by decide,
    (IterFields_truncated_scalar _ hwf 2 (by decide) [1, 2, 3] 1 allSink (fun _ _ => rfl) []).1
      (by decide)⟩

/-! ## Zigzag and fixed-width views -/

theorem DecodeZigZag_eq (v : Nat) (hv : v < 2 ^ 64) :
    DecodeZigZag v = if v % 2 = 0 then ((v / 2 : Nat) : Int) else -((v / 2 : Nat) : Int) - 1 := by
  unfold DecodeZigZag
  rw [Nat.mod_eq_of_lt hv, Nat.shiftRight_eq_div_pow, Nat.and_one_is_mod, pow_one]
  rcases Nat.mod_two_eq_zero_or_one v with h | h
  · rw [h, if_pos rfl]
    show Int.xor (Int.ofNat (v / 2)) (Int.ofNat 0) = _
    simp [Int.xor]
  · rw [h, if_neg (by decide)]
    show Int.xor (Int.ofNat (v / 2)) (Int.negSucc 0) = _
    simp only [Int.xor, Nat.xor_zero]
    rw [Int.negSucc_eq]
    ring

theorem EncodeZigZag_eq (x : Int) (h1 : -2 ^ 63 ≤ x) (h2 : x < 2 ^ 63) :
    EncodeZigZag x = if 0 ≤ x then (2 * x).toNat else (-2 * x - 1).toNat := by
  unfold EncodeZigZag bitsOfInt64
  cases x with
  | ofNat n =>
    have hn : n < 2 ^ 63 := by
      have : (n : Int) < 2 ^ 63 := h2
      exact_mod_cast this
    have hs : (Int.ofNat n) >>> (63 : Nat) = Int.ofNat 0 := by
      show Int.ofNat (n >>> 63) = Int.ofNat 0
      rw [Nat.shiftRight_eq_div_pow, Nat.div_eq_of_lt hn]
    have hm : Int.ofNat n * 2 = Int.ofNat (n * 2) := rfl
    rw [hs, hm]
    simp only [Int.xor, Nat.xor_zero]
    have hnn : (0 : Int) ≤ Int.ofNat n := Int.ofNat_nonneg n
    rw [if_pos hnn]
    have he : Int.ofNat n = (n : Int) := rfl
    rw [he]
    norm_num at hn ⊢
    omega
  | negSucc n =>
    have hn : n < 2 ^ 63 := by
      have h3 : -2 ^ 63 ≤ Int.negSucc n := h1
      rw [Int.negSucc_eq] at h3
      norm_num at h3 ⊢
      omega
    have hs : (Int.negSucc n) >>> (63 : Nat) = Int.negSucc 0 := by
      show Int.negSucc (n >>> 63) = Int.negSucc 0
      rw [Nat.shiftRight_eq_div_pow, Nat.div_eq_of_lt hn]
    have hm : Int.negSucc n * 2 = Int.negSucc (2 * n + 1) := by
      rw [Int.negSucc_eq, Int.negSucc_eq]
      push_cast
      ring
    rw [hs, hm]
    simp only [Int.xor, Nat.xor_zero]
    have hneg : ¬ (0 ≤ Int.negSucc n) := by
      rw [Int.negSucc_eq]; omega
    rw [if_neg hneg, Int.negSucc_eq]
    norm_num at hn ⊢
    omega

theorem EncodeZigZag32_eq (x : Int) (h1 : -2 ^ 31 ≤ x) (h2 : x < 2 ^ 31) :
    EncodeZigZag32 x = if 0 ≤ x then (2 * x).toNat else (-2 * x - 1).toNat := by
  unfold EncodeZigZag32
  cases x with
  | ofNat n =>
    have hn : n < 2 ^ 31 := by
      have : (n : Int) < 2 ^ 31 := h2
      exact_mod_cast this
    have hs : (Int.ofNat n) >>> (31 : Nat) = Int.ofNat 0 := by
      show Int.ofNat (n >>> 31) = Int.ofNat 0
      rw [Nat.shiftRight_eq_div_pow, Nat.div_eq_of_lt hn]
    have hm : Int.ofNat n * 2 = Int.ofNat (n * 2) := rfl
    rw [hs, hm]
    simp only [Int.xor, Nat.xor_zero]
    have hnn : (0 : Int) ≤ Int.ofNat n := Int.ofNat_nonneg n
    rw [if_pos hnn]
    have he : Int.ofNat n = (n : Int) := rfl
    rw [he]
    norm_num at hn ⊢
    omega
  | negSucc n =>
    have hn : n < 2 ^ 31 := by
      have h3 : -2 ^ 31 ≤ Int.negSucc n := h1
      rw [Int.negSucc_eq] at h3
      norm_num at h3 ⊢
      omega
    have hs : (Int.negSucc n) >>> (31 : Nat) = Int.negSucc 0 := by
      show Int.negSucc (n >>> 31) = Int.negSucc 0
      rw [Nat.shiftRight_eq_div_pow, Nat.div_eq_of_lt hn]
    have hm : Int.negSucc n * 2 = Int.negSucc (2 * n + 1) := by
      rw [Int.negSucc_eq, Int.negSucc_eq]
      push_cast
      ring
    rw [hs, hm]
    simp only [Int.xor, Nat.xor_zero]
    have hneg : ¬ (0 ≤ Int.negSucc n) := by
      rw [Int.negSucc_eq]; omega
    rw [if_neg hneg, Int.negSucc_eq]
    norm_num at hn ⊢
    omega

theorem DecodeZigZag_EncodeZigZag (x : Int) (h1 : -2 ^ 63 ≤ x) (h2 : x < 2 ^ 63) :
    DecodeZigZag (EncodeZigZag x) = x := by
  have he := EncodeZigZag_eq x h1 h2
  have hlt : EncodeZigZag x < 2 ^ 64 := by
    rw [he]
    norm_num at h1 h2 ⊢
    split <;> omega
  rw [DecodeZigZag_eq _ hlt, he]
  norm_num at h1 h2 ⊢
  split <;> split <;> omega

theorem DecodeZigZag_EncodeZigZag32 (x : Int) (h1 : -2 ^ 31 ≤ x) (h2 : x < 2 ^ 31) :
    DecodeZigZag (EncodeZigZag32 x) = x := by
  have he := EncodeZigZag32_eq x h1 h2
  have hlt : EncodeZigZag32 x < 2 ^ 64 := by
    rw [he]
    norm_num at h1 h2 ⊢
    split <;> omega
  rw [DecodeZigZag_eq _ hlt, he]
  norm_num at h1 h2 ⊢
  split <;> split <;> omega

/-- C21. Zigzag round trip: for every int64 `x`, `Sint64` of a VARINT result whose `Varint` is
the zigzag encoding `(x << 1) xor (x >> 63)` of `x` returns `x`; for every int32 `x`, `Sint32`
of a VARINT result whose `Varint` is the 32-bit zigzag encoding of `x`, zero-extended to 64
bits, returns `x`; and on every VARINT result with value `v` the decoding is
`(v >> 1) xor -(v and 1)`, for `Sint32` cut to its low 32 bits. -/
theorem zigzag_round_trip :
    (∀ x : Int, -2 ^ 63 ≤ x → x < 2 ^ 63 →
        Result.Sint64 { WireType := VarintType, Varint := EncodeZigZag x } = x) ∧
      (∀ x : Int, -2 ^ 31 ≤ x → x < 2 ^ 31 →
        EncodeZigZag32 x < 2 ^ 32 ∧
          Result.Sint32 { WireType := VarintType, Varint := EncodeZigZag32 x } = x) ∧
      (∀ r : Result, r.WireType = VarintType → r.Varint < 2 ^ 64 →
        r.Sint64 = Int.xor ((r.Varint >>> 1 : Nat) : Int) (-((r.Varint &&& 1 : Nat) : Int)) ∧
          r.Sint32 = int32OfBits (bitsOfInt64
            (Int.xor ((r.Varint >>> 1 : Nat) : Int) (-((r.Varint &&& 1 : Nat) : Int))))) := by
  refine ⟨fun x h1 h2 => ?_, fun x h1 h2 => ⟨?_, ?_⟩, fun r hw hv => ?_⟩
  · simp only [Result.Sint64, ne_eq, not_true_eq_false, if_false]
    exact DecodeZigZag_EncodeZigZag x h1 h2
  · rw [EncodeZigZag32_eq x h1 h2]
    norm_num at h1 h2 ⊢
    split <;> omega
  · simp only [Result.Sint32, ne_eq, not_true_eq_false, if_false]
    rw [DecodeZigZag_EncodeZigZag32 x h1 h2]
    unfold int32OfBits bitsOfInt64
    norm_num at h1 h2 ⊢
    split <;> omega
  · have hne : ¬ (r.WireType ≠ VarintType) := by simp [hw]
    rw [Result.Sint64, Result.Sint32, if_neg hne, if_neg hne, DecodeZigZag, Nat.mod_eq_of_lt hv]
    exact ⟨rfl, rfl⟩

/-- C21 at -64 (encoded as 127) and at the int32 -32 (encoded as 63). -/
theorem zigzag_round_trip_witness :
    EncodeZigZag (-64) = 127 ∧
      Result.Sint64 { WireType := VarintType, Varint := EncodeZigZag (-64) } = -64 ∧
      EncodeZigZag32 (-32) = 63 ∧
      Result.Sint32 { WireType := VarintType, Varint := EncodeZigZag32 (-32) } = -32 :=
  ⟨by decide, zigzag_round_trip.1 (-64) (by decide) (by decide), by decide,
    (zigzag_round_trip.2.1 (-32) (by decide) (by decide)).2⟩

/-- C22. For a FIXED32 result whose `Raw` is the 4 bytes `b0 b1 b2 b3`, `Fixed32` is
`b0 + 2^8 b1 + 2^16 b2 + 2^24 b3` and `SFixed32` is that word read as a 32-bit two's-complement
integer; for a FIXED64 result whose `Raw` is 8 bytes, `Fixed64` is their little-endian 64-bit
value and `SFixed64` is that word read as a 64-bit two's-complement integer; so each accessor
gives back every uint32, int32, uint64, int64 from its little-endian encoding. -/
theorem fixed_views :
    (∀ b0 b1 b2 b3 : Nat, b0 < 256 → b1 < 256 → b2 < 256 → b3 < 256 →
        Result.Fixed32 { WireType := Fixed32Type, Raw := [b0, b1, b2, b3] } =
            b0 + 2 ^ 8 * b1 + 2 ^ 16 * b2 + 2 ^ 24 * b3 ∧
          Result.SFixed32 { WireType := Fixed32Type, Raw := [b0, b1, b2, b3] } =
            int32OfBits (b0 + 2 ^ 8 * b1 + 2 ^ 16 * b2 + 2 ^ 24 * b3)) ∧
      (∀ b0 b1 b2 b3 b4 b5 b6 b7 : Nat, b0 < 256 → b1 < 256 → b2 < 256 → b3 < 256 → b4 < 256 →
        b5 < 256 → b6 < 256 → b7 < 256 →
        Result.Fixed64 { WireType := Fixed64Type, Raw := [b0, b1, b2, b3, b4, b5, b6, b7] } =
            b0 + 2 ^ 8 * b1 + 2 ^ 16 * b2 + 2 ^ 24 * b3 + 2 ^ 32 * b4 + 2 ^ 40 * b5 +
              2 ^ 48 * b6 + 2 ^ 56 * b7 ∧
          Result.SFixed64 { WireType := Fixed64Type, Raw := [b0, b1, b2, b3, b4, b5, b6, b7] } =
            int64OfBits (b0 + 2 ^ 8 * b1 + 2 ^ 16 * b2 + 2 ^ 24 * b3 + 2 ^ 32 * b4 + 2 ^ 40 * b5 +
              2 ^ 48 * b6 + 2 ^ 56 * b7)) ∧
      (∀ x : Nat, x < 2 ^ 32 →
        Result.Fixed32 { WireType := Fixed32Type, Raw := encodeFixed32 x } = x) ∧
      (∀ x : Int, -2 ^ 31 ≤ x → x < 2 ^ 31 →
        Result.SFixed32 { WireType := Fixed32Type, Raw := encodeFixed32 (x % 2 ^ 32).toNat } = x) ∧
      (∀ x : Nat, x < 2 ^ 64 →
        Result.Fixed64 { WireType := Fixed64Type, Raw := encodeFixed64 x } = x) ∧
      (∀ x : Int, -2 ^ 63 ≤ x → x < 2 ^ 63 →
        Result.SFixed64 { WireType := Fixed64Type, Raw := encodeFixed64 (x % 2 ^ 64).toNat } = x) := by
  have h32 : ∀ x : Nat, x < 2 ^ 32 →
      (ConsumeFixed32 (encodeFixed32 x)) = (x, 4) := by
    intro x hx
    simp only [ConsumeFixed32, encodeFixed32, Prod.mk.injEq, and_true]
    norm_num at hx ⊢
    omega
  have h64 : ∀ x : Nat, x < 2 ^ 64 →
      (ConsumeFixed64 (encodeFixed64 x)) = (x, 8) := by
    intro x hx
    simp only [ConsumeFixed64, encodeFixed64, Prod.mk.injEq, and_true]
    norm_num at hx ⊢
    omega
  refine ⟨?_, ?_, ?_, ?_, ?_, ?_⟩
  · intro b0 b1 b2 b3 h0 h1 h2 h3
    have e : ConsumeFixed32 [b0, b1, b2, b3] =
        (b0 + 2 ^ 8 * b1 + 2 ^ 16 * b2 + 2 ^ 24 * b3, 4) := by
      simp only [ConsumeFixed32, Nat.mod_eq_of_lt h0, Nat.mod_eq_of_lt h1, Nat.mod_eq_of_lt h2,
        Nat.mod_eq_of_lt h3, Prod.mk.injEq, and_true]
      ring
    simp [Result.Fixed32, Result.SFixed32, e]
  · intro b0 b1 b2 b3 b4 b5 b6 b7 h0 h1 h2 h3 h4 h5 h6 h7
    have e : ConsumeFixed64 [b0, b1, b2, b3, b4, b5, b6, b7] =
        (b0 + 2 ^ 8 * b1 + 2 ^ 16 * b2 + 2 ^ 24 * b3 + 2 ^ 32 * b4 + 2 ^ 40 * b5 +
          2 ^ 48 * b6 + 2 ^ 56 * b7, 8) := by
      simp only [ConsumeFixed64, Nat.mod_eq_of_lt h0, Nat.mod_eq_of_lt h1, Nat.mod_eq_of_lt h2,
        Nat.mod_eq_of_lt h3, Nat.mod_eq_of_lt h4, Nat.mod_eq_of_lt h5, Nat.mod_eq_of_lt h6,
        Nat.mod_eq_of_lt h7, Prod.mk.injEq, and_true]
      ring
    simp [Result.Fixed64, Result.SFixed64, e]
  · intro x hx
    simp [Result.Fixed32, h32 x hx]
  · intro x h1 h2
    have hx : (x % 2 ^ 32).toNat < 2 ^ 32 := by
      norm_num at h1 h2 ⊢
      omega
    simp only [Result.SFixed32, ne_eq, not_true_eq_false, if_false, h32 _ hx]
    unfold int32OfBits
    norm_num at h1 h2 hx ⊢
    split <;> omega
  · intro x hx
    simp [Result.Fixed64, h64 x hx]
  · intro x h1 h2
    have hx : (x % 2 ^ 64).toNat < 2 ^ 64 := by
      norm_num at h1 h2 ⊢
      omega
    simp only [Result.SFixed64, ne_eq, not_true_eq_false, if_false, h64 _ hx]
    unfold int64OfBits
    norm_num at h1 h2 hx ⊢
    split <;> omega

/-- C22 at the bytes `e0 ff ff ff` (the int32 -32) and at the little-endian encoding of 64. -/
theorem fixed_views_witness :
    Result.SFixed32 { WireType := Fixed32Type, Raw := [0xe0, 0xff, 0xff, 0xff] } =
        int32OfBits (0xe0 + 2 ^ 8 * 0xff + 2 ^ 16 * 0xff + 2 ^ 24 * 0xff) ∧
      int32OfBits (0xe0 + 2 ^ 8 * 0xff + 2 ^ 16 * 0xff + 2 ^ 24 * 0xff) = -32 ∧
      Result.Fixed64 { WireType := Fixed64Type, Raw := encodeFixed64 64 } = 64 :=
  ⟨(fixed_views.1 0xe0 0xff 0xff 0xff (by decide) (by decide) (by decide) (by decide)).2,
    by decide, fixed_views.2.2.2.2.1 64 (by decide)⟩

/-! ## The layout of the delivered fields -/

/-- Decoding a varint reads only the bytes it counts. -/
theorem ConsumeVarintFrom_take : ∀ (b : List Nat) (i acc v : Nat) (n : Int),
    ConsumeVarintFrom i acc b = (v, n) → 0 ≤ n →
      ConsumeVarintFrom i acc (b.take (n.toNat - i)) = (v, n) ∧ (n.toNat - i) ≤ b.length := by
  intro b
  induction b with
  | nil =>
    intro i acc v n h hn
    simp only [ConsumeVarintFrom, errCodeTruncated, Prod.mk.injEq] at h
    omega
  | cons y bs ih =>
    intro i acc v n h hn
    simp only [ConsumeVarintFrom] at h
    by_cases h9 : i = 9
    · rw [if_pos h9] at h
      by_cases hy : y < 2
      · rw [if_pos hy] at h
        simp only [Prod.mk.injEq] at h
        obtain ⟨h1, h2⟩ := h
        subst h2 h9
        have e : ((10 : Int).toNat - 9) = 1 := by decide
        rw [e]
        refine ⟨?_, by simp⟩
        simp only [List.take_succ_cons, List.take_zero, ConsumeVarintFrom, if_true, if_pos hy, h1]
      · rw [if_neg hy] at h
        simp only [errCodeOverflow, Prod.mk.injEq] at h
        omega
    · rw [if_neg h9] at h
      by_cases hy : y < 0x80
      · rw [if_pos hy] at h
        simp only [Prod.mk.injEq] at h
        obtain ⟨h1, h2⟩ := h
        subst h2
        have e : (((i : Int) + 1).toNat - i) = 1 := by omega
        rw [e]
        simp [ConsumeVarintFrom, hy, h1, h9]
      · rw [if_neg hy] at h
        have hb := ConsumeVarintFrom_bounds bs (i + 1) (acc + (y - 0x80) * 2 ^ (7 * i))
        rw [h] at hb
        simp only at hb
        rcases hb with hb | ⟨hb1, hb2⟩
        · omega
        obtain ⟨ih1, ih2⟩ := ih (i + 1) _ v n h hn
        have e : n.toNat - i = (n.toNat - (i + 1)) + 1 := by push_cast at hb1; omega
        rw [e, List.take_succ_cons]
        simp only [ConsumeVarintFrom, if_neg h9, if_neg hy, List.length_cons]
        exact ⟨ih1, by omega⟩

theorem ConsumeVarint_take (b : List Nat) (v : Nat) (n : Int)
    (h : ConsumeVarint b = (v, n)) (hn : 0 ≤ n) :
    ConsumeVarint (b.take n.toNat) = (v, ((b.take n.toNat).length : Int)) := by
  have h2 := ConsumeVarintFrom_take b 0 0 v n h hn
  simp only [Nat.sub_zero] at h2
  unfold ConsumeVarint
  rw [h2.1, List.length_take, Nat.min_eq_left h2.2]
  simp [Int.toNat_of_nonneg hn]

theorem readField_layout (sg : Int → List Nat → Bool × Outcome (Int × Option Err))
    (pb : List Nat) (c : Int) (field : Result) (fn : Int) (pb2 : List Nat) (c2 : Int)
    (f2 : Result) (h : readField sg pb c field = .cont fn pb2 c2 f2) : Layout f2 := by
  have d05 : VarintType ≠ Fixed32Type := by decide
  have d01 : VarintType ≠ Fixed64Type := by decide
  have d51 : Fixed32Type ≠ Fixed64Type := by decide
  have d50 : Fixed32Type ≠ VarintType := by decide
  have d15 : Fixed64Type ≠ Fixed32Type := by decide
  have d10 : Fixed64Type ≠ VarintType := by decide
  unfold readField at h
  rcases hT : ConsumeTag pb with ⟨fn0, wt, t⟩
  rw [hT] at h
  simp only at h
  by_cases ht : t < 0
  · rw [if_pos ht] at h; cases h
  rw [if_neg ht] at h
  by_cases h0 : wt = VarintType
  · rw [if_pos h0] at h
    rcases hv : ConsumeVarint (pb.drop t.toNat) with ⟨v, n⟩
    rw [hv] at h
    simp only at h
    by_cases hn : n < 0
    · rw [if_pos hn] at h; cases h
    rw [if_neg hn] at h
    cases h
    subst h0
    refine ⟨fun h => absurd h d05, fun h => absurd h d01, fun _ => ?_, fun h => absurd rfl h⟩
    exact ConsumeVarint_take _ v n hv (by omega)
  rw [if_neg h0] at h
  by_cases h5 : wt = Fixed32Type
  · rw [if_pos h5] at h
    split at h
    · cases h
    · cases h
      subst h5
      refine ⟨fun _ => ?_, fun h => absurd h d51, fun h => absurd h d50, fun _ => rfl⟩
      simp only [List.length_take]
      omega
  rw [if_neg h5] at h
  by_cases h1 : wt = Fixed64Type
  · rw [if_pos h1] at h
    split at h
    · cases h
    · cases h
      subst h1
      refine ⟨fun h => absurd h d15, fun _ => ?_, fun h => absurd h d10, fun _ => rfl⟩
      simp only [List.length_take]
      omega
  rw [if_neg h1] at h
  have hfin : ∀ raw, Layout { WireType := wt, Varint := 0, Raw := raw } :=
    fun raw => ⟨fun h => absurd h h5, fun h => absurd h h1, fun h => absurd h h0, fun _ => rfl⟩
  iterate 12 (all_goals try split at h)
  all_goals first
    | (cases h; done)
    | (cases h; exact hfin _)

theorem IterFieldsLoop_inv_layout {σ : Type} (P : σ → Prop)
    (sink : Result → σ → σ × Outcome Bool)
    (hs : ∀ r st, Layout r → P st → P (sink r st).1) :
    ∀ (fuel : Nat) (F : Int) (pb : List Nat) (c : Int) (field : Result) (st : σ),
      P st → P (IterFieldsLoop fuel F sink pb c field st).1 := by
  intro fuel
  induction fuel with
  | zero =>
    intro F pb c field st h
    simp only [IterFieldsLoop]
    split <;> exact h
  | succ n ih =>
    intro F pb c field st h
    simp only [IterFieldsLoop]
    split
    · split
      · exact h
      · rename_i fn pb2 c2 f2 heq
        have hL := readField_layout _ _ _ _ _ _ _ _ heq
        split
        · exact ih _ _ _ _ _ h
        · have h2 := hs f2 st hL h
          split <;> rename_i heq2 <;> rw [heq2] at h2
          · exact ih _ _ _ _ _ h2
          · exact h2
          · exact h2
          · exact h2
    · exact h

/-- C23. Payload layout of the delivered fields.  Wrap the sink so that it records every field
the scanner hands to it: the scan runs as with the bare sink (same sink state, same return
value), and every recorded field satisfies: a FIXED32 field has 4 bytes of `Raw`, a FIXED64
field 8, the `Raw` of a VARINT field is one complete varint encoding whose value is `Varint`,
and `Varint` is 0 for every other wire type.  This holds for every buffer, target number, sink
and initial sink state, hence also for the scans of group bodies. -/
theorem IterFields_layout {σ : Type} (m : Result) (F : Int)
    (sink : Result → σ → σ × Outcome Bool) (st : σ) :
    (∀ r ∈ (IterFields m F (recordSink sink) ([], st)).1.1, Layout r) ∧
      (IterFields m F (recordSink sink) ([], st)).1.2 = (IterFields m F sink st).1 ∧
      (IterFields m F (recordSink sink) ([], st)).2 = (IterFields m F sink st).2 := by
  refine ⟨?_, ?_⟩
  · refine IterFieldsLoop_inv_layout (fun s : List Result × σ => ∀ r ∈ s.1, Layout r)
      (recordSink sink) ?_ _ F _ _ _ _ ?_
    · intro r s hL hP x hx
      simp only [recordSink, List.mem_append, List.mem_singleton] at hx
      rcases hx with hx | hx
      · exact hP x hx
      · rw [hx]; exact hL
    · intro x hx
      cases hx
  · have hc := IterFieldsLoop_couple (recordSink sink) sink (fun a b => a.2 = b)
      (fun _ _ => False) False
      (fun r a b hab => Or.inl (by subst hab; exact ⟨rfl, rfl⟩))
      (fun _ _ _ h => h) (fun _ _ _ h => h) m.Raw.length F m.Raw 0 {} ([], st) st rfl
    rcases hc with ⟨h1, h2⟩ | h | ⟨h, _⟩
    · exact ⟨h2, h1⟩
    · exact h.elim
    · exact h.elim

/-! ## Stray end-group tags and the count at a stop -/

/-- After a part of the buffer that the scan passes over, the scan goes on with the rest of the
buffer, the count at the length of that part. -/
theorem IterFields_after_scanned (F : Int) (P : List Nat) (rs : List Result)
    (hP : ScansThrough F P rs) :
    ∃ field2 : Result, ∀ {σ : Type} (sink : Result → σ → σ × Outcome Bool) (X : List Nat)
      (st st2 : σ), feed sink rs st = (st2, .ret true) →
        IterFields { Raw := P ++ X } F sink st =
          IterFieldsLoop X.length F sink X ((P.length : Nat) : Int) field2 st2 := by
  obtain ⟨field2, h2⟩ := hP {}
  refine ⟨field2, fun sink X st st2 hfeed => ?_⟩
  have h3 := h2 sink X 0 st st2 hfeed
  unfold IterFields
  simp only
  rw [h3, zero_add]

/-- The scan of well-formed bytes, a stray end-group tag of the target number, and well-formed
bytes again: the tag is handed to the sink as a field; its length is not counted. -/
theorem scan_stray_end_group (P Q : List Nat) (F : Nat) (hF : ValidNumber F)
    (rsP rsQ : List Result) (hSP : ScansThrough (F : Int) P rsP)
    (hSQ : ScansThrough (F : Int) Q rsQ) :
    ∃ e : Result, e.WireType = EndGroupType ∧ e.Varint = 0 ∧
      ∀ {σ : Type} (sink : Result → σ → σ × Outcome Bool) (st st1 st2 : σ),
        feed sink rsP st = (st1, .ret true) → feed sink (e :: rsQ) st1 = (st2, .ret true) →
        IterFields { Raw := P ++ encodeTag F 4 ++ Q } (F : Int) sink st =
          (st2, .ret (((P.length + Q.length : Nat) : Int), none)) := by
  obtain ⟨field2, h2⟩ := IterFields_after_scanned (F : Int) P rsP hSP
  refine ⟨{ WireType := EndGroupType, Varint := 0, Raw := field2.Raw }, rfl, rfl, ?_⟩
  intro σ sink st st1 st2 hf1 hf2
  rw [List.append_assoc, h2 sink (encodeTag F 4 ++ Q) st st1 hf1]
  obtain ⟨field3, h3⟩ := hSQ { WireType := EndGroupType, Varint := 0, Raw := field2.Raw }
  refine scan_step (F : Int) sink (encodeTag F 4 ++ Q) _ field2 st1 st2 (F : Int) Q _ _ _
    (readField_egroup _ F Q _ field2 hF) rsQ ?_ (by rw [if_pos rfl]; exact hf2)
  intro s1 hs1
  have h4 := h3 sink [] ((P.length : Nat) : Int) s1 st2 hs1
  rw [List.append_nil] at h4
  rw [h4]
  simp [IterFieldsLoop]

/-- C24 (as stated, refuted). On the buffer that holds only the end-group tag `0c` of field 1 the
traversal for field 1 returns no error, but the tag is delivered: `GetAll` holds one result of
wire type EGROUP, and `GetOne` is that result, which exists, not the INVALID result. -/
theorem GetAll_delivers_stray_end_group :
    (Result.GetIter { Raw := [0x0c] } allSink [1] []).2 = .ret none ∧
      GetAll [0x0c] [1] = .ret [{ WireType := EndGroupType, Varint := 0, Raw := [] }] ∧
      GetOne [0x0c] [1] = .ret { WireType := EndGroupType, Varint := 0, Raw := [] } ∧
      Result.Exist { WireType := EndGroupType, Varint := 0, Raw := [] } = true ∧
      GetOne [0x0c] [1] ≠ .ret invalidResult := by
  decide

/-- C24 (amended). A stray EGROUP tag raises no error and is delivered as a match of wire type
EGROUP: for well-formed `P` and `Q` and a valid field number `F`, the traversal of
`P ++ tag(F, EGROUP) ++ Q` for `F` returns no error and yields the matches of `P`, then one
result of wire type EGROUP with `Varint` 0, then the matches of `Q` (none of which has wire type
EGROUP); and on the buffer that holds only the tag, `GetOne` is the EGROUP result with empty
`Raw`, for which `Exist` is true. -/
theorem stray_end_group_is_delivered (P Q : List Nat) (hP : WellFormed P) (hQ : WellFormed Q)
    (F : Nat) (hF : ValidNumber F) :
    (∃ (rsP rsQ : List Result) (e : Result),
      GetAll P [(F : Int)] = .ret rsP ∧ GetAll Q [(F : Int)] = .ret rsQ ∧
        (∀ r ∈ rsP ++ rsQ, r.WireType ≠ EndGroupType) ∧
        e.WireType = EndGroupType ∧ e.Varint = 0 ∧
        Result.GetIter { Raw := P ++ encodeTag F 4 ++ Q } allSink [(F : Int)] [] =
          (rsP ++ e :: rsQ, .ret none) ∧
        GetAll (P ++ encodeTag F 4 ++ Q) [(F : Int)] = .ret (rsP ++ e :: rsQ)) ∧
      GetOne (encodeTag F 4) [(F : Int)] =
        .ret { WireType := EndGroupType, Varint := 0, Raw := [] } ∧
      Result.Exist { WireType := EndGroupType, Varint := 0, Raw := [] } = true := by
  refine ⟨?_, ?_, by decide⟩
  · obtain ⟨rsP, hnP, hSP⟩ := scan_wellFormed P hP (F : Int)
    obtain ⟨rsQ, hnQ, hSQ⟩ := scan_wellFormed Q hQ (F : Int)
    obtain ⟨e, he1, he2, hscan⟩ := scan_stray_end_group P Q F hF rsP rsQ hSP hSQ
    have hG : Result.GetIter { Raw := P ++ encodeTag F 4 ++ Q } allSink [(F : Int)] [] =
        (rsP ++ e :: rsQ, .ret none) := by
      rw [GetIter_cons]
      have h2 := hscan (walkFunc [(F : Int)] allSink [(F : Int)].length)
        ({ user := [] } : WalkState (List Result)) _ _
        (feed_walk_single (F : Int) _ rsP _ rfl rfl)
        (feed_walk_single (F : Int) _ (e :: rsQ) _ rfl rfl)
      unfold IterFields at h2
      simp only at h2
      rw [h2]
      simp
    refine ⟨rsP, rsQ, e, GetAll_of_ScansThrough _ P rsP hSP, GetAll_of_ScansThrough _ Q rsQ hSQ,
      ?_, he1, he2, hG, ?_⟩
    · intro r hr
      rcases List.mem_append.1 hr with h | h
      · exact hnP r h
      · exact hnQ r h
    · unfold GetAll Result.GetAll
      rw [hG]
  · have hr := readField_egroup
      (fun num tail => IterFields { Raw := tail } num groupSink false) F [] 0 {} hF
    rw [List.append_nil] at hr
    exact GetOne_single (F : Int) (encodeTag F 4) 0 _ hr

/-- C24 (amended) at `P` = the varint field 1 with value 5, field number 1, and `Q` empty. -/
theorem stray_end_group_is_delivered_witness :
    WellFormed (encodeTag 1 0 ++ encodeVarint 5 ++ []) ∧ WellFormed [] ∧ ValidNumber 1 ∧
      GetOne (encodeTag 1 4) [((1 : Nat) : Int)] =
        .ret { WireType := EndGroupType, Varint := 0, Raw := [] } :=
  have hwf : WellFormed (encodeTag 1 0 ++ encodeVarint 5 ++ []) :=
    WellFormed.varint 1 5 [] (by decide) (by decide) WellFormed.nil
  ⟨hwf, WellFormed.nil, by decide,
    (stray_end_group_is_delivered _ [] hwf WellFormed.nil 1 (by decide)).2.1⟩

/-- A turn of the loop in which the sink is handed a field and answers false: the scan returns
the count reached after that field. -/
theorem IterFieldsLoop_stop_here {σ : Type} (F : Int) (sink : Result → σ → σ × Outcome Bool)
    (X : List Nat) (c : Int) (field : Result) (st : σ) (pb2 : List Nat) (c2 : Int) (f2 : Result)
    (hr : readField (fun num tail => IterFields { Raw := tail } num groupSink false) X c field =
      .cont F pb2 c2 f2)
    (hstop : (sink f2 st).2 = .ret false) :
    IterFieldsLoop X.length F sink X c field st = ((sink f2 st).1, .ret (c2, none)) := by
  have hlt := readField_cont_length _ X c field F pb2 c2 f2 hr
  have hgt : X.length > 0 := by omega
  rw [IterFieldsLoop_eq X.length F sink X c field st (le_refl _), if_pos hgt, hr]
  simp only
  rw [if_neg (by simp)]
  rcases hs : sink f2 st with ⟨st1, o⟩
  rw [hs] at hstop
  simp only at hstop
  subst hstop
  rfl

/-- C25 (as stated, refuted). The sink of `GetOne` stops at the first field numbered 1.  On the
buffer `0c` (the end-group tag of field 1, one byte) the scan returns the count 0, not 1; on
`14 08 01` (the end-group tag of field 2, then the varint field 1) it returns 2, although the
field it stopped at ends at offset 3. -/
theorem IterFields_stop_count_excludes_end_group_tags :
    IterFields { Raw := [0x0c] } 1 oneSink invalidResult =
        ({ WireType := EndGroupType, Varint := 0, Raw := [] }, .ret (0, none)) ∧
      IterFields { Raw := [0x14, 0x08, 0x01] } 1 oneSink invalidResult =
        ({ WireType := VarintType, Varint := 1, Raw := [0x01] }, .ret (2, none)) := by
  decide

/-- C25 (amended). Let `P` be well-formed, `rs` its matches for `F`, and let the sink answer true
on all of `rs`, reaching the state `st2`.  If the next field is a varint, fixed-width or
length-delimited field `x` numbered `F`, or a well-formed group numbered `F`, and the sink
answers false on it, `IterFields` returns a nil error and the offset just past that field (tag
and payload included), whatever follows.  If the next field is an end-group tag numbered `F`
and the sink answers false on it, `IterFields` returns a nil error and the offset at which the
tag starts: the end-group tag is not counted. -/
theorem IterFields_stop_count {σ : Type} (P Q : List Nat) (hP : WellFormed P) (F : Int)
    (rs : List Result) (hrs : GetAll P [F] = .ret rs)
    (sink : Result → σ → σ × Outcome Bool) (st st2 : σ)
    (hfeed : feed sink rs st = (st2, .ret true)) :
    (∀ x : WireField, x.Valid → (x.num : Int) = F → (sink x.toResult st2).2 = .ret false →
        IterFields { Raw := P ++ x.encode ++ Q } F sink st =
          ((sink x.toResult st2).1, .ret ((((P ++ x.encode).length : Nat) : Int), none))) ∧
      (∀ (num : Nat) (body : List Nat), ValidNumber num → WellFormed body → (num : Int) = F →
        (sink { WireType := StartGroupType, Varint := 0, Raw := body } st2).2 = .ret false →
        IterFields { Raw := P ++ (encodeTag num 3 ++ body ++ encodeTag num 4) ++ Q } F sink st =
          ((sink { WireType := StartGroupType, Varint := 0, Raw := body } st2).1,
            .ret ((((P ++ (encodeTag num 3 ++ body ++ encodeTag num 4)).length : Nat) : Int),
              none))) ∧
      (∀ num : Nat, ValidNumber num → (num : Int) = F →
        (∀ e : Result, e.WireType = EndGroupType → e.Varint = 0 → (sink e st2).2 = .ret false) →
        (IterFields { Raw := P ++ encodeTag num 4 ++ Q } F sink st).2 =
          .ret (((P.length : Nat) : Int), none)) := by
  obtain ⟨rs2, _, hSP⟩ := scan_wellFormed P hP F
  have hrs2 : rs2 = rs := by
    have h := GetAll_of_ScansThrough F P rs2 hSP
    rw [hrs] at h
    cases h
    rfl
  subst hrs2
  obtain ⟨field2, h2⟩ := IterFields_after_scanned F P rs2 hSP
  refine ⟨?_, ?_, ?_⟩
  · intro x hx hnum hstop
    rw [List.append_assoc, h2 sink (x.encode ++ Q) st st2 hfeed]
    have hr := readField_encode
      (fun num tail => IterFields { Raw := tail } num groupSink false) x hx Q
      ((P.length : Nat) : Int) field2
    rw [hnum] at hr
    rw [IterFieldsLoop_stop_here F sink _ _ field2 st2 Q _ _ hr hstop]
    simp
  · intro num body hnum hbody hF hstop
    obtain ⟨rsb, hnb, hSb⟩ := scan_wellFormed body hbody (num : Int)
    have hsg := groupScan_of_body num hnum body Q rsb hnb hSb
    have hr := readField_group
      (fun num tail => IterFields { Raw := tail } num groupSink false) num body Q
      ((P.length : Nat) : Int) field2 hnum hsg
    rw [hF] at hr
    have e1 : P ++ (encodeTag num 3 ++ body ++ encodeTag num 4) ++ Q =
        P ++ (encodeTag num 3 ++ body ++ encodeTag num 4 ++ Q) := by
      simp [List.append_assoc]
    rw [e1, h2 sink _ st st2 hfeed,
      IterFieldsLoop_stop_here F sink _ _ field2 st2 Q _ _ hr hstop]
    simp
  · intro num hnum hF hstop
    rw [List.append_assoc, h2 sink (encodeTag num 4 ++ Q) st st2 hfeed]
    have hr := readField_egroup
      (fun num tail => IterFields { Raw := tail } num groupSink false) num Q
      ((P.length : Nat) : Int) field2 hnum
    rw [hF] at hr
    rw [IterFieldsLoop_stop_here F sink _ _ field2 st2 Q _ _ hr (hstop _ rfl rfl)]

/-- C25 (amended) at `P` = the varint field 2 with value 5, the target 1, the sink of `GetOne`,
the varint field 1 with value 7 as the field stopped at, and the trailing byte `ff`. -/
theorem IterFields_stop_count_witness :
    WellFormed (encodeTag 2 0 ++ encodeVarint 5 ++ []) ∧
      GetAll (encodeTag 2 0 ++ encodeVarint 5 ++ []) [1] = .ret [] ∧
      feed oneSink [] invalidResult = (invalidResult, .ret true) ∧
      IterFields { Raw := encodeTag 2 0 ++ encodeVarint 5 ++ [] ++
          (WireField.varint 1 7).encode ++ [0xff] } 1 oneSink invalidResult =
        ({ WireType := VarintType, Varint := 7, Raw := [0x07] }, .ret (4, none)) :=
  have hwf : WellFormed (encodeTag 2 0 ++ encodeVarint 5 ++ []) :=
    WellFormed.varint 2 5 [] (by decide) (by decide) WellFormed.nil
  ⟨hwf, by decide, rfl,
    (IterFields_stop_count _ [0xff] hwf 1 [] (by decide) oneSink invalidResult invalidResult
      rfl).1 (WireField.varint 1 7) (by decide) (by decide) rfl⟩

/-! ## Group ends and trailing bytes -/

/-- C26. On the buffer `0b 14 08 08 0c` (start-group tag of field 1, end-group tag of field 2,
the varint field 1 with value 8, end-group tag of field 1) the inner group scan returns without
error and with the end-group flag set, but with the group length 2, because the end-group tag of
field 2 was taken off the count; the tag at offset 2 of the group's tail is `08`, the tag of a
VARINT field, and the outer scanner consumes it as the end of the group: the group's `Raw` is
`14 08` and the real end-group tag is delivered as a field of its own.  On `0b 14 0c` the tag
consumed at offset 0 is an end-group tag, but of field 2. -/
theorem group_end_tag_not_checked :
    IterFields { Raw := [0x14, 0x08, 0x08, 0x0c] } 1 groupSink false = (true, .ret (2, none)) ∧
      ConsumeTag ([0x14, 0x08, 0x08, 0x0c].drop 2) = (1, VarintType, 1) ∧
      GetAll [0x0b, 0x14, 0x08, 0x08, 0x0c] [1] =
        .ret [{ WireType := StartGroupType, Varint := 0, Raw := [0x14, 0x08] },
          { WireType := EndGroupType, Varint := 0, Raw := [0x14, 0x08] }] ∧
      IterFields { Raw := [0x14, 0x0c] } 1 groupSink false = (true, .ret (0, none)) ∧
      ConsumeTag ([0x14, 0x0c].drop 0) = (2, EndGroupType, 1) ∧
      GetAll [0x0b, 0x14, 0x0c] [1] =
        .ret [{ WireType := StartGroupType, Varint := 0, Raw := [] },
          { WireType := EndGroupType, Varint := 0, Raw := [] }] := by
  decide

/-- C27. With `p` = `0a 02 08 01` (field 1 holding the sub-message `08 01`) and the path 1, 1,
`GetOne(p)` is the varint 1, which exists, and so is `GetOne` of `p` followed by nothing; but
with `s1` = `12 07 74` (a length-delimited field that declares 7 bytes where 1 is left)
`GetOne(p ++ s1)` does not return: the outer scan resumes after the match and faults on the
bytes that follow it. -/
theorem GetOne_faults_on_bytes_after_match :
    GetOne [0x0a, 0x02, 0x08, 0x01] [1, 1] =
        .ret { WireType := VarintType, Varint := 1, Raw := [0x01] } ∧
      Result.Exist { WireType := VarintType, Varint := 1, Raw := [0x01] } = true ∧
      GetOne ([0x0a, 0x02, 0x08, 0x01] ++ []) [1, 1] =
        .ret { WireType := VarintType, Varint := 1, Raw := [0x01] } ∧
      GetOne ([0x0a, 0x02, 0x08, 0x01] ++ [0x12, 0x07, 0x74]) [1, 1] = .fault := by
  decide

/-! ## Bounds on the consumed count -/

/-- When the loop body reaches the code after the `switch`, the count has not gone down and has
grown by no more than the number of bytes taken off the buffer. -/
theorem readField_cont_count (sg : Int → List Nat → Bool × Outcome (Int × Option Err))
    (pb : List Nat) (c : Int) (field : Result) (fn : Int) (pb2 : List Nat) (c2 : Int)
    (f2 : Result) (h : readField sg pb c field = .cont fn pb2 c2 f2) :
    c ≤ c2 ∧ c2 - c ≤ (pb.length : Int) - (pb2.length : Int) := by
  unfold readField at h
  rcases hT : ConsumeTag pb with ⟨fn0, wt, t⟩
  rw [hT] at h
  simp only at h
  have hb := ConsumeTag_bounds pb
  rw [hT] at hb
  simp only at hb
  by_cases ht : t < 0
  · rw [if_pos ht] at h; cases h
  rw [if_neg ht] at h
  rcases hb with hb | ⟨hb1, hb2⟩
  · exact absurd hb ht
  have hd : ((pb.drop t.toNat).length : Int) = (pb.length : Int) - t := by
    rw [List.length_drop]; omega
  by_cases h0 : wt = VarintType
  · rw [if_pos h0] at h
    have hvb := ConsumeVarint_bounds (pb.drop t.toNat)
    rcases hv : ConsumeVarint (pb.drop t.toNat) with ⟨v, n⟩
    rw [hv] at h hvb
    simp only at h hvb
    by_cases hn : n < 0
    · rw [if_pos hn] at h; cases h
    rw [if_neg hn] at h
    cases h
    simp only [List.length_drop] at hd hvb ⊢
    omega
  rw [if_neg h0] at h
  by_cases h5 : wt = Fixed32Type
  · rw [if_pos h5] at h
    split at h
    · cases h
    · cases h
      simp only [List.length_drop] at *
      omega
  rw [if_neg h5] at h
  by_cases h1 : wt = Fixed64Type
  · rw [if_pos h1] at h
    split at h
    · cases h
    · cases h
      simp only [List.length_drop] at *
      omega
  rw [if_neg h1] at h
  by_cases h2 : wt = BytesType
  · rw [if_pos h2] at h
    have hvb := ConsumeVarint_bounds (pb.drop t.toNat)
    rcases hv : ConsumeVarint (pb.drop t.toNat) with ⟨v, n⟩
    rw [hv] at h hvb
    simp only at h hvb
    by_cases hn : n < 0
    · rw [if_pos hn] at h; cases h
    rw [if_neg hn] at h
    split at h
    · cases h
    · cases h
      simp only [List.length_drop] at *
      omega
  rw [if_neg h2] at h
  by_cases h3 : wt = StartGroupType
  · rw [if_pos h3] at h
    split at h
    · cases h
    · cases h
    · cases h
    · rename_i flag g hsg
      split at h
      · cases h
      split at h
      · cases h
      rename_i hg
      have htb := ConsumeTag_bounds ((pb.drop t.toNat).drop g.toNat)
      rcases hT2 : ConsumeTag ((pb.drop t.toNat).drop g.toNat) with ⟨fn2, wt2, t2⟩
      rw [hT2] at h htb
      simp only at h htb
      split at h
      · cases h
      · cases h
        simp only [List.length_drop] at *
        omega
  rw [if_neg h3] at h
  by_cases h4 : wt = EndGroupType
  · rw [if_pos h4] at h
    cases h
    simp only [List.length_drop] at hd ⊢
    omega
  · rw [if_neg h4] at h
    cases h

/-- When the loop body returns, the count it returns has not gone down and has grown by no more
than the length of the buffer. -/
theorem readField_stop_count (sg : Int → List Nat → Bool × Outcome (Int × Option Err))
    (pb : List Nat) (c : Int) (field : Result) (c2 : Int) (e : Option Err)
    (h : readField sg pb c field = .stop (.ret (c2, e))) :
    c ≤ c2 ∧ c2 - c ≤ (pb.length : Int) := by
  unfold readField at h
  rcases hT : ConsumeTag pb with ⟨fn0, wt, t⟩
  rw [hT] at h
  simp only at h
  have hb := ConsumeTag_bounds pb
  rw [hT] at hb
  simp only at hb
  by_cases ht : t < 0
  · rw [if_pos ht] at h
    cases h
    omega
  rw [if_neg ht] at h
  rcases hb with hb | ⟨hb1, hb2⟩
  · exact absurd hb ht
  have hd : ((pb.drop t.toNat).length : Int) = (pb.length : Int) - t := by
    rw [List.length_drop]; omega
  by_cases h3 : wt = StartGroupType
  · have h0 : ¬ wt = VarintType := by rw [h3]; decide
    have h5 : ¬ wt = Fixed32Type := by rw [h3]; decide
    have h1 : ¬ wt = Fixed64Type := by rw [h3]; decide
    have h2 : ¬ wt = BytesType := by rw [h3]; decide
    rw [if_neg h0, if_neg h5, if_neg h1, if_neg h2, if_pos h3] at h
    split at h
    · cases h
    · cases h
    · cases h
      omega
    · split at h
      · cases h
        omega
      split at h
      · cases h
      split at h
      · cases h
        omega
      · cases h
  · iterate 12 (all_goals try split at h)
    all_goals first
      | (cases h; done)
      | (cases h; omega)

/-- From any turn of the loop on, the count that `IterFields` returns lies between the count
at that turn and that count plus the number of bytes still in the buffer. -/
theorem IterFieldsLoop_count {σ : Type} (sink : Result → σ → σ × Outcome Bool) :
    ∀ (fuel : Nat) (F : Int) (pb : List Nat) (c : Int) (field : Result) (st : σ) (c2 : Int)
      (e : Option Err), (IterFieldsLoop fuel F sink pb c field st).2 = .ret (c2, e) →
      c ≤ c2 ∧ c2 - c ≤ (pb.length : Int) := by
  intro fuel
  induction fuel with
  | zero =>
    intro F pb c field st c2 e h
    simp only [IterFieldsLoop] at h
    split at h
    · cases h
    · cases h
      omega
  | succ n ih =>
    intro F pb c field st c2 e h
    simp only [IterFieldsLoop] at h
    split at h
    · split at h
      · rename_i out heq
        simp only at h
        subst h
        exact readField_stop_count _ _ _ _ _ _ heq
      · rename_i fn pb2 c3 f2 heq
        have hc := readField_cont_count _ _ _ _ _ _ _ _ heq
        split at h
        · have := ih _ _ _ _ _ _ _ h
          omega
        · split at h
          · have := ih _ _ _ _ _ _ _ h
            omega
          · cases h
            omega
          · cases h
          · cases h
    · cases h
      omega

/-- When the loop body reaches the code after the `switch`, what is left of the buffer is a
suffix of what was there. -/
theorem readField_cont_suffix (sg : Int → List Nat → Bool × Outcome (Int × Option Err))
    (pb : List Nat) (c : Int) (field : Result) (fn : Int) (pb2 : List Nat) (c2 : Int)
    (f2 : Result) (h : readField sg pb c field = .cont fn pb2 c2 f2) :
    List.IsSuffix pb2 pb := by
  unfold readField at h
  rcases hT : ConsumeTag pb with ⟨fn0, wt, t⟩
  rw [hT] at h
  simp only at h
  by_cases ht : t < 0
  · rw [if_pos ht] at h; cases h
  · rw [if_neg ht] at h
    iterate 12 (all_goals try split at h)
    all_goals first
      | (cases h; done)
      | (cases h; exact List.drop_suffix _ _)
      | (cases h; exact (List.drop_suffix _ _).trans (List.drop_suffix _ _))
      | (cases h
         exact (List.drop_suffix _ _).trans
           ((List.drop_suffix _ _).trans (List.drop_suffix _ _)))

/-- When the loop body returns, the count it returns exceeds the count at the start of the turn
by exactly the number of bytes the turn has taken off the buffer. -/
theorem readField_stop_remaining (sg : Int → List Nat → Bool × Outcome (Int × Option Err))
    (pb : List Nat) (c : Int) (field : Result) (c2 : Int) (e : Option Err)
    (h : readField sg pb c field = .stop (.ret (c2, e))) :
    ∃ rest, remainingAtReturn sg pb = some rest ∧ List.IsSuffix rest pb ∧
      c2 - c = (pb.length : Int) - (rest.length : Int) := by
  unfold readField at h
  unfold remainingAtReturn
  rcases hT : ConsumeTag pb with ⟨fn0, wt, t⟩
  rw [hT] at h
  simp only at h ⊢
  have hb := ConsumeTag_bounds pb
  rw [hT] at hb
  simp only at hb
  by_cases ht : t < 0
  · rw [if_pos ht] at h
    rw [if_pos ht]
    cases h
    exact ⟨pb, rfl, List.suffix_refl _, by omega⟩
  rw [if_neg ht] at h
  rw [if_neg ht]
  rcases hb with hb | ⟨hb1, hb2⟩
  · exact absurd hb ht
  have hd : ((pb.drop t.toNat).length : Int) = (pb.length : Int) - t := by
    rw [List.length_drop]; omega
  have hfin : ∃ rest, some (pb.drop t.toNat) = some rest ∧ List.IsSuffix rest pb ∧
      c + t - c = (pb.length : Int) - (rest.length : Int) :=
    ⟨_, rfl, List.drop_suffix _ _, by omega⟩
  by_cases h0 : wt = VarintType
  · rw [if_pos h0] at h
    rw [if_pos h0]
    rcases hv : ConsumeVarint (pb.drop t.toNat) with ⟨v, n⟩
    rw [hv] at h
    simp only at h ⊢
    by_cases hn : n < 0
    · rw [if_pos hn] at h
      rw [if_pos hn]
      cases h
      exact hfin
    · rw [if_neg hn] at h
      cases h
  rw [if_neg h0] at h
  rw [if_neg h0]
  by_cases h5 : wt = Fixed32Type
  · rw [if_pos h5] at h
    rw [if_pos h5]
    by_cases hl : (pb.drop t.toNat).length < 4
    · rw [if_pos hl] at h
      rw [if_pos hl]
      cases h
      exact hfin
    · rw [if_neg hl] at h
      cases h
  rw [if_neg h5] at h
  rw [if_neg h5]
  by_cases h1 : wt = Fixed64Type
  · rw [if_pos h1] at h
    rw [if_pos h1]
    by_cases hl : (pb.drop t.toNat).length < 8
    · rw [if_pos hl] at h
      rw [if_pos hl]
      cases h
      exact hfin
    · rw [if_neg hl] at h
      cases h
  rw [if_neg h1] at h
  rw [if_neg h1]
  by_cases h2 : wt = BytesType
  · rw [if_pos h2] at h
    rw [if_pos h2]
    rcases hv : ConsumeVarint (pb.drop t.toNat) with ⟨v, n⟩
    rw [hv] at h
    simp only at h ⊢
    by_cases hn : n < 0
    · rw [if_pos hn] at h
      rw [if_pos hn]
      cases h
      exact hfin
    · rw [if_neg hn] at h
      split at h <;> cases h
  rw [if_neg h2] at h
  rw [if_neg h2]
  by_cases h3 : wt = StartGroupType
  · rw [if_pos h3] at h
    rw [if_pos h3]
    rcases hsg : sg fn0 (pb.drop t.toNat) with ⟨flag, o⟩
    rw [hsg] at h
    cases o with
    | fault => simp only at h; cases h
    | diverge => simp only at h; cases h
    | ret a =>
      rcases a with ⟨g, oe⟩
      cases oe with
      | some err =>
        simp only at h ⊢
        cases h
        exact hfin
      | none =>
        simp only at h ⊢
        by_cases hf : (!flag) = true
        · rw [if_pos hf] at h
          rw [if_pos hf]
          cases h
          exact hfin
        rw [if_neg hf] at h
        rw [if_neg hf]
        by_cases hg : g < 0 ∨ g > ((pb.drop t.toNat).length : Int)
        · rw [if_pos hg] at h
          cases h
        rw [if_neg hg] at h
        rw [if_neg hg]
        rcases hT2 : ConsumeTag ((pb.drop t.toNat).drop g.toNat) with ⟨fn2, wt2, t2⟩
        rw [hT2] at h
        simp only at h ⊢
        by_cases ht2 : t2 < 0
        · rw [if_pos ht2] at h
          rw [if_pos ht2]
          cases h
          refine ⟨_, rfl, (List.drop_suffix _ _).trans (List.drop_suffix _ _), ?_⟩
          simp only [List.length_drop] at *
          omega
        · rw [if_neg ht2] at h
          cases h
  rw [if_neg h3] at h
  rw [if_neg h3]
  by_cases h4 : wt = EndGroupType
  · rw [if_pos h4] at h
    cases h
  · rw [if_neg h4] at h
    rw [if_neg h4]
    cases h
    exact hfin

/-- Whenever the scan returns, the count it returns exceeds the count it started from by no
more than the number of bytes between the start and the position of the scanner at the
return. -/
theorem IterFieldsLoop_remaining {σ : Type} (sink : Result → σ → σ × Outcome Bool) :
    ∀ (fuel : Nat) (F : Int) (pb : List Nat) (c : Int) (field : Result) (st : σ) (c2 : Int)
      (e : Option Err), (IterFieldsLoop fuel F sink pb c field st).2 = .ret (c2, e) →
      ∃ rest, IterFieldsLoopRemaining fuel F sink pb c field st = some rest ∧
        List.IsSuffix rest pb ∧ c ≤ c2 ∧ c2 - c ≤ (pb.length : Int) - (rest.length : Int) := by
  intro fuel
  induction fuel with
  | zero =>
    intro F pb c field st c2 e h
    simp only [IterFieldsLoop] at h
    simp only [IterFieldsLoopRemaining]
    split at h
    · cases h
    · rename_i hp
      rw [if_neg hp]
      cases h
      exact ⟨pb, rfl, List.suffix_refl _, le_refl _, by omega⟩
  | succ n ih =>
    intro F pb c field st c2 e h
    simp only [IterFieldsLoop] at h
    simp only [IterFieldsLoopRemaining]
    by_cases hp : pb.length > 0
    · rw [if_pos hp] at h
      rw [if_pos hp]
      rcases hr : readField
          (fun fieldNumber tail => IterFieldsLoop n fieldNumber groupSink tail 0 {} false)
          pb c field with out | ⟨fn, pb2, c3, f2⟩
      · rw [hr] at h
        simp only at h ⊢
        subst h
        obtain ⟨rest, h1, h2, h3⟩ := readField_stop_remaining _ _ _ _ _ _ hr
        exact ⟨rest, h1, h2, by have := List.IsSuffix.length_le h2; omega, by omega⟩
      · rw [hr] at h
        simp only at h ⊢
        have hc := readField_cont_count _ _ _ _ _ _ _ _ hr
        have hsuf := readField_cont_suffix _ _ _ _ _ _ _ _ hr
        by_cases hfn : fn = F
        · rw [if_neg (by simpa using hfn)] at h
          rw [if_neg (by simpa using hfn)]
          rcases hsk : sink f2 st with ⟨st2, o⟩
          rw [hsk] at h
          cases o with
          | ret v =>
            cases v with
            | true =>
              simp only at h ⊢
              obtain ⟨rest, h1, h2, h3, h4⟩ := ih _ _ _ _ _ _ _ h
              exact ⟨rest, h1, h2.trans hsuf, by omega, by omega⟩
            | false =>
              simp only at h ⊢
              cases h
              exact ⟨pb2, rfl, hsuf, by omega, by omega⟩
          | fault => simp only at h; cases h
          | diverge => simp only at h; cases h
        · rw [if_pos hfn] at h
          rw [if_pos hfn]
          obtain ⟨rest, h1, h2, h3, h4⟩ := ih _ _ _ _ _ _ _ h
          exact ⟨rest, h1, h2.trans hsuf, by omega, by omega⟩
    · rw [if_neg hp] at h
      rw [if_neg hp]
      cases h
      exact ⟨pb, rfl, List.suffix_refl _, le_refl _, by omega⟩

/-- C28. Whenever `IterFields` returns, with or without an error, its consumed count `c`
satisfies `0 ≤ c ≤ len(buffer)`, and `c` never exceeds the number of bytes the scanner has
advanced past: what is left of the buffer at the return is a suffix `rest` of the buffer, and
`c ≤ len(buffer) - len(rest)`.  Turn by turn: a turn of the loop that goes on leaves a suffix of
the buffer, never lowers the count and raises it by no more than the number of bytes it has
taken off; a turn that returns raises the count by exactly the number of bytes it has taken
off; and from any turn on, the returned count exceeds the count at that turn by no more than
the bytes advanced past since. -/
theorem IterFields_count_bounds {σ : Type} (F : Int) (sink : Result → σ → σ × Outcome Bool) :
    (∀ (m : Result) (st : σ) (c : Int) (e : Option Err),
        (IterFields m F sink st).2 = .ret (c, e) →
          0 ≤ c ∧ c ≤ (m.Raw.length : Int) ∧
            ∃ rest, IterFieldsRemaining m F sink st = some rest ∧ List.IsSuffix rest m.Raw ∧
              c ≤ (m.Raw.length : Int) - (rest.length : Int)) ∧
      (∀ (sg : Int → List Nat → Bool × Outcome (Int × Option Err)) (pb : List Nat) (c : Int)
        (field : Result) (fn : Int) (pb2 : List Nat) (c2 : Int) (f2 : Result),
        readField sg pb c field = .cont fn pb2 c2 f2 →
          List.IsSuffix pb2 pb ∧ c ≤ c2 ∧ c2 - c ≤ (pb.length : Int) - (pb2.length : Int)) ∧
      (∀ (sg : Int → List Nat → Bool × Outcome (Int × Option Err)) (pb : List Nat) (c : Int)
        (field : Result) (c2 : Int) (e : Option Err),
        readField sg pb c field = .stop (.ret (c2, e)) →
          c ≤ c2 ∧ c2 - c ≤ (pb.length : Int) ∧
            ∃ rest, remainingAtReturn sg pb = some rest ∧ List.IsSuffix rest pb ∧
              c2 - c = (pb.length : Int) - (rest.length : Int)) ∧
      (∀ (fuel : Nat) (pb : List Nat) (c : Int) (field : Result) (st : σ) (c2 : Int)
        (e : Option Err), (IterFieldsLoop fuel F sink pb c field st).2 = .ret (c2, e) →
          c ≤ c2 ∧ c2 - c ≤ (pb.length : Int) ∧
            ∃ rest, IterFieldsLoopRemaining fuel F sink pb c field st = some rest ∧
              List.IsSuffix rest pb ∧ c2 - c ≤ (pb.length : Int) - (rest.length : Int)) := by
  refine ⟨?_, ?_, ?_, ?_⟩
  · intro m st c e h
    have h1 := IterFieldsLoop_count sink _ F _ _ _ _ c e h
    obtain ⟨rest, h2, h3, _, h4⟩ := IterFieldsLoop_remaining sink _ F _ _ _ _ c e h
    exact ⟨by omega, by omega, rest, h2, h3, by omega⟩
  · intro sg pb c field fn pb2 c2 f2 h
    exact ⟨readField_cont_suffix _ _ _ _ _ _ _ _ h, readField_cont_count _ _ _ _ _ _ _ _ h⟩
  · intro sg pb c field c2 e h
    have h1 := readField_stop_count _ _ _ _ _ _ h
    exact ⟨h1.1, h1.2, readField_stop_remaining _ _ _ _ _ _ h⟩
  · intro fuel pb c field st c2 e h
    have h1 := IterFieldsLoop_count sink fuel F pb c field st c2 e h
    obtain ⟨rest, h2, h3, _, h4⟩ := IterFieldsLoop_remaining sink fuel F pb c field st c2 e h
    exact ⟨h1.1, h1.2, rest, h2, h3, h4⟩

/-- C28 at the buffer `14 08 01` (the end-group tag of field 2, then the varint field 1) with
the sink of `GetOne`: the scan returns the count 2 at the end of the 3 bytes of the buffer; and
at the buffer `08 01 15 01 02 03` (a FIXED32 field cut short), where the scan returns the count
3 with the 3 bytes `01 02 03` left. -/
theorem IterFields_count_bounds_witness :
    (IterFields { Raw := [0x14, 0x08, 0x01] } 1 oneSink invalidResult).2 = .ret (2, none) ∧
      IterFieldsRemaining { Raw := [0x14, 0x08, 0x01] } 1 oneSink invalidResult = some [] ∧
      ((0 : Int) ≤ 2 ∧ (2 : Int) ≤ (([0x14, 0x08, 0x01] : List Nat).length : Int) ∧
        ∃ rest, IterFieldsRemaining { Raw := [0x14, 0x08, 0x01] } 1 oneSink invalidResult =
            some rest ∧ List.IsSuffix rest [0x14, 0x08, 0x01] ∧
          (2 : Int) ≤ (([0x14, 0x08, 0x01] : List Nat).length : Int) - (rest.length : Int)) ∧
      (IterFields { Raw := [0x08, 0x01, 0x15, 0x01, 0x02, 0x03] } 2 allSink []).2 =
        .ret (3, some .ErrInvalidLength) ∧
      IterFieldsRemaining { Raw := [0x08, 0x01, 0x15, 0x01, 0x02, 0x03] } 2 allSink [] =
        some [0x01, 0x02, 0x03] :=
  ⟨by decide, by decide,
    (IterFields_count_bounds 1 oneSink).1 { Raw := [0x14, 0x08, 0x01] } invalidResult 2 none
      (by decide), by decide, by decide⟩

/-! ## Termination -/

/-- The loop body hands on `diverge` only from the group scan, which it calls on a strictly
shorter buffer. -/
theorem readField_stop_diverge (sg : Int → List Nat → Bool × Outcome (Int × Option Err))
    (pb : List Nat) (c : Int) (field : Result)
    (h : readField sg pb c field = .stop .diverge) :
    ∃ num tail, tail.length < pb.length ∧ (sg num tail).2 = .diverge := by
  unfold readField at h
  rcases hT : ConsumeTag pb with ⟨fn0, wt, t⟩
  rw [hT] at h
  simp only at h
  have hb := ConsumeTag_bounds pb
  rw [hT] at hb
  simp only at hb
  by_cases ht : t < 0
  · rw [if_pos ht] at h
    cases h
  rw [if_neg ht] at h
  rcases hb with hb | ⟨hb1, hb2⟩
  · exact absurd hb ht
  have hlt : (pb.drop t.toNat).length < pb.length := by
    rw [List.length_drop]; omega
  by_cases h3 : wt = StartGroupType
  · have h0 : ¬ wt = VarintType := by rw [h3]; decide
    have h5 : ¬ wt = Fixed32Type := by rw [h3]; decide
    have h1 : ¬ wt = Fixed64Type := by rw [h3]; decide
    have h2 : ¬ wt = BytesType := by rw [h3]; decide
    rw [if_neg h0, if_neg h5, if_neg h1, if_neg h2, if_pos h3] at h
    split at h
    · cases h
    · rename_i heq
      exact ⟨fn0, pb.drop t.toNat, hlt, by rw [heq]⟩
    · cases h
    · iterate 4 (all_goals try split at h)
      all_goals cases h
  · iterate 12 (all_goals try split at h)
    all_goals cases h

/-- A scan never runs out of fuel: with a sink that does not diverge on the states the scan can
reach, `IterFields`, started with as much fuel as the buffer is long, does not diverge. -/
theorem IterFieldsLoop_total : ∀ (n : Nat) {σ : Type} (P : σ → Prop)
    (sink : Result → σ → σ × Outcome Bool),
    (∀ r st, P st → (sink r st).2 ≠ .diverge ∧ (¬ (sink r st).2.aborted → P (sink r st).1)) →
    ∀ (F : Int) (pb : List Nat) (c : Int) (field : Result) (st : σ), pb.length ≤ n → P st →
      (IterFieldsLoop pb.length F sink pb c field st).2 ≠ .diverge := by
  intro n
  induction n with
  | zero =>
    intro σ P sink hs F pb c field st hle hP
    have h0 : pb.length = 0 := by omega
    rw [h0]
    simp [IterFieldsLoop, h0]
  | succ n ih =>
    intro σ P sink hs F pb c field st hle hP
    rw [IterFieldsLoop_eq pb.length F sink pb c field st (le_refl _)]
    split
    · split
      · rename_i out heq
        intro hout
        simp only at hout
        subst hout
        obtain ⟨num, tail, hlt, hd⟩ := readField_stop_diverge _ _ _ _ heq
        have hg := ih (fun _ : Bool => True) groupSink
          (fun r b _ => ⟨by unfold groupSink; split <;> simp, fun _ => trivial⟩)
          num tail 0 {} false (by omega) trivial
        exact hg hd
      · rename_i fn pb2 c2 f2 heq
        have hlt := readField_cont_length _ _ _ _ _ _ _ _ heq
        split
        · exact ih P sink hs F pb2 c2 f2 st (by omega) hP
        · have h1 := hs f2 st hP
          split <;> rename_i heq2 <;> rw [heq2] at h1
          · exact ih P sink hs F pb2 c2 f2 _ (by omega) (h1.2 (by simp [Outcome.aborted]))
          · simp
          · simp
          · exact absurd rfl h1.1
    · simp

/-- The level is kept by every call of `walkFunc` that returns. -/
theorem walkFunc_level {σ : Type} (path : List Int) (sink : Result → σ → σ × Outcome Bool) :
    ∀ (fuel : Nat) (d : Int) (it : Result) (st : WalkState σ), AtLevel d st →
      ¬ (walkFunc path sink fuel it st).2.aborted →
        AtLevel d (walkFunc path sink fuel it st).1 := by
  intro fuel
  induction fuel with
  | zero =>
    intro d it st h
    simp only [walkFunc]
    split
    · exact fun _ => h
    · split
      · intro _
        have hs : ¬ st.skip = true := by assumption
        have hd : st.depth = d := by
          rcases h with h | h
          · exact absurd h hs
          · exact h
        unfold walkDeliver
        split <;> simp [AtLevel, hd]
      · intro ha
        exact absurd trivial ha
  | succ n ih =>
    intro d it st h
    by_cases hs : st.skip = true
    · rw [walkFunc_skip path sink _ it st hs]
      exact fun _ => h
    have hd : st.depth = d := by
      rcases h with h | h
      · exact absurd h hs
      · exact h
    by_cases hlast : st.depth = (path.length : Int) - 1
    · rw [walkFunc_deliver path sink _ it st hs hlast]
      intro _
      unfold walkDeliver
      split <;> simp [AtLevel, hd]
    · simp only [walkFunc, if_neg hs, if_neg hlast]
      split
      · intro ha
        exact absurd trivial ha
      · rename_i num hnum
        have hinv := IterFieldsLoop_inv_ret (AtLevel (d + 1)) (walkFunc path sink n)
          (fun r s hP hna => ih (d + 1) r s hP hna) it.Raw.length num it.Raw 0 {}
          { st with depth := st.depth + 1 } (Or.inr (by simp [hd]))
        unfold IterFields
        split <;> rename_i heq <;> rw [heq] at hinv <;> intro ha
        · exact Or.inl rfl
        · have h2 := hinv (by simp [Outcome.aborted])
          rcases h2 with h2 | h2
          · exact Or.inl h2
          · right
            simp only at h2 ⊢
            omega
        · exact absurd trivial ha
        · exact absurd trivial ha

/-- A call of `walkFunc` at a level inside the path, with at least as much fuel as levels are
left, does not run out of fuel. -/
theorem walkFunc_total {σ : Type} (path : List Int) (sink : Result → σ → σ × Outcome Bool)
    (hsink : ∀ r u, (sink r u).2 ≠ .diverge) :
    ∀ (fuel : Nat) (d : Int) (it : Result) (st : WalkState σ), AtLevel d st →
      (path.length : Int) ≤ d + fuel → d ≤ (path.length : Int) - 1 →
        (walkFunc path sink fuel it st).2 ≠ .diverge := by
  intro fuel
  induction fuel with
  | zero =>
    intro d it st h h1 h2
    omega
  | succ n ih =>
    intro d it st h h1 h2
    by_cases hs : st.skip = true
    · rw [walkFunc_skip path sink _ it st hs]
      simp
    have hd : st.depth = d := by
      rcases h with h | h
      · exact absurd h hs
      · exact h
    by_cases hlast : st.depth = (path.length : Int) - 1
    · rw [walkFunc_deliver path sink _ it st hs hlast]
      have := hsink it st.user
      unfold walkDeliver
      split <;> rename_i heq <;> rw [heq] at this <;> simp at this ⊢
    · simp only [walkFunc, if_neg hs, if_neg hlast]
      split
      · simp
      · rename_i num hnum
        have hnd := IterFieldsLoop_total it.Raw.length (AtLevel (d + 1)) (walkFunc path sink n)
          (fun r s hP => ⟨ih (d + 1) r s hP (by push_cast at h1 ⊢; omega) (by omega),
            walkFunc_level path sink n (d + 1) r s hP⟩)
          num it.Raw 0 {} { st with depth := st.depth + 1 } (le_refl _) (Or.inr (by simp [hd]))
        unfold IterFields
        split <;> rename_i heq <;> rw [heq] at hnd
        · simp
        · simp
        · simp
        · exact absurd rfl hnd

/-- C29. `IterFields` terminates on every input: started with as much fuel as the buffer is
long, the scan never runs out of fuel when the sink returns.  Every turn of the loop that does
not return leaves a strictly shorter buffer, and the scan of a group is called only on a
strictly shorter buffer, so the length of the buffer bounds the recursion, and fuel beyond the
length of the buffer changes nothing.  `GetIter` gives
`walkFunc` as much fuel as the path is long, and never runs out of it: the nesting of the
descents is bounded by the length of the path. -/
theorem IterFields_terminates :
    (∀ {σ : Type} (sink : Result → σ → σ × Outcome Bool), (∀ r st, (sink r st).2 ≠ .diverge) →
        ∀ (m : Result) (F : Int) (st : σ), (IterFields m F sink st).2 ≠ .diverge) ∧
      (∀ (sg : Int → List Nat → Bool × Outcome (Int × Option Err)) (pb : List Nat) (c : Int)
        (field : Result) (fn : Int) (pb2 : List Nat) (c2 : Int) (f2 : Result),
        readField sg pb c field = .cont fn pb2 c2 f2 → pb2.length < pb.length) ∧
      (∀ (sg sg2 : Int → List Nat → Bool × Outcome (Int × Option Err)) (pb : List Nat) (c : Int)
        (field : Result), (∀ num tail, tail.length < pb.length → sg num tail = sg2 num tail) →
        readField sg pb c field = readField sg2 pb c field) ∧
      (∀ {σ : Type} (fuel : Nat) (F : Int) (sink : Result → σ → σ × Outcome Bool) (pb : List Nat)
        (c : Int) (field : Result) (st : σ), pb.length ≤ fuel →
        IterFieldsLoop fuel F sink pb c field st =
          IterFieldsLoop pb.length F sink pb c field st) ∧
      (∀ {σ : Type} (sink : Result → σ → σ × Outcome Bool), (∀ r st, (sink r st).2 ≠ .diverge) →
        ∀ (m : Result) (path : List Int) (user : σ),
          (m.GetIter sink path user).2 ≠ .diverge) := by
  refine ⟨?_, readField_cont_length, readField_congr,
    fun fuel F sink pb c field st h => IterFieldsLoop_fuel fuel F sink pb c field st h, ?_⟩
  · intro σ sink hs m F st
    exact IterFieldsLoop_total m.Raw.length (fun _ => True) sink
      (fun r s _ => ⟨hs r s, fun _ => trivial⟩) F m.Raw 0 {} st (le_refl _) trivial
  · intro σ sink hs m path user
    cases path with
    | nil => simp [Result.GetIter, indexPath]
    | cons F rest =>
      rw [GetIter_cons]
      have hnd := IterFieldsLoop_total m.Raw.length (AtLevel 0)
        (walkFunc (F :: rest) sink (F :: rest).length)
        (fun r s hP => ⟨walkFunc_total (F :: rest) sink hs _ 0 r s hP (by simp)
            (by simp only [List.length_cons]; push_cast; omega),
          walkFunc_level (F :: rest) sink _ 0 r s hP⟩)
        F m.Raw 0 {} ({ user := user } : WalkState σ) (le_refl _) (Or.inr rfl)
      split <;> rename_i heq <;> rw [heq] at hnd
      · simp
      · simp
      · simp
      · exact absurd rfl hnd

/-- C29 at the buffer `0b 08 01 0c` (a group holding one varint field), scanned for field 1 with
the sink of `GetAll`, and at the traversal of the path 1, 1. -/
theorem IterFields_terminates_witness :
    (∀ (r : Result) (st : List Result), (allSink r st).2 ≠ .diverge) ∧
      (IterFields { Raw := [0x0b, 0x08, 0x01, 0x0c] } 1 allSink []).2 ≠ .diverge ∧
      (Result.GetIter { Raw := [0x0b, 0x08, 0x01, 0x0c] } allSink [1, 1] []).2 ≠ .diverge :=
  ⟨fun _ _ => by simp [allSink],
    IterFields_terminates.1 allSink (fun _ _ => by simp [allSink]) _ 1 [],
    IterFields_terminates.2.2.2.2 allSink (fun _ _ => by simp [allSink]) _ [1, 1] []⟩

/-! ## The depth counter -/

/-- A property of the captured state that every returning call of the sink keeps holds at every
call the scan makes. -/
theorem IterFieldsLoop_calls {σ : Type} (P : σ → Prop) (sink : Result → σ → σ × Outcome Bool)
    (hs : ∀ r st, P st → ¬ (sink r st).2.aborted → P (sink r st).1) :
    ∀ (fuel : Nat) (F : Int) (pb : List Nat) (c : Int) (field : Result)
      (tr : List (Result × σ)) (st : σ), (∀ x ∈ tr, P x.2) → P st →
      ∀ x ∈ (IterFieldsLoop fuel F (traceSink sink) pb c field (tr, st)).1.1, P x.2 := by
  intro fuel
  induction fuel with
  | zero =>
    intro F pb c field tr st htr hP
    simp only [IterFieldsLoop]
    split <;> exact htr
  | succ n ih =>
    intro F pb c field tr st htr hP
    simp only [IterFieldsLoop]
    split
    · split
      · exact htr
      · rename_i fn pb2 c2 f2 heq
        split
        · exact ih _ _ _ _ _ _ htr hP
        · have htr2 : ∀ x ∈ tr ++ [(f2, st)], P x.2 := by
            intro x hx
            rcases List.mem_append.1 hx with h | h
            · exact htr x h
            · rw [List.mem_singleton.1 h]
              exact hP
          have h2 := hs f2 st hP
          rcases hsk : sink f2 st with ⟨st2, o⟩
          rw [hsk] at h2
          have ht : traceSink sink f2 (tr, st) = ((tr ++ [(f2, st)], st2), o) := by
            simp [traceSink, hsk]
          rw [ht]
          cases o with
          | ret v =>
            cases v with
            | true => exact ih _ _ _ _ _ _ htr2 (h2 (by simp [Outcome.aborted]))
            | false => exact htr2
          | fault => exact htr2
          | diverge => exact htr2
    · exact htr

/-- Every call of `walkFunc` in the course of `GetIter` finds the captured state at the level of
the call, the path length less the fuel of the call, and that level lies inside the path. -/
theorem WalkCalled_level {σ : Type} (pbNumbers : List Int)
    (resultSink : Result → σ → σ × Outcome Bool) (r : Result) (user : σ) (fuel : Nat)
    (it : Result) (st : WalkState σ)
    (h : WalkCalled pbNumbers resultSink r user fuel it st) :
    AtLevel ((pbNumbers.length : Int) - fuel) st ∧ 1 ≤ fuel ∧ fuel ≤ pbNumbers.length := by
  induction h with
  | top pbNumber it st hidx hmem =>
    have hpos : 1 ≤ pbNumbers.length := by
      cases pbNumbers with
      | nil => simp [indexPath] at hidx
      | cons a l => simp
    refine ⟨?_, hpos, le_refl _⟩
    have := IterFieldsLoop_calls (AtLevel 0)
      (walkFunc pbNumbers resultSink pbNumbers.length)
      (fun r s hP hna => walkFunc_level pbNumbers resultSink _ 0 r s hP hna)
      r.Raw.length pbNumber r.Raw 0 {} [] ({ user := user } : WalkState σ)
      (fun x hx => by cases hx) (Or.inr rfl) (it, st) hmem
    simpa using this
  | inner fuel it st pbNumber it2 st2 hcall hskip hlast hidx hmem ih =>
    obtain ⟨hlev, _, hle⟩ := ih
    have hd : st.depth = (pbNumbers.length : Int) - ((fuel + 1 : Nat) : Int) := by
      rcases hlev with h | h
      · rw [hskip] at h; cases h
      · exact h
    have hf : 1 ≤ fuel := by
      rcases Nat.eq_zero_or_pos fuel with h0 | hp
      · subst h0
        exact absurd (by rw [hd]; simp) hlast
      · exact hp
    refine ⟨?_, hf, by omega⟩
    have := IterFieldsLoop_calls (AtLevel ((pbNumbers.length : Int) - fuel))
      (walkFunc pbNumbers resultSink fuel)
      (fun r s hP hna => walkFunc_level pbNumbers resultSink _ _ r s hP hna)
      it.Raw.length pbNumber it.Raw 0 {} [] { st with depth := st.depth + 1 }
      (fun x hx => by cases hx) (Or.inr (by simp only [hd]; push_cast; omega)) (it2, st2) hmem
    exact this

/-- C30. For every buffer, every non-empty path and every sink: the index `pbNumbers[depth]`
that `GetIter` evaluates first is in range (`depth` is 0); and at every call of `walkFunc` in
the course of the traversal, `skip` is set or `depth` is the level of the call; a call with
`skip` set returns at once and uses neither `depth` nor the sink, also when `depth` was left
un-decremented by an inner error; a call with `depth = len(pbNumbers) - 1` hands the field to
the sink and evaluates no index; every other call raises `depth` and evaluates
`pbNumbers[depth]` with `0 ≤ depth < len(pbNumbers)`, and does not invoke the sink itself.  So
every index evaluation is in range and every sink invocation happens with
`depth = len(pbNumbers) - 1`. -/
theorem GetIter_depth_in_range {σ : Type} (pbNumbers : List Int) (hne : pbNumbers ≠ [])
    (resultSink : Result → σ → σ × Outcome Bool) (r : Result) (user : σ) :
    indexPath pbNumbers 0 ≠ none ∧
      ∀ (fuel : Nat) (it : Result) (st : WalkState σ),
        WalkCalled pbNumbers resultSink r user fuel it st →
        (st.skip = true ∨ st.depth = (pbNumbers.length : Int) - fuel) ∧
          (st.skip = true → walkFunc pbNumbers resultSink fuel it st = (st, .ret false)) ∧
          (st.skip = false → st.depth = (pbNumbers.length : Int) - 1 →
            walkFunc pbNumbers resultSink fuel it st = walkDeliver resultSink it st) ∧
          (st.skip = false → st.depth ≠ (pbNumbers.length : Int) - 1 →
            0 ≤ st.depth + 1 ∧ st.depth + 1 < (pbNumbers.length : Int) ∧
              indexPath pbNumbers (st.depth + 1) ≠ none ∧
              ∃ fuel2 pbNumber, fuel = fuel2 + 1 ∧
                indexPath pbNumbers (st.depth + 1) = some pbNumber ∧
                walkFunc pbNumbers resultSink fuel it st =
                  match IterFields it pbNumber (walkFunc pbNumbers resultSink fuel2)
                    { st with depth := st.depth + 1 } with
                  | (st, .ret (_, some innerErr)) =>
                    ({ st with err := some innerErr, skip := true }, .ret false)
                  | (st, .ret (_, none)) => ({ st with depth := st.depth - 1 }, .ret true)
                  | (st, .fault) => (st, .fault)
                  | (st, .diverge) => (st, .diverge)) := by
  constructor
  · cases pbNumbers with
    | nil => exact absurd rfl hne
    | cons a l => simp [indexPath]
  intro fuel it st hcall
  obtain ⟨hlev, hf, hle⟩ := WalkCalled_level pbNumbers resultSink r user fuel it st hcall
  refine ⟨hlev, fun hs => walkFunc_skip pbNumbers resultSink fuel it st hs,
    fun hs hlast => walkFunc_deliver pbNumbers resultSink fuel it st (by simp [hs]) hlast, ?_⟩
  intro hs hlast
  have hd : st.depth = (pbNumbers.length : Int) - fuel := by
    rcases hlev with h | h
    · rw [hs] at h; cases h
    · exact h
  have h0 : 0 ≤ st.depth + 1 := by omega
  have h1 : st.depth + 1 < (pbNumbers.length : Int) := by omega
  have hidx : ∃ pbNumber, indexPath pbNumbers (st.depth + 1) = some pbNumber := by
    unfold indexPath
    rw [if_neg (by omega)]
    have hlt : (st.depth + 1).toNat < pbNumbers.length := by omega
    exact ⟨pbNumbers.get ⟨_, hlt⟩, List.get?_eq_get hlt⟩
  obtain ⟨pbNumber, hp⟩ := hidx
  refine ⟨h0, h1, by rw [hp]; simp, ?_⟩
  obtain ⟨fuel2, rfl⟩ : ∃ fuel2, fuel = fuel2 + 1 := ⟨fuel - 1, by omega⟩
  refine ⟨fuel2, pbNumber, rfl, hp, ?_⟩
  exact walkFunc_descend pbNumbers resultSink fuel2 it st pbNumber (by simp [hs]) hlast hp

/-- C30 at the path 1, 1 on the buffer `0a 02 08 01`, where the call on the inner varint field
is made at depth 1, and at the path 1, 1, 1 on the buffer `0a 03 0a 01 0f 08 00`, where the scan
two levels down fails: the next top-level call finds `skip` set and `depth` left at 1, and
returns at once. -/
theorem GetIter_depth_in_range_witness :
    ([1, 1] : List Int) ≠ [] ∧
      WalkCalled [1, 1] oneSink { Raw := [0x0a, 0x02, 0x08, 0x01] } invalidResult 1
        { WireType := VarintType, Varint := 1, Raw := [0x01] }
        { depth := 1, user := invalidResult } ∧
      ((({ depth := 1, user := invalidResult } : WalkState Result).skip = true) ∨
        ({ depth := 1, user := invalidResult } : WalkState Result).depth =
          ((([1, 1] : List Int).length : Int) - ((1 : Nat) : Int))) ∧
      WalkCalled [1, 1, 1] allSink { Raw := [0x0a, 0x03, 0x0a, 0x01, 0x0f, 0x08, 0x00] } [] 3
        { WireType := VarintType, Varint := 0, Raw := [0x00] }
        { skip := true, depth := 1, err := some (.ErrUnknownWireType 7), user := [] } ∧
      walkFunc [1, 1, 1] allSink 3 { WireType := VarintType, Varint := 0, Raw := [0x00] }
          { skip := true, depth := 1, err := some (.ErrUnknownWireType 7), user := [] } =
        ({ skip := true, depth := 1, err := some (.ErrUnknownWireType 7), user := [] },
          .ret false) :=
  have hc1 : WalkCalled [1, 1] oneSink { Raw := [0x0a, 0x02, 0x08, 0x01] } invalidResult 2
      { WireType := BytesType, Varint := 0, Raw := [0x08, 0x01] } { user := invalidResult } :=
    WalkCalled.top 1 _ _ rfl (List.Mem.head _)
  have hc2 : WalkCalled [1, 1] oneSink { Raw := [0x0a, 0x02, 0x08, 0x01] } invalidResult 1
      { WireType := VarintType, Varint := 1, Raw := [0x01] }
      { depth := 1, user := invalidResult } :=
    WalkCalled.inner 1 _ _ 1 _ _ hc1 rfl (by decide) rfl (List.Mem.head _)
  have hc3 : WalkCalled [1, 1, 1] allSink
      { Raw := [0x0a, 0x03, 0x0a, 0x01, 0x0f, 0x08, 0x00] } [] 3
      { WireType := VarintType, Varint := 0, Raw := [0x00] }
      { skip := true, depth := 1, err := some (.ErrUnknownWireType 7), user := [] } :=
    WalkCalled.top 1 _ _ rfl (List.Mem.tail _ (List.Mem.head _))
  ⟨by decide, hc2,
    ((GetIter_depth_in_range [1, 1] (by decide) oneSink _ invalidResult).2 1 _ _ hc2).1, hc3,
    ((GetIter_depth_in_range [1, 1, 1] (by decide) allSink _ []).2 3 _ _ hc3).2.1 rfl⟩

end Gpb
